import Mathlib

/-!
# Verification of the Maze repository's logic core

A shallow embedding, in Lean, of the pure logic of the maze puzzle game:

* the path-tracking engine (`src/helloworld/src/maze/engine.ts`),
* the Base64 / payload / grid / move decoders (`src/helloworld/src/maze/decoder.ts`),
* the authoring-side packers and the maze generation algorithms
  (`src/temp/app.js`),
* the gameplay `processCell` handler (App component in the same bundle as
  `decoder.ts`).

JavaScript numbers that only ever hold integers are modelled as `Int`
(indices, moves, coordinates); byte arrays (`Uint8Array`) as `List Nat`
or as functions `Nat → Nat` whose values are the stored bytes; strings as
`List Char`.  The external decompression primitive (`pako.inflate`) and
`JSON.parse` are modelled as oracle parameters, constrained only where a
theorem needs a documented fact about them (e.g. that zlib data must start
with a compression-method nibble of 8).
-/

namespace MazeProof

/-! ## Path-tracking engine — `src/helloworld/src/maze/engine.ts` -/

/-- The `for` loop of `firstDivergence`: walk both move lists in lockstep
(the loop bound `Math.min(p.length, s.length)` is the point where one of
the lists runs out), returning the first index — offset by the
accumulator `k` — where the entries differ, or `none` when the common
prefix agrees throughout. -/
def divergeLoop : List Int → List Int → Nat → Option Nat
  | p :: ps, s :: ss, k => if p = s then divergeLoop ps ss (k + 1) else some k
  | _, _, _ => none

/-- `firstDivergence(playerMoves, solutionMoves)` from `engine.ts`:
first differing index over the common prefix; if none, `solutionMoves.length`
when the player list is strictly longer, else `-1`. -/
def firstDivergence (playerMoves solutionMoves : List Int) : Int :=
  match divergeLoop playerMoves solutionMoves 0 with
  | some i => (i : Int)
  | none =>
    if solutionMoves.length < playerMoves.length then (solutionMoves.length : Int)
    else -1

/-- JavaScript `Array.prototype.slice(start, end)` on a list of integers:
negative indices count from the end, then both are clamped into
`[0, length]` and the half-open range is extracted. -/
def jsSlice (l : List Int) (s e : Int) : List Int :=
  let len : Int := l.length
  let s' := if s < 0 then max (len + s) 0 else min s len
  let e' := if e < 0 then max (len + e) 0 else min e len
  (l.take e'.toNat).drop s'.toNat

/-- `hintSegment(solutionMoves, progress, divergence, L)` from `engine.ts`.
`progress`, `divergence` and `L` are JS numbers; the game passes integers,
so `Math.floor(progress)` is the identity and is dropped in the model. -/
def hintSegment (solutionMoves : List Int) (progress divergence L : Int) : List Int :=
  let cappedSolution := jsSlice solutionMoves 0 L
  let clampedProgress := max 0 (min progress (cappedSolution.length : Int))
  let clampedDivergence :=
    if divergence ≥ 0 then min divergence (cappedSolution.length : Int) else -1
  let start := max clampedProgress
    (if clampedDivergence ≥ 0 then clampedDivergence else clampedProgress)
  let remaining := max 0 ((cappedSolution.length : Int) - start)
  if remaining = 0 then []
  else
    let takeCount := if remaining ≥ 20 then 20 else min 10 remaining
    jsSlice cappedSolution start (start + takeCount)

/-- `hintSegment` as claim C4 words it: clamp the reference to its **first
`cap` entries**, clamp `progress` and (when non-negative) `divergenceIndex`
into `[0, clampedLength]`, start at their maximum, and return the slice
from `start` of length exactly 20 when at least 20 moves remain, else
`min 10 remaining`. -/
def hintSegmentClaim (ref : List Int) (progress divergence cap : Int) : List Int :=
  let clamped := ref.take cap.toNat
  let n : Int := clamped.length
  let cp := max 0 (min progress n)
  let start := if divergence ≥ 0 then max cp (max 0 (min divergence n)) else cp
  let remaining := n - start
  let len := if remaining ≥ 20 then 20 else min 10 remaining
  (clamped.drop start.toNat).take len.toNat

/-! ### Lemmas about `divergeLoop` -/

theorem divergeLoop_eq_none (p s : List Int) (k : Nat)
    (h : ∀ i, i < p.length → i < s.length → p.getD i 0 = s.getD i 0) :
    divergeLoop p s k = none := by
  induction p generalizing s k with
  | nil => cases s <;> rfl
  | cons a ps ih =>
    cases s with
    | nil => rfl
    | cons b ss =>
      have h0 : a = b := by simpa using h 0 (by simp) (by simp)
      simp only [divergeLoop, h0, if_pos rfl]
      exact ih ss (k + 1) fun i hi hsi => by
        simpa using h (i + 1) (by simpa using hi) (by simpa using hsi)

theorem divergeLoop_eq_some (i : Nat) (p s : List Int) (k : Nat)
    (hp : i < p.length) (hs : i < s.length)
    (hne : p.getD i 0 ≠ s.getD i 0)
    (hagree : ∀ j, j < i → p.getD j 0 = s.getD j 0) :
    divergeLoop p s k = some (k + i) := by
  induction i generalizing p s k with
  | zero =>
    cases p with
    | nil => simp at hp
    | cons a ps =>
      cases s with
      | nil => simp at hs
      | cons b ss =>
        have hab : a ≠ b := by simpa using hne
        simp [divergeLoop, hab]
  | succ n ih =>
    cases p with
    | nil => simp at hp
    | cons a ps =>
      cases s with
      | nil => simp at hs
      | cons b ss =>
        have h0 : a = b := by simpa using hagree 0 (Nat.succ_pos n)
        have hp' : n < ps.length := by simp at hp; omega
        have hs' : n < ss.length := by simp at hs; omega
        have hne' : ps.getD n 0 ≠ ss.getD n 0 := by
          simpa [List.getD_cons_succ] using hne
        have hagree' : ∀ j, j < n → ps.getD j 0 = ss.getD j 0 := fun j hj => by
          simpa [List.getD_cons_succ] using hagree (j + 1) (by omega)
        have harith : k + (n + 1) = (k + 1) + n := by omega
        rw [harith]
        simp only [divergeLoop, h0, if_pos rfl]
        exact ih ps ss (k + 1) hp' hs' hne' hagree'

theorem prefix_getD_agree {p s : List Int} (h : p <+: s) :
    ∀ i, i < p.length → i < s.length → p.getD i 0 = s.getD i 0 := by
  obtain ⟨t, rfl⟩ := h
  intro i hi _
  rw [List.getD_eq_getElem?_getD, List.getD_eq_getElem?_getD,
    List.getElem?_append_left hi]

/-- **C3.** `firstDivergence` behaviour: `-1` on a (possibly equal) prefix,
the least differing index when the sequences differ inside the common
prefix, and `solutionMoves.length` when the player list strictly extends
the solution. -/
theorem firstDivergence_spec (p s : List Int) :
    (p <+: s → firstDivergence p s = -1) ∧
    (∀ i : Nat, i < p.length → i < s.length → p.getD i 0 ≠ s.getD i 0 →
      (∀ j, j < i → p.getD j 0 = s.getD j 0) → firstDivergence p s = (i : Int)) ∧
    (s <+: p → s.length < p.length → firstDivergence p s = (s.length : Int)) := by
  refine ⟨?_, ?_, ?_⟩
  · intro h
    have hle : p.length ≤ s.length := h.length_le
    rw [firstDivergence, divergeLoop_eq_none p s 0 (prefix_getD_agree h)]
    simp
    omega
  · intro i hp hs hne hagree
    rw [firstDivergence, divergeLoop_eq_some i p s 0 hp hs hne hagree]
    simp
  · intro h hlt
    have hagree : ∀ i, i < p.length → i < s.length → p.getD i 0 = s.getD i 0 :=
      fun i hi hsi => (prefix_getD_agree h i hsi hi).symm
    rw [firstDivergence, divergeLoop_eq_none p s 0 hagree]
    simp [hlt]

/-- Witness for C3 at the three concrete inputs the spec lists. -/
theorem firstDivergence_spec_witness :
    firstDivergence [0, 1, 2] [0, 1, 2, 3] = -1 ∧
    firstDivergence [0, 2] [0, 1, 2] = 1 ∧
    firstDivergence [0, 1, 2, 3] [0, 1, 2] = 3 := by
  refine ⟨(firstDivergence_spec _ _).1 (by decide), ?_, ?_⟩
  · exact (firstDivergence_spec [0, 2] [0, 1, 2]).2.1 1 (by decide) (by decide)
      (by decide) (by decide)
  · exact (firstDivergence_spec [0, 1, 2, 3] [0, 1, 2]).2.2 (by decide) (by decide)

/-! ### Lemmas about `jsSlice`, and claim C4 -/

theorem jsSlice_zero_nonneg (l : List Int) (e : Int) (he : 0 ≤ e) :
    jsSlice l 0 e = l.take e.toNat := by
  simp only [jsSlice]
  have hlen : (0:Int) ≤ l.length := by omega
  rw [if_neg (by omega), if_neg (by omega)]
  have h0 : min (0:Int) (l.length : Int) = 0 := by omega
  rw [h0]
  simp only [Int.toNat_zero, List.drop_zero]
  rcases le_or_lt e (l.length : Int) with h | h
  · rw [min_eq_left h]
  · rw [min_eq_right h.le]
    rw [Int.toNat_natCast, List.take_length]
    exact (List.take_of_length_le (by omega)).symm

theorem jsSlice_take_drop (l : List Int) (s k : Int)
    (hs0 : 0 ≤ s) (hk : 0 ≤ k) (hsk : s + k ≤ (l.length : Int)) :
    jsSlice l s (s + k) = (l.drop s.toNat).take k.toNat := by
  simp only [jsSlice]
  rw [if_neg (by omega), if_neg (by omega)]
  have h1 : min s (l.length:Int) = s := by omega
  have h2 : min (s+k) (l.length:Int) = s + k := by omega
  rw [h1, h2]
  have h3 : (s+k).toNat = s.toNat + k.toNat := by omega
  rw [h3, ← List.take_drop]

/-- **C4 (counterexample).** The claim quantifies over all integer `cap`,
but for a negative `cap` the JS `slice(0, cap)` counts from the end of the
array instead of clamping to the first `cap` entries: at
`ref = [0,1,2], progress = 0, divergence = -1, cap = -1` the code returns
`[0, 1]` while the claim's description yields `[]`. -/
theorem hintSegment_negative_cap_counterexample :
    hintSegment [0, 1, 2] 0 (-1) (-1) = [0, 1] ∧
    hintSegmentClaim [0, 1, 2] 0 (-1) (-1) = [] := by
  decide

/-- **C4 (amended).** For every move list and all integers `progress` and
`divergenceIndex`, and every **non-negative** `cap`, `hintSegment` behaves
exactly as the claim describes: clamp the reference to its first `cap`
entries, clamp `progress` (and `divergenceIndex` when non-negative) into
`[0, clampedLength]`, start at their maximum, and return the slice from
`start` of length exactly 20 when at least 20 moves remain, else
`min 10 remaining`. -/
theorem hintSegment_eq_claim (ref : List Int) (progress divergence cap : Int)
    (hcap : 0 ≤ cap) :
    hintSegment ref progress divergence cap = hintSegmentClaim ref progress divergence cap := by
  simp only [hintSegment, hintSegmentClaim, jsSlice_zero_nonneg ref cap hcap]
  set c := ref.take cap.toNat with hc
  set n : Int := (c.length : Int) with hn
  have hn0 : 0 ≤ n := by omega
  set P := max 0 (min progress n) with hP
  have hP0 : 0 ≤ P := by omega
  have hPn : P ≤ n := by omega
  by_cases hd : divergence ≥ 0
  · rw [if_pos hd, if_pos hd]
    have hD0 : (0:Int) ≤ min divergence n := by omega
    rw [if_pos hD0, max_eq_right hD0]
    set S := max P (min divergence n) with hS
    have hS0 : 0 ≤ S := by omega
    have hSn : S ≤ n := by omega
    by_cases hr : max 0 (n - S) = 0
    · rw [if_pos hr]
      have hnS : n - S = 0 := by omega
      rw [hnS]
      rw [if_neg (by omega : ¬ ((0:Int) ≥ 20))]
      rw [(by omega : min (10:Int) 0 = 0)]
      simp
    · rw [if_neg hr]
      have hrem : max 0 (n - S) = n - S := by omega
      rw [hrem]
      set K := if n - S ≥ 20 then (20:Int) else min 10 (n - S) with hK
      have hK0 : 0 ≤ K := by rw [hK]; split <;> omega
      have hKrem : K ≤ n - S := by rw [hK]; split <;> omega
      rw [jsSlice_take_drop c S K hS0 hK0 (by omega)]
  · rw [if_neg hd, if_neg hd]
    rw [if_neg (by omega : ¬ ((-1:Int) ≥ 0))]
    have hmax : max P P = P := by omega
    rw [hmax]
    by_cases hr : max 0 (n - P) = 0
    · rw [if_pos hr]
      have hnS : n - P = 0 := by omega
      rw [hnS]
      rw [if_neg (by omega : ¬ ((0:Int) ≥ 20))]
      rw [(by omega : min (10:Int) 0 = 0)]
      simp
    · rw [if_neg hr]
      rw [(by omega : max 0 (n - P) = n - P)]
      set K := if n - P ≥ 20 then (20:Int) else min 10 (n - P) with hK
      have hK0 : 0 ≤ K := by rw [hK]; split <;> omega
      have hKrem : K ≤ n - P := by rw [hK]; split <;> omega
      rw [jsSlice_take_drop c P K hP0 hK0 (by omega)]

/-- Witness for the amended C4 at a concrete input (30-move reference,
progress 5, no divergence, cap 30). -/
theorem hintSegment_eq_claim_witness :
    (0:Int) ≤ 30 ∧
    hintSegment [0,1,2,3,0,1,2,3,0,1,2,3,0,1,2,3,0,1,2,3,0,1,2,3,0,1,2,3,0,1] 5 (-1) 30 =
      hintSegmentClaim [0,1,2,3,0,1,2,3,0,1,2,3,0,1,2,3,0,1,2,3,0,1,2,3,0,1,2,3,0,1] 5 (-1) 30 :=
  ⟨by decide, hintSegment_eq_claim _ 5 (-1) 30 (by decide)⟩

/-! ## Base64 codec — `src/helloworld/src/maze/decoder.ts` -/

def BASE64_ALPHABET : List Char :=
  "ABCDEFGHIJKLMNOPQRSTUVWXYZabcdefghijklmnopqrstuvwxyz0123456789+/".toList

/-- The 256-entry `BASE64_LOOKUP` table, modelled as the function it
computes: the table is filled with 255, then each alphabet character's
code is mapped to its index, then `'='` is mapped to 0.  The alphabet has
no duplicate characters and does not contain `'='`, so the table realises
exactly this function of the character code. -/
def BASE64_LOOKUP (code : Nat) : Nat :=
  match BASE64_ALPHABET.findIdx? (fun ch => ch.toNat = code) with
  | some i => i
  | none => if code = '='.toNat then 0 else 255

/-- JS regex `\s` character class (whitespace stripped by the decoder).
The exact Unicode extent of `\s` is irrelevant to the theorems below, which
are conditioned on the sanitized text; the common members are listed. -/
def isJsWhitespace (c : Char) : Bool :=
  c = ' ' || (9 ≤ c.toNat && c.toNat ≤ 13) || c.toNat = 0xA0 || c.toNat = 0x1680 ||
  (0x2000 ≤ c.toNat && c.toNat ≤ 0x200A) || c.toNat = 0x2028 || c.toNat = 0x2029 ||
  c.toNat = 0x202F || c.toNat = 0x205F || c.toNat = 0x3000 || c.toNat = 0xFEFF

/-- The 24-bit chunk `(a << 18) | (b << 12) | (c << 6) | d` built from four
looked-up digit values. -/
def b64Chunk (a b c d : Nat) : Nat := (a <<< 18) ||| (b <<< 12) ||| (c <<< 6) ||| d

/-- The three bytes extracted from a chunk:
`(chunk >> 16) & 0xff`, `(chunk >> 8) & 0xff`, `chunk & 0xff`. -/
def chunkBytes (chunk : Nat) : List Nat :=
  [(chunk >>> 16) &&& 255, (chunk >>> 8) &&& 255, chunk &&& 255]

/-- The decoder's main loop: consume the sanitized text four characters at
a time, emitting three bytes per chunk.  (The final `take byteLength`
models the bounds checks `outIndex < byteLength`, which only bite in the
last chunk, together with `Uint8Array` ignoring out-of-range writes.) -/
def b64Groups : List Char → List Nat
  | c1 :: c2 :: c3 :: c4 :: rest =>
    chunkBytes (b64Chunk (BASE64_LOOKUP c1.toNat) (BASE64_LOOKUP c2.toNat)
      (BASE64_LOOKUP c3.toNat) (BASE64_LOOKUP c4.toNat)) ++ b64Groups rest
  | _ => []

/-- `padding`: 2 if the sanitized text ends with `"=="`, 1 if it ends with
`"="`, else 0. -/
def b64Padding (sanitized : List Char) : Nat :=
  if sanitized.reverse.take 2 = ['=', '='] then 2
  else if sanitized.reverse.take 1 = ['='] then 1 else 0

/-- The raw byte output of `decodeBase64ToUint8Array` before the `eJ`
inflate heuristic: chunk loop output truncated to
`(sanitized.length / 4) * 3 - padding` bytes. -/
def decodeB64Raw (sanitized : List Char) : List Nat :=
  (b64Groups sanitized).take ((sanitized.length / 4) * 3 - b64Padding sanitized)

/-- `decodeBase64ToUint8Array` from `decoder.ts`.  The external
`pako.inflate` primitive is an oracle parameter `inflate` returning `none`
when the library would throw; on a sanitized input starting with `"eJ"`
the decoder attempts to inflate its own output and returns the inflated
bytes when inflation yields a non-empty array. -/
def decodeBase64ToUint8Array (inflate : List Nat → Option (List Nat))
    (input : List Char) : Except String (List Nat) :=
  let sanitized := input.filter (fun c => !(isJsWhitespace c))
  if sanitized.length % 4 ≠ 0 then .error "Invalid base64 input length."
  else
    let output := decodeB64Raw sanitized
    if sanitized.take 2 = ['e', 'J'] then
      match inflate output with
      | some inflated => if inflated.length ≠ 0 then .ok inflated else .ok output
      | none => .ok output
    else .ok output

/-- Behaviour of the external `pako.inflate` on data it rejects: it throws,
modelled as `none`, regardless of input.  Used to instantiate the oracle in
closed witnesses/counterexamples whose inputs are not zlib streams. -/
def noInflate : List Nat → Option (List Nat) := fun _ => none

/-- **C9.** An input whose whitespace-stripped length is not a multiple of
4 makes `decodeBase64ToUint8Array` fail with the format error; no byte
array (partial or otherwise) is returned. -/
theorem decodeBase64_length_error (inflate : List Nat → Option (List Nat))
    (input : List Char)
    (h : (input.filter (fun c => !(isJsWhitespace c))).length % 4 ≠ 0) :
    decodeBase64ToUint8Array inflate input = .error "Invalid base64 input length." := by
  simp only [decodeBase64ToUint8Array]
  rw [if_pos h]

/-- Witness for C9 on the 3-character input `"abc"`. -/
theorem decodeBase64_length_error_witness :
    ("abc".toList.filter (fun c => !(isJsWhitespace c))).length % 4 ≠ 0 ∧
    decodeBase64ToUint8Array noInflate "abc".toList = .error "Invalid base64 input length." :=
  ⟨by decide, decodeBase64_length_error noInflate "abc".toList (by decide)⟩

/-- Replacing every character outside the Base64 alphabet (and `'='`) by
`'A'`, the substitution claim C6 describes. -/
def replaceInvalidWithA (s : List Char) : List Char :=
  s.map (fun c => if BASE64_ALPHABET.contains c || c = '=' then c else 'A')

/-- **C6 (counterexample).** Invalid characters are looked up as the
sentinel **255**, not 0: decoding `"!AAA"` yields `[252, 0, 0]` — the 255
bleeds across the 6-bit digit boundary — whereas decoding its
`'A'`-substitution `"AAAA"` yields `[0, 0, 0]`. -/
theorem decodeBase64_invalid_not_zero_counterexample :
    decodeBase64ToUint8Array noInflate "!AAA".toList = .ok [252, 0, 0] ∧
    replaceInvalidWithA "!AAA".toList = "AAAA".toList ∧
    decodeBase64ToUint8Array noInflate "AAAA".toList = .ok [0, 0, 0] := by
  refine ⟨rfl, by decide, rfl⟩

/-- Per-character Base64 digit value as the amended claim C6 words it: the
position in the alphabet for alphabet characters, 0 for `'='`, and the
sentinel **255** for every other character. -/
def b64DigitValue (c : Char) : Nat :=
  match BASE64_ALPHABET.findIdx? (fun ch => ch = c) with
  | some i => i
  | none => if c = '=' then 0 else 255

theorem char_toNat_inj {a b : Char} (h : a.toNat = b.toNat) : a = b :=
  Char.ext (UInt32.ext h)

theorem BASE64_LOOKUP_eq_digitValue (c : Char) :
    BASE64_LOOKUP c.toNat = b64DigitValue c := by
  have hpred : (fun ch => decide (ch.toNat = c.toNat)) = (fun ch => decide (ch = c)) := by
    funext ch
    by_cases h : ch = c
    · subst h; simp
    · have h2 : ch.toNat ≠ c.toNat := fun hn => h (char_toNat_inj hn)
      simp [h, h2]
  have heq : c.toNat = '='.toNat ↔ c = '=' :=
    ⟨fun h => char_toNat_inj h, fun h => by rw [h]⟩
  unfold BASE64_LOOKUP b64DigitValue
  rw [hpred]
  rcases hfind : BASE64_ALPHABET.findIdx? (fun ch => decide (ch = c)) with _ | i
  · simp only []
    by_cases h : c = '='
    · rw [if_pos (heq.mpr h), if_pos h]
    · rw [if_neg (fun hn => h (heq.mp hn)), if_neg h]
  · rfl

/-- Chunk-and-byte assembly over a list of per-character digit values. -/
def b64AssembleBytes : List Nat → List Nat
  | a :: b :: c :: d :: rest => chunkBytes (b64Chunk a b c d) ++ b64AssembleBytes rest
  | _ => []

theorem b64Groups_eq_assemble (s : List Char) :
    b64Groups s = b64AssembleBytes (s.map b64DigitValue) := by
  induction s using b64Groups.induct with
  | case1 c1 c2 c3 c4 rest ih =>
    simp only [b64Groups, List.map, b64AssembleBytes, ih, BASE64_LOOKUP_eq_digitValue]
  | case2 s h =>
    cases s with
    | nil => rfl
    | cons a t =>
      cases t with
      | nil => rfl
      | cons b t2 =>
        cases t2 with
        | nil => rfl
        | cons c t3 =>
          cases t3 with
          | nil => rfl
          | cons d t4 => exact absurd rfl (h a b c d t4)

/-- **C6 (amended).** On any input whose whitespace-stripped form has
length a multiple of 4 (and does not trigger the separate `"eJ"` inflate
heuristic), decoding never raises: it returns exactly the bytes assembled
from the per-character digit values where characters outside the alphabet
and `'='` contribute the sentinel value **255** (an 8-bit value that bleeds
into neighbouring 6-bit slots), silently corrupting rather than erroring. -/
theorem decodeBase64_invalid_as_255 (inflate : List Nat → Option (List Nat))
    (input : List Char)
    (hlen : (input.filter (fun c => !(isJsWhitespace c))).length % 4 = 0)
    (hpre : (input.filter (fun c => !(isJsWhitespace c))).take 2 ≠ ['e', 'J']) :
    decodeBase64ToUint8Array inflate input =
      .ok ((b64AssembleBytes
          ((input.filter (fun c => !(isJsWhitespace c))).map b64DigitValue)).take
        (((input.filter (fun c => !(isJsWhitespace c))).length / 4) * 3 -
          b64Padding (input.filter (fun c => !(isJsWhitespace c))))) := by
  simp only [decodeBase64ToUint8Array]
  rw [if_neg (by simp [hlen]), if_neg hpre, decodeB64Raw, b64Groups_eq_assemble]

/-- Witness for the amended C6 on `"!AAA"` (contains the invalid `'!'`). -/
theorem decodeBase64_invalid_as_255_witness :
    ("!AAA".toList.filter (fun c => !(isJsWhitespace c))).length % 4 = 0 ∧
    ("!AAA".toList.filter (fun c => !(isJsWhitespace c))).take 2 ≠ ['e', 'J'] ∧
    decodeBase64ToUint8Array noInflate "!AAA".toList =
      .ok ((b64AssembleBytes
          (("!AAA".toList.filter (fun c => !(isJsWhitespace c))).map b64DigitValue)).take
        ((("!AAA".toList.filter (fun c => !(isJsWhitespace c))).length / 4) * 3 -
          b64Padding ("!AAA".toList.filter (fun c => !(isJsWhitespace c))))) :=
  ⟨by decide, by decide, decodeBase64_invalid_as_255 noInflate "!AAA".toList (by decide) (by decide)⟩

/-! ## Parsed-JSON model and `tryParseBase64ZlibJson` -/

/-- Minimal model of a value returned by `JSON.parse`, as far as the
decoder inspects it: numbers, arrays, and everything else (`other`:
strings, objects, booleans, null).  The `other` constructor is modelled as
falsy and as `NaN` under arithmetic; the claims below never depend on the
exotic JS coercions of such values. -/
inductive JVal where
  | num (n : Int)
  | arr (elems : List JVal)
  | other

/-- JS truthiness of a parsed value (numbers: non-zero; arrays: true). -/
def JVal.truthy : JVal → Bool
  | .num n => n ≠ 0
  | .arr _ => true
  | .other => false

/-- `v[i]` used as a number: `some n` when `v` is an array whose `i`-th
element is a number, `none` (JS `undefined`/`NaN`) otherwise. -/
def jIndexNum (v : JVal) (i : Nat) : Option Int :=
  match v with
  | .arr xs =>
    match xs.getD i .other with
    | .num n => some n
    | _ => none
  | _ => none

/-- `tryParseBase64ZlibJson` from `decoder.ts`: Base64-decode, attempt to
inflate the bytes; on non-empty inflation JSON-parse the inflated text,
and if that parse throws, fall back to parsing the raw bytes; when
inflation throws, parse the raw bytes; any remaining failure yields
`null`.  (An empty inflation result skips the parse and reaches the final
`return null`.)  `inflate` and `jsonParse` are oracles for the external
`pako.inflate` primitive and for `TextDecoder` + `JSON.parse`. -/
def tryParseBase64ZlibJson (inflate : List Nat → Option (List Nat))
    (jsonParse : List Nat → Option JVal) (s : List Char) : Option JVal :=
  match decodeBase64ToUint8Array inflate s with
  | .error _ => none
  | .ok bytes =>
    match inflate bytes with
    | some inflated =>
      if inflated.length ≠ 0 then
        match jsonParse inflated with
        | some v => some v
        | none => jsonParse bytes
      else none
    | none => jsonParse bytes

/-! ## Move decoding — `decodeMoves` (decoder.ts) -/

/-- `Math.max(...)` over the extracted (possibly `NaN`) components; with a
`NaN` among them the result is `NaN` (`none`).  `Math.max()` of an empty
spread is `-Infinity`; the call site guarantees non-emptiness, and the
empty case is modelled as `none`. -/
def jsMaxList : List (Option Int) → Option Int
  | [] => none
  | [x] => x
  | x :: y :: rest =>
    match x, jsMaxList (y :: rest) with
    | some a, some b => some (max a b)
    | _, _ => none

/-- `a > b` where `a` may be `NaN`: false for `NaN`. -/
def optGt (a : Option Int) (b : Int) : Bool :=
  match a with
  | some a => a > b
  | none => false

/-- `a - b` with `NaN` propagation. -/
def optSub (a b : Option Int) : Option Int :=
  match a, b with
  | some a, some b => some (a - b)
  | _, _ => none

/-- The expanded-units normalisation in `decodeMoves`: a pair whose two
components are both ≡ 1 (JS `%`, i.e. truncating remainder: negative odd
numbers give −1 and do not match) becomes `((r−1)/2, (c−1)/2)`; any other
pair is returned unchanged.  The divisions are exact (odd positive
operands), so all integer-division conventions agree. -/
def normalizeExpandedPair (p : Option Int × Option Int) : Option Int × Option Int :=
  match p with
  | (some r, some c) =>
    if r.tmod 2 = 1 ∧ c.tmod 2 = 1 then (some ((r - 1) / 2), some ((c - 1) / 2))
    else (some r, some c)
  | q => q

/-- The `.filter((v) => v != null)` after the normalising `.map`: the map
callback always returns an array (never null), so the filter keeps every
element. -/
def jsFilterNonNull {α : Type} (l : List α) : List α := l.filter (fun _ => true)

/-- The move-derivation loop of `decodeMoves`: each consecutive coordinate
pair with a unit delta contributes a move (0=N,1=E,2=S,3=W); non-adjacent
pairs (or `NaN` deltas) are skipped; the loop stops once `L` moves are
collected.  `L` is passed as the remaining capacity. -/
def buildMoves : List (Option Int × Option Int) → Int → List Int
  | (r1, c1) :: (r2, c2) :: rest, L =>
    if 0 < L then
      let dr := optSub r2 r1
      let dc := optSub c2 c1
      if dr = some (-1) ∧ dc = some 0 then 0 :: buildMoves ((r2, c2) :: rest) (L - 1)
      else if dr = some 0 ∧ dc = some 1 then 1 :: buildMoves ((r2, c2) :: rest) (L - 1)
      else if dr = some 1 ∧ dc = some 0 then 2 :: buildMoves ((r2, c2) :: rest) (L - 1)
      else if dr = some 0 ∧ dc = some (-1) then 3 :: buildMoves ((r2, c2) :: rest) (L - 1)
      else buildMoves ((r2, c2) :: rest) L
    else []
  | _, _ => []

/-- The primary (coordinate-array) body of `decodeMoves`
(`decoder.ts` lines 292–321), applied once `tryParseBase64ZlibJson` has
produced a non-empty array. -/
def decodeMovesPrimary (elems : List JVal) (L : Int) : List Int :=
  let coords := elems.map (fun v => (jIndexNum v 0, jIndexNum v 1))
  let maxR := jsMaxList (coords.map Prod.fst)
  let maxC := jsMaxList (coords.map Prod.snd)
  let normCoords :=
    if optGt maxR L || optGt maxC L then
      jsFilterNonNull (coords.map normalizeExpandedPair)
    else coords
  buildMoves normCoords L

/-- One byte of the legacy packed-move format: four 2-bit moves, lowest
bits first (shifts 0, 2, 4, 6). -/
def byteMoves (b : Nat) : List Int :=
  [((b >>> 0) &&& 3 : Nat), ((b >>> 2) &&& 3 : Nat),
   ((b >>> 4) &&& 3 : Nat), ((b >>> 6) &&& 3 : Nat)]

/-- The legacy move-unpacking loop: bytes × four 2-bit moves, truncated to
`L` (the nested `moves.length < L` checks amount to a prefix of the full
unpacking; a non-positive `L` yields no moves). -/
def legacyMoves (bytes : List Nat) (L : Int) : List Int :=
  ((bytes.map byteMoves).flatten).take L.toNat

/-- `decodeMoves(p, L)` from `decoder.ts`: primary coordinate-array path
when `tryParseBase64ZlibJson` yields a non-empty array, otherwise the
legacy packed 2-bit path (whose own Base64 decode propagates its format
error — that call is outside the `try`). -/
def decodeMoves (inflate : List Nat → Option (List Nat))
    (jsonParse : List Nat → Option JVal) (p : List Char) (L : Int) :
    Except String (List Int) :=
  match tryParseBase64ZlibJson inflate jsonParse p with
  | some (.arr (e :: es)) => .ok (decodeMovesPrimary (e :: es) L)
  | _ =>
    match decodeBase64ToUint8Array inflate p with
    | .ok bytes => .ok (legacyMoves bytes L)
    | .error msg => .error msg

/-- The primary path as claim C7 words it: when the magnitude condition
triggers, both-odd pairs are halved and **every other pair is dropped**
before moves are derived. -/
def decodeMovesPrimaryClaim (elems : List JVal) (L : Int) : List Int :=
  let coords := elems.map (fun v => (jIndexNum v 0, jIndexNum v 1))
  let maxR := jsMaxList (coords.map Prod.fst)
  let maxC := jsMaxList (coords.map Prod.snd)
  let normCoords :=
    if optGt maxR L || optGt maxC L then
      coords.filterMap (fun p =>
        match p with
        | (some r, some c) =>
          if r.tmod 2 = 1 ∧ c.tmod 2 = 1 then some (some ((r - 1) / 2), some ((c - 1) / 2))
          else none
        | _ => none)
    else coords
  buildMoves normCoords L

/-- The primary path as amended: when the magnitude condition triggers,
both-odd pairs are halved and every other pair is **left unchanged** (the
code's `.filter((v) => v != null)` never drops anything). -/
def decodeMovesPrimaryAmended (elems : List JVal) (L : Int) : List Int :=
  let coords := elems.map (fun v => (jIndexNum v 0, jIndexNum v 1))
  let maxR := jsMaxList (coords.map Prod.fst)
  let maxC := jsMaxList (coords.map Prod.snd)
  let normCoords :=
    if optGt maxR L || optGt maxC L then coords.map normalizeExpandedPair
    else coords
  buildMoves normCoords L

/-- A `JSON.parse` oracle returning a fixed parsed value, used to build
closed instances of the decoder. -/
def jsonParseConst (v : JVal) : List Nat → Option JVal := fun _ => some v

/-- The coordinate array `[[1,1],[0,1],[9,9]]`. -/
def c7Coords : List JVal :=
  [.arr [.num 1, .num 1], .arr [.num 0, .num 1], .arr [.num 9, .num 9]]

/-- **C7 (counterexample).** On the parsed coordinate array
`[[1,1],[0,1],[9,9]]` with `maxLength = 1` (so the magnitude condition
triggers), the code keeps the unmappable pair `[0,1]` unchanged and emits
the move `1 (East)` from `(0,0) → (0,1)`, whereas the claim's
"drop unmappable pairs" processing yields no moves. -/
theorem decodeMoves_unmappable_kept_counterexample :
    decodeMoves noInflate (jsonParseConst (.arr c7Coords)) [] 1 = .ok [1] ∧
    decodeMovesPrimary c7Coords 1 = [1] ∧
    decodeMovesPrimaryClaim c7Coords 1 = [] :=
  ⟨rfl, by decide, by decide⟩

/-- **C7 (amended).** Whenever `tryParseBase64ZlibJson` yields a non-empty
coordinate array, `decodeMoves` follows the primary path, and when some
maximal component exceeds `maxLength` it maps every both-odd pair to
`((r−1)/2, (c−1)/2)` and leaves every other pair **unchanged** (nothing is
dropped) before deriving moves from consecutive pairs. -/
theorem decodeMoves_primary_amended (inflate : List Nat → Option (List Nat))
    (jsonParse : List Nat → Option JVal) (p : List Char) (L : Int)
    (e : JVal) (es : List JVal)
    (hparse : tryParseBase64ZlibJson inflate jsonParse p = some (.arr (e :: es))) :
    decodeMoves inflate jsonParse p L = .ok (decodeMovesPrimaryAmended (e :: es) L) := by
  rw [decodeMoves, hparse]
  simp only [decodeMovesPrimary, decodeMovesPrimaryAmended, jsFilterNonNull, List.filter_true]

/-- Witness for the amended C7 with the concrete oracle and array of the
counterexample. -/
theorem decodeMoves_primary_amended_witness :
    tryParseBase64ZlibJson noInflate (jsonParseConst (.arr c7Coords)) [] =
      some (.arr c7Coords) ∧
    decodeMoves noInflate (jsonParseConst (.arr c7Coords)) [] 1 =
      .ok (decodeMovesPrimaryAmended c7Coords 1) :=
  ⟨rfl, decodeMoves_primary_amended noInflate (jsonParseConst (.arr c7Coords)) [] 1 _ _ rfl⟩

/-! ## Maze grid model — `normalizeOpenings`, `convertExpandedToRegular`,
`decodeOpenings` (decoder.ts)

A `Uint8Array` is modelled by its contents as a function `Nat → Nat`
(`U8`); every read and write performed by the modelled code is in range,
and the bit operations below coincide with the JS `|=` / `&= ~` writes on
byte values. -/

def U8 : Type := Nat → Nat

/-- Write one entry of a modelled `Uint8Array`. -/
def upd (s : U8) (i v : Nat) : U8 := fun j => if j = i then v else s j

/-- `m &= ~c`: clear from `m` the bits of `c`, implemented as
`m ^^^ (m &&& c)` (which agrees with the JS 32-bit `& ~` on every value a
`Uint8Array` can store). -/
def bitClear (m c : Nat) : Nat := m ^^^ (m &&& c)

theorem testBit_bitClear (m c j : Nat) :
    (bitClear m c).testBit j = (m.testBit j && !(c.testBit j)) := by
  simp only [bitClear, Nat.testBit_xor, Nat.testBit_and]
  cases m.testBit j <;> cases c.testBit j <;> rfl

/-- The boundary-stripping prologue of the `normalizeOpenings` cell body:
`mask &= ~W` on the left column, `&= ~E` on the right column, `&= ~N` on
the top row, `&= ~S` on the bottom row (N=1, E=2, S=4, W=8). -/
def stripMask (w h x y : Nat) (m : Nat) : Nat :=
  let m1 := if x = 0 then bitClear m 8 else m
  let m2 := if x = w - 1 then bitClear m1 2 else m1
  let m3 := if y = 0 then bitClear m2 1 else m2
  if y = h - 1 then bitClear m3 4 else m3

/-- One iteration of the `normalizeOpenings` double loop, for the cell
`idx = y*w + x`: strip out-of-bounds bits, then OR-propagate the
East/West pair with the right neighbour and the North/South pair with the
cell below.  Note that, as in the source, the propagation writes to
`openings[idx]` use the **local** `mask` snapshot taken after stripping:
the north-south write `openings[idx] = mask | S` does not see an East bit
added by the east-west write just above it. -/
def normStep (w h : Nat) (s : U8) (idx : Nat) : U8 :=
  let x := idx % w
  let y := idx / w
  let mask := stripMask w h x y (s idx)
  let s1 := upd s idx mask
  let s2 :=
    if x < w - 1 then
      let rightMask := s1 (idx + 1)
      let s2a := if mask &&& 2 ≠ 0 ∧ rightMask &&& 8 = 0 then
          upd s1 (idx + 1) (rightMask ||| 8) else s1
      if rightMask &&& 8 ≠ 0 ∧ mask &&& 2 = 0 then upd s2a idx (mask ||| 2) else s2a
    else s1
  if y < h - 1 then
    let downMask := s2 (idx + w)
    let s3 := if mask &&& 4 ≠ 0 ∧ downMask &&& 1 = 0 then
        upd s2 (idx + w) (downMask ||| 1) else s2
    if downMask &&& 1 ≠ 0 ∧ mask &&& 4 = 0 then upd s3 idx (mask ||| 4) else s3
  else s2

/-- The full symmetry/stripping double loop of `normalizeOpenings`
(row-major, `idx` from 0 to `w*h − 1`). -/
def normalizeLoop (w h : Nat) (s : U8) : U8 :=
  (List.range (w * h)).foldl (normStep w h) s

/-- `normalizeOpenings` epilogue: if the start cell has no opening, force
East (mirrored West on its right neighbour) when `w > 1`, else South
(mirrored North below) when `h > 1`. -/
def forceStartOpen (w h : Nat) (s : U8) : U8 :=
  if s 0 = 0 then
    if 1 < w then
      let s1 := upd s 0 (s 0 ||| 2)
      upd s1 1 (s1 1 ||| 8)
    else if 1 < h then
      let s1 := upd s 0 (s 0 ||| 4)
      upd s1 w (s1 w ||| 1)
    else s
  else s

/-- `normalizeOpenings` epilogue for the goal cell: force West (mirrored
East on the left neighbour) when `w > 1`, else North (mirrored South
above) when `h > 1`. -/
def forceGoalOpen (w h : Nat) (s : U8) : U8 :=
  let goalIdx := (h - 1) * w + (w - 1)
  if s goalIdx = 0 then
    if 1 < w then
      let s1 := upd s goalIdx (s goalIdx ||| 8)
      upd s1 (goalIdx - 1) (s1 (goalIdx - 1) ||| 2)
    else if 1 < h then
      let s1 := upd s goalIdx (s goalIdx ||| 1)
      upd s1 (goalIdx - w) (s1 (goalIdx - w) ||| 4)
    else s
  else s

/-- `normalizeOpenings(openings, w, h)` from `decoder.ts`. -/
def normalizeOpenings (s : U8) (w h : Nat) : U8 :=
  forceGoalOpen w h (forceStartOpen w h (normalizeLoop w h s))

/-- The 2×2 input `[0, W, N, 0]` (cell (1,0) opens West, cell (0,1) opens
North, start cell closed). -/
def c1BugInput : U8 := fun i => [0, 8, 1, 0].getD i 0

/-- **C1 (failing input).** `normalizeOpenings` does **not** establish the
claimed symmetry invariant: on the 2×2 input `[0, 8, 1, 0]` the east-west
pass adds East to cell (0,0) (mirroring the West bit of cell (1,0)), but
the north-south pass then executes `openings[idx] = mask | S` with the
stale local `mask`, clobbering that East bit.  The result keeps the West
bit of cell (1,0) while the East bit of cell (0,0) is absent. -/
theorem normalizeOpenings_symmetry_bug :
    (normalizeOpenings c1BugInput 2 2) 1 &&& 8 = 8 ∧
    (normalizeOpenings c1BugInput 2 2) 0 &&& 2 = 0 := by
  constructor <;> decide

/-- `grid[r][c]` truthiness in the expanded grid: rows that are not arrays
and out-of-range accesses yield `undefined` (falsy). -/
def expandedAt (grid : List JVal) (r c : Nat) : Bool :=
  match grid.getD r .other with
  | .arr xs => (xs.getD c .other).truthy
  | _ => false

/-- `expandedGrid[0].length` as the column count: 0 when the first row is
missing or not an array (the JS comparisons against `undefined` are then
false, as they are against 0 here since the compared indices are ≥ 1). -/
def expandedCols (grid : List JVal) : Nat :=
  match grid.getD 0 .other with
  | .arr xs => xs.length
  | _ => 0

/-- `convertExpandedToRegular(expandedGrid, w, h)` from `decoder.ts`: each
cell (x,y) reads its centre at expanded position `(2y+1, 2x+1)` and opens
a direction iff both the adjacent passage slot and the next cell centre in
that direction are truthy.  Each loop iteration writes only its own cell,
so the loop is modelled pointwise.  (`c <= cols - 3` is written
`c + 3 ≤ cols`; both are false for `cols < 3` since `c ≥ 1`.) -/
def convertExpandedToRegular (grid : List JVal) (w h : Nat) : U8 := fun idx =>
  if idx < w * h then
    let y := idx / w
    let x := idx % w
    let r := 2 * y + 1
    let c := 2 * x + 1
    let rows := grid.length
    let cols := expandedCols grid
    if r < rows ∧ c < cols ∧ expandedAt grid r c then
      (if 2 ≤ r ∧ expandedAt grid (r-1) c ∧ expandedAt grid (r-2) c then 1 else 0) |||
      (if c + 3 ≤ cols ∧ expandedAt grid r (c+1) ∧ expandedAt grid r (c+2) then 2 else 0) |||
      (if r + 3 ≤ rows ∧ expandedAt grid (r+1) c ∧ expandedAt grid (r+2) c then 4 else 0) |||
      (if 2 ≤ c ∧ expandedAt grid r (c-1) ∧ expandedAt grid r (c-2) then 8 else 0)
    else 0
  else 0

/-- The legacy nibble-unpacking loop of `decodeOpenings`: cell `j` reads
byte `j / 2`, low nibble for even `j`, high nibble for odd `j`; cells
beyond the byte supply keep the `Uint8Array` zero fill. -/
def legacyNibbles (bytes : List Nat) (totalCells : Nat) : U8 := fun idx =>
  if idx < totalCells then
    let b := bytes.getD (idx / 2) 0
    if idx % 2 = 0 then b &&& 15 else (b >>> 4) &&& 15
  else 0

/-- `decodeOpenings(g, w, h)` from `decoder.ts`: primary path when the
payload parses to a 2D array of the expanded dimensions
`(2h+1) × (2w+1)` (convert + normalize); otherwise the legacy
nibble-packed path, whose own Base64 decode is outside the `try` and
propagates its format error. -/
def decodeOpenings (inflate : List Nat → Option (List Nat))
    (jsonParse : List Nat → Option JVal) (g : List Char) (w h : Nat) :
    Except String U8 :=
  let legacy : Except String U8 :=
    match decodeBase64ToUint8Array inflate g with
    | .ok bytes => .ok (legacyNibbles bytes (w * h))
    | .error msg => .error msg
  match tryParseBase64ZlibJson inflate jsonParse g with
  | some (.arr (first :: rest)) =>
    match first with
    | .arr row0 =>
      if (first :: rest).length = 2 * h + 1 ∧ row0.length = 2 * w + 1 then
        .ok (normalizeOpenings (convertExpandedToRegular (.arr row0 :: rest) w h) w h)
      else legacy
    | _ => legacy
  | _ => legacy

/-- A `JSON.parse` oracle that always fails (input is not JSON text). -/
def jsonParseNone : List Nat → Option JVal := fun _ => none

/-- **C8 (counterexample).** The legacy nibble path performs no boundary
stripping: the payload `"Dw=="` (one byte, `0x0F`) for a 1×1 grid decodes
to the single mask 15, whose North bit is set in row 0 (and South in the
bottom row, East/West on the boundary columns). -/
theorem decodeOpenings_legacy_boundary_counterexample :
    (decodeOpenings noInflate jsonParseNone "Dw==".toList 1 1).map (fun m => m 0) =
      .ok 15 ∧ (15 : Nat) &&& 1 ≠ 0 :=
  ⟨rfl, by decide⟩

/-! ### Boundary cleanliness of `normalizeOpenings` (claim C8) -/

theorem tbit1 (j : Nat) : Nat.testBit 1 j = decide (0 = j) := by
  rw [show (1:Nat) = 2^0 from rfl, Nat.testBit_two_pow]

theorem tbit2 (j : Nat) : Nat.testBit 2 j = decide (1 = j) := by
  rw [show (2:Nat) = 2^1 from rfl, Nat.testBit_two_pow]

theorem tbit4 (j : Nat) : Nat.testBit 4 j = decide (2 = j) := by
  rw [show (4:Nat) = 2^2 from rfl, Nat.testBit_two_pow]

theorem tbit8 (j : Nat) : Nat.testBit 8 j = decide (3 = j) := by
  rw [show (8:Nat) = 2^3 from rfl, Nat.testBit_two_pow]

theorem tb_1_0 : Nat.testBit 1 0 = true := rfl
theorem tb_1_1 : Nat.testBit 1 1 = false := rfl
theorem tb_1_2 : Nat.testBit 1 2 = false := rfl
theorem tb_1_3 : Nat.testBit 1 3 = false := rfl
theorem tb_2_0 : Nat.testBit 2 0 = false := rfl
theorem tb_2_1 : Nat.testBit 2 1 = true := rfl
theorem tb_2_2 : Nat.testBit 2 2 = false := rfl
theorem tb_2_3 : Nat.testBit 2 3 = false := rfl
theorem tb_4_0 : Nat.testBit 4 0 = false := rfl
theorem tb_4_1 : Nat.testBit 4 1 = false := rfl
theorem tb_4_2 : Nat.testBit 4 2 = true := rfl
theorem tb_4_3 : Nat.testBit 4 3 = false := rfl
theorem tb_8_0 : Nat.testBit 8 0 = false := rfl
theorem tb_8_1 : Nat.testBit 8 1 = false := rfl
theorem tb_8_2 : Nat.testBit 8 2 = false := rfl
theorem tb_8_3 : Nat.testBit 8 3 = true := rfl

theorem or_tb_other (m c j : Nat) (hc : c.testBit j = false) :
    (m ||| c).testBit j = m.testBit j := by
  rw [Nat.testBit_or, hc]; cases m.testBit j <;> rfl

/-- Boundary cleanliness of one cell value at column `x`, row `y`: no
North bit in row 0, no East bit in the last column, no South bit in the
last row, no West bit in column 0. -/
def cleanCell (w h x y : Nat) (v : Nat) : Prop :=
  (y = 0 → v.testBit 0 = false) ∧ (x = w - 1 → v.testBit 1 = false) ∧
  (y = h - 1 → v.testBit 2 = false) ∧ (x = 0 → v.testBit 3 = false)

/-- Claim C8's boundary property for a whole mask grid. -/
def boundaryClean (m : U8) (w h : Nat) : Prop :=
  ∀ x y, x < w → y < h → cleanCell w h x y (m (y * w + x))

theorem bitClear_tb_same (m c j : Nat) (hc : c.testBit j = true) :
    (bitClear m c).testBit j = false := by
  rw [testBit_bitClear, hc]; cases m.testBit j <;> rfl

theorem bitClear_tb_other (m c j : Nat) (hc : c.testBit j = false) :
    (bitClear m c).testBit j = m.testBit j := by
  rw [testBit_bitClear, hc]; cases m.testBit j <;> rfl

theorem stripMask_clean (w h x y m : Nat) : cleanCell w h x y (stripMask w h x y m) := by
  unfold cleanCell
  simp only [stripMask]
  refine ⟨fun hy => ?_, fun hx => ?_, fun hy => ?_, fun hx => ?_⟩ <;>
    split_ifs <;>
      first
        | omega
        | simp only [bitClear_tb_same, bitClear_tb_other, tb_1_0, tb_1_1, tb_1_2, tb_1_3,
            tb_2_0, tb_2_1, tb_2_2, tb_2_3, tb_4_0, tb_4_1, tb_4_2, tb_4_3,
            tb_8_0, tb_8_1, tb_8_2, tb_8_3]

theorem cleanCell_or2 (w h x y v : Nat) (hv : cleanCell w h x y v) (hx : x < w - 1) :
    cleanCell w h x y (v ||| 2) := by
  obtain ⟨c1, c2, c3, c4⟩ := hv
  refine ⟨fun hy => ?_, fun hx2 => ?_, fun hy => ?_, fun hx2 => ?_⟩
  · rw [or_tb_other _ _ _ tb_2_0]; exact c1 hy
  · omega
  · rw [or_tb_other _ _ _ tb_2_2]; exact c3 hy
  · rw [or_tb_other _ _ _ tb_2_3]; exact c4 hx2

theorem cleanCell_or4 (w h x y v : Nat) (hv : cleanCell w h x y v) (hy : y < h - 1) :
    cleanCell w h x y (v ||| 4) := by
  obtain ⟨c1, c2, c3, c4⟩ := hv
  refine ⟨fun hy2 => ?_, fun hx => ?_, fun hy2 => ?_, fun hx => ?_⟩
  · rw [or_tb_other _ _ _ tb_4_0]; exact c1 hy2
  · rw [or_tb_other _ _ _ tb_4_1]; exact c2 hx
  · omega
  · rw [or_tb_other _ _ _ tb_4_3]; exact c4 hx

theorem normStep_apply_ne (w h : Nat) (s : U8) (idx j : Nat)
    (h1 : j ≠ idx) (h2 : j ≠ idx + 1) (h3 : j ≠ idx + w) :
    normStep w h s idx j = s j := by
  simp only [normStep]
  split_ifs <;> simp [upd, h1, h2, h3]

theorem normStep_apply_self (w h : Nat) (hw : 1 ≤ w) (s : U8) (idx : Nat) :
    normStep w h s idx idx = stripMask w h (idx % w) (idx / w) (s idx) ∨
    (idx % w < w - 1 ∧
      normStep w h s idx idx = stripMask w h (idx % w) (idx / w) (s idx) ||| 2) ∨
    (idx / w < h - 1 ∧
      normStep w h s idx idx = stripMask w h (idx % w) (idx / w) (s idx) ||| 4) := by
  have h1 : ¬ (idx = idx + 1) := by omega
  have h2 : ¬ (idx = idx + w) := by omega
  simp only [normStep]
  split_ifs <;> simp [upd, h1, h2] <;> tauto

theorem normStep_clean_self (w h : Nat) (hw : 1 ≤ w) (s : U8) (idx : Nat) :
    cleanCell w h (idx % w) (idx / w) (normStep w h s idx idx) := by
  rcases normStep_apply_self w h hw s idx with hv | ⟨hx, hv⟩ | ⟨hy, hv⟩ <;> rw [hv]
  · exact stripMask_clean w h (idx % w) (idx / w) (s idx)
  · exact cleanCell_or2 w h (idx % w) (idx / w) _
      (stripMask_clean w h (idx % w) (idx / w) (s idx)) hx
  · exact cleanCell_or4 w h (idx % w) (idx / w) _
      (stripMask_clean w h (idx % w) (idx / w) (s idx)) hy

theorem normalizeLoop_prefix_clean (w h : Nat) (hw : 1 ≤ w) (s : U8) (k : Nat) :
    ∀ j, j < k →
      cleanCell w h (j % w) (j / w) (((List.range k).foldl (normStep w h) s) j) := by
  induction k with
  | zero => intro j hj; omega
  | succ k ih =>
    intro j hj
    rw [List.range_succ, List.foldl_append, List.foldl_cons, List.foldl_nil]
    rcases Nat.lt_succ_iff_lt_or_eq.mp hj with hj' | rfl
    · rw [normStep_apply_ne w h _ k j (by omega) (by omega) (by omega)]
      exact ih j hj'
    · exact normStep_clean_self w h hw _ j

theorem cell_index_lt (w h x y : Nat) (hx : x < w) (hy : y < h) :
    y * w + x < w * h := by
  have h2 : (y + 1) * w ≤ h * w := Nat.mul_le_mul_right w hy
  have h3 : (y + 1) * w = y * w + w := by ring
  have h4 : h * w = w * h := Nat.mul_comm h w
  omega

theorem cell_index_mod (w x y : Nat) (hx : x < w) : (y * w + x) % w = x := by
  rw [Nat.add_comm, Nat.add_mul_mod_self_right]
  exact Nat.mod_eq_of_lt hx

theorem cell_index_div (w x y : Nat) (hx : x < w) : (y * w + x) / w = y := by
  rw [Nat.add_comm, Nat.add_mul_div_right _ _ (by omega : 0 < w),
    Nat.div_eq_of_lt hx]
  omega

theorem normalizeLoop_clean (w h : Nat) (s : U8) :
    boundaryClean (normalizeLoop w h s) w h := by
  intro x y hx hy
  have hj := cell_index_lt w h x y hx hy
  have := normalizeLoop_prefix_clean w h (by omega) s (w * h) (y * w + x) hj
  rwa [cell_index_mod w x y hx, cell_index_div w x y hx] at this

theorem cleanCell_or8 (w h x y v : Nat) (hv : cleanCell w h x y v) (hx : 0 < x) :
    cleanCell w h x y (v ||| 8) := by
  obtain ⟨c1, c2, c3, c4⟩ := hv
  refine ⟨fun hy => ?_, fun hx2 => ?_, fun hy => ?_, fun hx2 => ?_⟩
  · rw [or_tb_other _ _ _ tb_8_0]; exact c1 hy
  · rw [or_tb_other _ _ _ tb_8_1]; exact c2 hx2
  · rw [or_tb_other _ _ _ tb_8_2]; exact c3 hy
  · omega

theorem cleanCell_or1 (w h x y v : Nat) (hv : cleanCell w h x y v) (hy : 0 < y) :
    cleanCell w h x y (v ||| 1) := by
  obtain ⟨c1, c2, c3, c4⟩ := hv
  refine ⟨fun hy2 => ?_, fun hx => ?_, fun hy2 => ?_, fun hx => ?_⟩
  · omega
  · rw [or_tb_other _ _ _ tb_1_1]; exact c2 hx
  · rw [or_tb_other _ _ _ tb_1_2]; exact c3 hy2
  · rw [or_tb_other _ _ _ tb_1_3]; exact c4 hx

theorem upd_same (s : U8) (i v : Nat) : upd s i v i = v := by simp [upd]

theorem upd_ne (s : U8) (i v j : Nat) (h : j ≠ i) : upd s i v j = s j := by simp [upd, h]

theorem forceStartOpen_clean (w h : Nat) (hw : 1 ≤ w) (hh : 1 ≤ h) (s : U8)
    (hs : boundaryClean s w h) : boundaryClean (forceStartOpen w h s) w h := by
  intro x y hx hy
  simp only [forceStartOpen]
  split_ifs with h0 hw1 hh1
  · -- s 0 = 0, w > 1: force East at the start, West on its right neighbour
    by_cases hj0 : y * w + x = 0
    · have hx0 : x = 0 := by omega
      have hy0 : y = 0 := by
        rcases Nat.mul_eq_zero.mp (by omega : y * w = 0) with h | h <;> omega
      have base := hs x y hx hy
      rw [hj0] at base ⊢
      rw [upd_ne _ _ _ _ (by omega), upd_same]
      subst hx0; subst hy0
      exact cleanCell_or2 w h 0 0 (s 0) base (by omega)
    · by_cases hj1 : y * w + x = 1
      · have hw2 : 2 ≤ w := hw1
        have hy0 : y = 0 := by
          rcases Nat.eq_zero_or_pos y with h | h
          · exact h
          · have : w ≤ y * w := Nat.le_mul_of_pos_left w h
            omega
        subst hy0
        have hx1 : x = 1 := by omega
        subst hx1
        have base := hs 1 0 (by omega) (by omega)
        rw [hj1] at base ⊢
        rw [upd_same, upd_ne _ _ _ _ (by omega)]
        exact cleanCell_or8 w h 1 0 (s 1) base (by omega)
      · rw [upd_ne _ _ _ _ hj1, upd_ne _ _ _ _ hj0]
        exact hs x y hx hy
  · -- s 0 = 0, w = 1, h > 1: force South at the start, North below
    have hww : w = 1 := by omega
    subst hww
    have hx0 : x = 0 := by omega
    subst hx0
    by_cases hj0 : y = 0
    · subst hj0
      have base := hs 0 0 (by omega) (by omega)
      rw [(by omega : 0 * 1 + 0 = 0)] at base ⊢
      rw [upd_ne _ _ _ _ (by omega), upd_same]
      exact cleanCell_or4 1 h 0 0 (s 0) base (by omega)
    · by_cases hj1 : y = 1
      · subst hj1
        have base := hs 0 1 (by omega) hy
        rw [(by omega : 1 * 1 + 0 = 1)] at base ⊢
        rw [upd_same, upd_ne _ _ _ _ (by omega)]
        exact cleanCell_or1 1 h 0 1 (s 1) base (by omega)
      · rw [upd_ne _ _ _ _ (by omega), upd_ne _ _ _ _ (by omega)]
        exact hs 0 y (by omega) hy
  · exact hs x y hx hy
  · exact hs x y hx hy

theorem forceGoalOpen_clean (w h : Nat) (hw : 1 ≤ w) (hh : 1 ≤ h) (s : U8)
    (hs : boundaryClean s w h) : boundaryClean (forceGoalOpen w h s) w h := by
  intro x y hx hy
  simp only [forceGoalOpen]
  split_ifs with h0 hw1 hh1
  · -- goal cell empty, w > 1: force West at the goal, East on its left neighbour
    have hg1 : 1 ≤ (h - 1) * w + (w - 1) := by omega
    by_cases hjg : y * w + x = (h - 1) * w + (w - 1)
    · have hxx : x = w - 1 := by
        have h1 := cell_index_mod w x y hx
        have h2 := cell_index_mod w (w - 1) (h - 1) (by omega)
        rw [hjg] at h1; omega
      have hyy : y = h - 1 := by
        have h1 := cell_index_div w x y hx
        have h2 := cell_index_div w (w - 1) (h - 1) (by omega)
        rw [hjg] at h1; omega
      have base := hs x y hx hy
      rw [hjg] at base ⊢
      rw [upd_ne _ _ _ _ (by omega), upd_same]
      exact cleanCell_or8 w h x y _ base (by omega)
    · by_cases hjg1 : y * w + x = (h - 1) * w + (w - 1) - 1
      · have hgm : (h - 1) * w + (w - 1) - 1 = (h - 1) * w + (w - 2) := by omega
        have hxx : x = w - 2 := by
          have h1 := cell_index_mod w x y hx
          have h2 := cell_index_mod w (w - 2) (h - 1) (by omega)
          rw [hjg1, hgm] at h1; omega
        have hyy : y = h - 1 := by
          have h1 := cell_index_div w x y hx
          have h2 := cell_index_div w (w - 2) (h - 1) (by omega)
          rw [hjg1, hgm] at h1; omega
        have base := hs x y hx hy
        rw [hjg1] at base ⊢
        rw [upd_same, upd_ne _ _ _ _ (by omega)]
        exact cleanCell_or2 w h x y _ base (by omega)
      · rw [upd_ne _ _ _ _ hjg1, upd_ne _ _ _ _ hjg]
        exact hs x y hx hy
  · -- goal cell empty, w = 1, h > 1: force North at the goal, South above
    have hww : w = 1 := by omega
    subst hww
    have hx0 : x = 0 := by omega
    subst hx0
    by_cases hjg : y = h - 1
    · subst hjg
      have base := hs 0 (h - 1) (by omega) hy
      rw [(by omega : (h - 1) * 1 + 0 = (h - 1) * 1 + (1 - 1))] at base ⊢
      rw [upd_ne _ _ _ _ (by omega), upd_same]
      exact cleanCell_or1 1 h 0 (h - 1) _ base (by omega)
    · by_cases hjg1 : y = h - 2
      · subst hjg1
        have hh2 : 2 ≤ h := hh1
        have base := hs 0 (h - 2) (by omega) hy
        rw [(by omega : (h - 2) * 1 + 0 = (h - 1) * 1 + (1 - 1) - 1)] at base ⊢
        rw [upd_same, upd_ne _ _ _ _ (by omega)]
        exact cleanCell_or4 1 h 0 (h - 2) _ base (by omega)
      · rw [upd_ne _ _ _ _ (by omega), upd_ne _ _ _ _ (by omega)]
        exact hs 0 y (by omega) hy
  · exact hs x y hx hy
  · exact hs x y hx hy

/-- Boundary cleanliness of the full `normalizeOpenings`, for **any**
input mask array. -/
theorem normalizeOpenings_boundaryClean (s : U8) (w h : Nat) (hw : 1 ≤ w) (hh : 1 ≤ h) :
    boundaryClean (normalizeOpenings s w h) w h :=
  forceGoalOpen_clean w h hw hh _
    (forceStartOpen_clean w h hw hh _ (normalizeLoop_clean w h s))

/-- **C8 (amended).** On the expanded-grid (primary) path — i.e. whenever
the payload parses to a 2D array of the matching dimensions
`(2h+1) × (2w+1)` — `decodeOpenings` returns the normalized conversion,
and that mask array has no direction bit pointing outside the grid: no
North bit in row 0, no South bit in row `h−1`, no West bit in column 0, no
East bit in column `w−1`.  (The legacy nibble path performs no such
stripping and can return boundary bits — see the counterexample.) -/
theorem decodeOpenings_expanded_boundary_clean
    (inflate : List Nat → Option (List Nat)) (jsonParse : List Nat → Option JVal)
    (g : List Char) (w h : Nat) (hw : 1 ≤ w) (hh : 1 ≤ h)
    (row0 : List JVal) (rest : List JVal)
    (hparse : tryParseBase64ZlibJson inflate jsonParse g = some (.arr (.arr row0 :: rest)))
    (hrows : (JVal.arr row0 :: rest).length = 2 * h + 1)
    (hcols : row0.length = 2 * w + 1) :
    decodeOpenings inflate jsonParse g w h =
      .ok (normalizeOpenings (convertExpandedToRegular (.arr row0 :: rest) w h) w h) ∧
    boundaryClean
      (normalizeOpenings (convertExpandedToRegular (.arr row0 :: rest) w h) w h) w h := by
  constructor
  · simp only [decodeOpenings]
    rw [hparse]
    simp [hrows, hcols]
  · exact normalizeOpenings_boundaryClean _ w h hw hh

/-- The 3×3 expanded grid (all walls) of a 1×1 maze, as a parsed value. -/
def c8Grid : List JVal :=
  [.arr [.num 0, .num 0, .num 0], .arr [.num 0, .num 1, .num 0],
   .arr [.num 0, .num 0, .num 0]]

/-- Witness for the amended C8: a concrete decode along the expanded path
of a 1×1 maze. -/
theorem decodeOpenings_expanded_boundary_clean_witness :
    tryParseBase64ZlibJson noInflate (jsonParseConst (.arr c8Grid)) [] =
      some (.arr c8Grid) ∧
    decodeOpenings noInflate (jsonParseConst (.arr c8Grid)) [] 1 1 =
      .ok (normalizeOpenings
        (convertExpandedToRegular
          (.arr [.num 0, .num 0, .num 0] ::
            [.arr [.num 0, .num 1, .num 0], .arr [.num 0, .num 0, .num 0]]) 1 1) 1 1) :=
  ⟨rfl,
    (decodeOpenings_expanded_boundary_clean noInflate (jsonParseConst (.arr c8Grid)) [] 1 1
      (by decide) (by decide) [.num 0, .num 0, .num 0]
      [.arr [.num 0, .num 1, .num 0], .arr [.num 0, .num 0, .num 0]]
      rfl (by decide) (by decide)).1⟩

/-! ## Gameplay input handler — `processCell` (App component, bundled with
decoder.ts) -/

/-- A cell coordinate as used by the gameplay component. -/
@[ext]
structure GridPoint where
  x : Int
  y : Int
deriving DecidableEq

/-- The component's `DIRECTIONS` table: `(dx, dy, mask)` for
N, E, S, W (indices 0–3). -/
def DIRECTIONS : List (Int × Int × Nat) :=
  [(0, -1, 1), (1, 0, 2), (0, 1, 4), (-1, 0, 8)]

/-- The dimensions of the loaded maze record used by `processCell`. -/
structure MazeRec where
  w : Nat
  h : Nat

/-- The path fragment of the player-run state that `processCell` reads and
writes: the walked cells and the move list.  (The handler's further
effects — divergence evaluation and win handling — update state outside
this fragment and only run on the append path.) -/
structure PlayerPathState where
  playerCells : List GridPoint
  playerMoves : List Int
deriving DecidableEq

/-- `processCell(target)` from the App component: bail out when no maze is
loaded, when the target is the current cursor cell, when it is the
previous cell of the walked path (silent backstep ignore), when it is not
4-adjacent to the cursor, or when the passage is closed; otherwise append
the cell and its move.  Reading `cells[cells.length−1]` of an empty path
throws in JS, modelled as `none`. -/
def processCell (maze : Option MazeRec) (openings : U8) (st : PlayerPathState)
    (target : GridPoint) : Option PlayerPathState :=
  match maze with
  | none => some st
  | some mz =>
    match st.playerCells.getLast? with
    | none => none
    | some last =>
      if last.x = target.x ∧ last.y = target.y then some st
      else
        let prev? := if 2 ≤ st.playerCells.length then
            st.playerCells.get? (st.playerCells.length - 2) else none
        let prevMatches : Bool := match prev? with
          | some prev => decide (prev.x = target.x ∧ prev.y = target.y)
          | none => false
        if prevMatches then some st
        else
          let dx := target.x - last.x
          let dy := target.y - last.y
          if dx.natAbs + dy.natAbs ≠ 1 then some st
          else
            match DIRECTIONS.findIdx? (fun d => d.1 = dx ∧ d.2.1 = dy) with
            | none => some st
            | some dirIdx =>
              let idxI : Int := last.y * mz.w + last.x
              let mask := if 0 ≤ idxI then openings idxI.toNat else 0
              if mask &&& (DIRECTIONS.getD dirIdx (0, 0, 0)).2.2 = 0 then some st
              else some { playerCells := st.playerCells ++ [target],
                          playerMoves := st.playerMoves ++ [(dirIdx : Int)] }

/-- **C10.** With at least two cells in the walked path, calling
`processCell` on the cell immediately before the cursor (the previous cell
of the path) changes nothing: no cell is appended and no move is recorded,
regardless of whether the passage between the two cells is open. -/
theorem processCell_backstep_noop (maze : MazeRec) (openings : U8)
    (st : PlayerPathState) (target : GridPoint)
    (hlen : 2 ≤ st.playerCells.length)
    (hprev : st.playerCells.get? (st.playerCells.length - 2) = some target) :
    processCell (some maze) openings st target = some st := by
  simp only [processCell]
  have hne : st.playerCells ≠ [] := by
    intro h; rw [h] at hlen; simp at hlen
  rcases hlast : st.playerCells.getLast? with _ | last
  · rw [List.getLast?_eq_none_iff] at hlast
    exact absurd hlast hne
  · dsimp only
    by_cases hsame : last.x = target.x ∧ last.y = target.y
    · rw [if_pos hsame]
    · rw [if_neg hsame, if_pos hlen, hprev]
      simp

/-- Witness for C10: a 2×2 maze with every passage open; the path is
`(0,0) → (1,0)` and the target is the previous cell `(0,0)`. -/
theorem processCell_backstep_noop_witness :
    2 ≤ ([⟨0, 0⟩, ⟨1, 0⟩] : List GridPoint).length ∧
    ([⟨0, 0⟩, ⟨1, 0⟩] : List GridPoint).get?
      (([⟨0, 0⟩, ⟨1, 0⟩] : List GridPoint).length - 2) = some ⟨0, 0⟩ ∧
    ((fun _ => 15 : U8) 2 &&& 8 ≠ 0) ∧
    processCell (some ⟨2, 2⟩) (fun _ => 15)
      ⟨[⟨0, 0⟩, ⟨1, 0⟩], [1]⟩ ⟨0, 0⟩ = some ⟨[⟨0, 0⟩, ⟨1, 0⟩], [1]⟩ :=
  ⟨by decide, by decide, by decide,
    processCell_backstep_noop ⟨2, 2⟩ (fun _ => 15)
      ⟨[⟨0, 0⟩, ⟨1, 0⟩], [1]⟩ ⟨0, 0⟩ (by decide) (by decide)⟩

/-! ## Authoring side — `src/temp/app.js` (move packer and `btoa`) -/

/-- The move for a unit coordinate step in the authoring tool
(`movesFromPathCoords`): 0=N (dy=−1), 1=E (dx=1), 2=S (dy=1), 3=W (dx=−1). -/
def moveOfStep (dx dy : Int) : Option Int :=
  if dx = 0 ∧ dy = -1 then some 0
  else if dx = 1 ∧ dy = 0 then some 1
  else if dx = 0 ∧ dy = 1 then some 2
  else if dx = -1 ∧ dy = 0 then some 3
  else none

/-- `movesFromPathCoords(coords)` from `app.js`: convert consecutive
coordinates to moves, throwing (modelled `none`) on a non-adjacent step. -/
def movesFromPathCoords : List GridPoint → Option (List Int)
  | p :: q :: rest =>
    match moveOfStep (q.x - p.x) (q.y - p.y) with
    | some m => (movesFromPathCoords (q :: rest)).map (fun ms => m :: ms)
    | none => none
  | _ => some []

/-- One byte of the 2-bit move packer (`packMovesBase64`): the move at
`index % 4 = r` contributes `(move & 3) << 2r`. -/
def packByte (a b c d : Int) : Nat :=
  (a.toNat &&& 3) ||| ((b.toNat &&& 3) <<< 2) ||| ((c.toNat &&& 3) <<< 4) |||
    ((d.toNat &&& 3) <<< 6)

/-- The packed byte array built by `packMovesBase64` (the `Uint8Array` is
zero-initialised, so a partial final byte keeps zero high bits). -/
def packMovesBytes : List Int → List Nat
  | [] => []
  | [a] => [packByte a 0 0 0]
  | [a, b] => [packByte a b 0 0]
  | [a, b, c] => [packByte a b c 0]
  | a :: b :: c :: d :: rest => packByte a b c d :: packMovesBytes rest

/-- The character for a 6-bit digit (used by `btoa`). -/
def b64Char (v : Nat) : Char := BASE64_ALPHABET.getD v 'A'

/-- `btoa` applied to a binary string of bytes: standard Base64, three
bytes per four characters, `=`-padded tail. -/
def bytesToBase64 : List Nat → List Char
  | [] => []
  | [b0] => [b64Char (b0 >>> 2), b64Char ((b0 &&& 3) <<< 4), '=', '=']
  | [b0, b1] => [b64Char (b0 >>> 2), b64Char (((b0 &&& 3) <<< 4) ||| (b1 >>> 4)),
      b64Char ((b1 &&& 15) <<< 2), '=']
  | b0 :: b1 :: b2 :: rest =>
    b64Char (b0 >>> 2) :: b64Char (((b0 &&& 3) <<< 4) ||| (b1 >>> 4)) ::
    b64Char (((b1 &&& 15) <<< 2) ||| (b2 >>> 6)) :: b64Char (b2 &&& 63) ::
    bytesToBase64 rest

/-- `packMovesBase64(moves)` from `app.js`: empty string for no moves,
else `btoa` of the packed bytes. -/
def packMovesBase64 (moves : List Int) : List Char :=
  if moves.length = 0 then [] else bytesToBase64 (packMovesBytes moves)

/-! ### Base64 encode/decode round trip -/

theorem shl_or_eq_add (y n x : Nat) (hx : x < 2^n) : y <<< n ||| x = y * 2^n + x := by
  rw [Nat.mul_comm y (2^n)]
  apply Nat.eq_of_testBit_eq
  intro i
  rw [Nat.testBit_or, Nat.testBit_shiftLeft, Nat.testBit_mul_pow_two_add y hx i]
  by_cases h : i < n
  · rw [if_pos h]
    simp [Nat.not_le.mpr h]
  · rw [if_neg h]
    have hxf : x.testBit i = false :=
      Nat.testBit_lt_two_pow (lt_of_lt_of_le hx (Nat.pow_le_pow_right (by omega) (by omega)))
    simp [hxf, Nat.le_of_not_lt h]

theorem b64Chunk_eq_add (a b c d : Nat) (ha : a < 64) (hb : b < 64) (hc : c < 64)
    (hd : d < 64) : b64Chunk a b c d = a * 262144 + b * 4096 + c * 64 + d := by
  unfold b64Chunk
  rw [Nat.lor_assoc, Nat.lor_assoc]
  rw [shl_or_eq_add c 6 d (by omega)]
  have hcd : c * 2^6 + d < 2^12 := by omega
  rw [shl_or_eq_add b 12 _ hcd]
  have hbcd : b * 2^12 + (c * 2^6 + d) < 2^18 := by omega
  rw [shl_or_eq_add a 18 _ hbcd]
  norm_num
  ring

theorem chunkBytes_of_add (a b c d : Nat) (ha : a < 64) (hb : b < 64) (hc : c < 64)
    (hd : d < 64) :
    chunkBytes (b64Chunk a b c d) = [a * 4 + b / 16, b % 16 * 16 + c / 4, c % 4 * 64 + d] := by
  rw [b64Chunk_eq_add a b c d ha hb hc hd]
  unfold chunkBytes
  rw [Nat.shiftRight_eq_div_pow, Nat.shiftRight_eq_div_pow,
    show (255:Nat) = 2^8 - 1 from rfl, Nat.and_pow_two_sub_one_eq_mod,
    Nat.and_pow_two_sub_one_eq_mod, Nat.and_pow_two_sub_one_eq_mod]
  norm_num
  refine ⟨by omega, by omega, by omega⟩

theorem group3_roundtrip (b0 b1 b2 : Nat) (h0 : b0 < 256) (h1 : b1 < 256) (h2 : b2 < 256) :
    chunkBytes (b64Chunk (b0 >>> 2) (((b0 &&& 3) <<< 4) ||| (b1 >>> 4))
      (((b1 &&& 15) <<< 2) ||| (b2 >>> 6)) (b2 &&& 63)) = [b0, b1, b2] := by
  have e1 : b0 >>> 2 = b0 / 4 := by rw [Nat.shiftRight_eq_div_pow]
  have e2 : ((b0 &&& 3) <<< 4) ||| (b1 >>> 4) = b0 % 4 * 16 + b1 / 16 := by
    rw [show (3:Nat) = 2^2 - 1 from rfl, Nat.and_pow_two_sub_one_eq_mod,
      Nat.shiftRight_eq_div_pow]
    rw [shl_or_eq_add _ 4 _ (by omega : b1 / 2^4 < 2^4)]
    norm_num
  have e3 : ((b1 &&& 15) <<< 2) ||| (b2 >>> 6) = b1 % 16 * 4 + b2 / 64 := by
    rw [show (15:Nat) = 2^4 - 1 from rfl, Nat.and_pow_two_sub_one_eq_mod,
      Nat.shiftRight_eq_div_pow]
    rw [shl_or_eq_add _ 2 _ (by omega : b2 / 2^6 < 2^2)]
    norm_num
  have e4 : b2 &&& 63 = b2 % 64 := by
    rw [show (63:Nat) = 2^6 - 1 from rfl, Nat.and_pow_two_sub_one_eq_mod]
  rw [e1, e2, e3, e4]
  rw [chunkBytes_of_add _ _ _ _ (by omega) (by omega) (by omega) (by omega)]
  simp only [List.cons.injEq, and_true]
  refine ⟨by omega, by omega, by omega⟩

theorem group1_roundtrip (b0 : Nat) (h0 : b0 < 256) :
    chunkBytes (b64Chunk (b0 >>> 2) ((b0 &&& 3) <<< 4) 0 0) = [b0, 0, 0] := by
  have e1 : b0 >>> 2 = b0 / 4 := by rw [Nat.shiftRight_eq_div_pow]
  have e2 : (b0 &&& 3) <<< 4 = b0 % 4 * 16 := by
    rw [show (3:Nat) = 2^2 - 1 from rfl, Nat.and_pow_two_sub_one_eq_mod,
      Nat.shiftLeft_eq]
  rw [e1, e2]
  rw [chunkBytes_of_add _ _ _ _ (by omega) (by omega) (by omega) (by omega)]
  simp only [List.cons.injEq, and_true] <;> omega

theorem group2_roundtrip (b0 b1 : Nat) (h0 : b0 < 256) (h1 : b1 < 256) :
    chunkBytes (b64Chunk (b0 >>> 2) (((b0 &&& 3) <<< 4) ||| (b1 >>> 4))
      ((b1 &&& 15) <<< 2) 0) = [b0, b1, 0] := by
  have e1 : b0 >>> 2 = b0 / 4 := by rw [Nat.shiftRight_eq_div_pow]
  have e2 : ((b0 &&& 3) <<< 4) ||| (b1 >>> 4) = b0 % 4 * 16 + b1 / 16 := by
    rw [show (3:Nat) = 2^2 - 1 from rfl, Nat.and_pow_two_sub_one_eq_mod,
      Nat.shiftRight_eq_div_pow]
    rw [shl_or_eq_add _ 4 _ (by omega : b1 / 2^4 < 2^4)]
    norm_num
  have e3 : (b1 &&& 15) <<< 2 = b1 % 16 * 4 := by
    rw [show (15:Nat) = 2^4 - 1 from rfl, Nat.and_pow_two_sub_one_eq_mod,
      Nat.shiftLeft_eq]
  rw [e1, e2, e3]
  rw [chunkBytes_of_add _ _ _ _ (by omega) (by omega) (by omega) (by omega)]
  simp only [List.cons.injEq, and_true] <;> omega

theorem lookup_b64Char : ∀ v < 64, BASE64_LOOKUP (b64Char v).toNat = v := by decide

theorem b64Char_ne_eq : ∀ v < 64, b64Char v ≠ '=' := by decide

theorem b64Char_not_ws : ∀ v < 64, isJsWhitespace (b64Char v) = false := by decide

theorem eq_char_not_ws : isJsWhitespace '=' = false := by decide

theorem lookup_eq_char : BASE64_LOOKUP '='.toNat = 0 := by decide

theorem shr2_lt {b0 : Nat} (h : b0 < 256) : b0 >>> 2 < 64 := by
  rw [Nat.shiftRight_eq_div_pow]; omega

theorem and3_shl4_lt (b0 : Nat) : (b0 &&& 3) <<< 4 < 64 := by
  rw [show (3:Nat) = 2^2 - 1 from rfl, Nat.and_pow_two_sub_one_eq_mod, Nat.shiftLeft_eq]
  omega

theorem and3shl4_or_lt (b0 b1 : Nat) (h1 : b1 < 256) :
    ((b0 &&& 3) <<< 4) ||| (b1 >>> 4) < 64 := by
  rw [Nat.shiftRight_eq_div_pow]
  rw [shl_or_eq_add _ 4 _ (by omega : b1 / 2^4 < 2^4)]
  rw [show (3:Nat) = 2^2 - 1 from rfl, Nat.and_pow_two_sub_one_eq_mod]
  omega

theorem and15shl2_lt (b1 : Nat) : (b1 &&& 15) <<< 2 < 64 := by
  rw [show (15:Nat) = 2^4 - 1 from rfl, Nat.and_pow_two_sub_one_eq_mod, Nat.shiftLeft_eq]
  omega

theorem and15shl2_or_lt (b1 b2 : Nat) (h2 : b2 < 256) :
    ((b1 &&& 15) <<< 2) ||| (b2 >>> 6) < 64 := by
  rw [Nat.shiftRight_eq_div_pow]
  rw [shl_or_eq_add _ 2 _ (by omega : b2 / 2^6 < 2^2)]
  rw [show (15:Nat) = 2^4 - 1 from rfl, Nat.and_pow_two_sub_one_eq_mod]
  omega

theorem and63_lt (b2 : Nat) : b2 &&& 63 < 64 := by
  rw [show (63:Nat) = 2^6 - 1 from rfl, Nat.and_pow_two_sub_one_eq_mod]
  omega

theorem b64Padding_append (g e : List Char) (he : 2 ≤ e.length) :
    b64Padding (g ++ e) = b64Padding e := by
  unfold b64Padding
  rw [List.reverse_append]
  rw [List.take_append_of_le_length (by simpa using he),
    List.take_append_of_le_length (by simp; omega)]

/-- What `btoa` produces, as seen by the decoder: the character count, the
`=`-padding count, and the chunk-loop output (the original bytes followed
by the zero bytes the padding will cut off). -/
theorem bytesToBase64_spec : ∀ bs : List Nat, (∀ x ∈ bs, x < 256) →
    (bytesToBase64 bs).length = 4 * ((bs.length + 2) / 3) ∧
    b64Padding (bytesToBase64 bs) = (3 - bs.length % 3) % 3 ∧
    b64Groups (bytesToBase64 bs) = bs ++ List.replicate ((3 - bs.length % 3) % 3) 0 := by
  intro bs
  induction bs using bytesToBase64.induct with
  | case1 => exact fun _ => ⟨rfl, rfl, rfl⟩
  | case2 b0 =>
    intro hb
    have h0 : b0 < 256 := hb b0 (by simp)
    have henc : bytesToBase64 [b0] =
        [b64Char (b0 >>> 2), b64Char ((b0 &&& 3) <<< 4), '=', '='] := rfl
    rw [henc]
    refine ⟨by simp, by simp [b64Padding], ?_⟩
    show chunkBytes (b64Chunk (BASE64_LOOKUP (b64Char (b0 >>> 2)).toNat)
      (BASE64_LOOKUP (b64Char ((b0 &&& 3) <<< 4)).toNat)
      (BASE64_LOOKUP '='.toNat) (BASE64_LOOKUP '='.toNat)) ++ b64Groups [] =
        [b0] ++ List.replicate ((3 - [b0].length % 3) % 3) 0
    rw [lookup_b64Char _ (shr2_lt h0), lookup_b64Char _ (and3_shl4_lt b0), lookup_eq_char]
    rw [group1_roundtrip b0 h0]
    rfl
  | case3 b0 b1 =>
    intro hb
    have h0 : b0 < 256 := hb b0 (by simp)
    have h1 : b1 < 256 := hb b1 (by simp)
    have hc : b64Char ((b1 &&& 15) <<< 2) ≠ '=' := b64Char_ne_eq _ (and15shl2_lt b1)
    have henc : bytesToBase64 [b0, b1] =
        [b64Char (b0 >>> 2), b64Char (((b0 &&& 3) <<< 4) ||| (b1 >>> 4)),
          b64Char ((b1 &&& 15) <<< 2), '='] := rfl
    rw [henc]
    refine ⟨by simp, by simp [b64Padding, hc], ?_⟩
    show chunkBytes (b64Chunk (BASE64_LOOKUP (b64Char (b0 >>> 2)).toNat)
      (BASE64_LOOKUP (b64Char (((b0 &&& 3) <<< 4) ||| (b1 >>> 4))).toNat)
      (BASE64_LOOKUP (b64Char ((b1 &&& 15) <<< 2)).toNat)
      (BASE64_LOOKUP '='.toNat)) ++ b64Groups [] =
        [b0, b1] ++ List.replicate ((3 - [b0, b1].length % 3) % 3) 0
    rw [lookup_b64Char _ (shr2_lt h0), lookup_b64Char _ (and3shl4_or_lt b0 b1 h1),
      lookup_b64Char _ (and15shl2_lt b1), lookup_eq_char]
    rw [group2_roundtrip b0 b1 h0 h1]
    rfl
  | case4 b0 b1 b2 rest ih =>
    intro hb
    have h0 : b0 < 256 := hb b0 (by simp)
    have h1 : b1 < 256 := hb b1 (by simp)
    have h2 : b2 < 256 := hb b2 (by simp)
    have hbrest : ∀ x ∈ rest, x < 256 := fun x hx => hb x (by simp [hx])
    obtain ⟨ihlen, ihpad, ihgrp⟩ := ih hbrest
    have henc : bytesToBase64 (b0 :: b1 :: b2 :: rest) =
        b64Char (b0 >>> 2) :: b64Char (((b0 &&& 3) <<< 4) ||| (b1 >>> 4)) ::
        b64Char (((b1 &&& 15) <<< 2) ||| (b2 >>> 6)) :: b64Char (b2 &&& 63) ::
        bytesToBase64 rest := rfl
    have hbytes : chunkBytes (b64Chunk (BASE64_LOOKUP (b64Char (b0 >>> 2)).toNat)
        (BASE64_LOOKUP (b64Char (((b0 &&& 3) <<< 4) ||| (b1 >>> 4))).toNat)
        (BASE64_LOOKUP (b64Char (((b1 &&& 15) <<< 2) ||| (b2 >>> 6))).toNat)
        (BASE64_LOOKUP (b64Char (b2 &&& 63)).toNat)) = [b0, b1, b2] := by
      rw [lookup_b64Char _ (shr2_lt h0), lookup_b64Char _ (and3shl4_or_lt b0 b1 h1),
        lookup_b64Char _ (and15shl2_or_lt b1 b2 h2), lookup_b64Char _ (and63_lt b2)]
      exact group3_roundtrip b0 b1 b2 h0 h1 h2
    rw [henc]
    refine ⟨?_, ?_, ?_⟩
    · simp only [List.length_cons, ihlen]
      omega
    · cases rest with
      | nil =>
        have hd : b64Char (b2 &&& 63) ≠ '=' := b64Char_ne_eq _ (and63_lt b2)
        simp [b64Padding, bytesToBase64, hd]
      | cons r rs =>
        have hlen2 : 2 ≤ (bytesToBase64 (r :: rs)).length := by
          rw [ihlen]
          simp only [List.length_cons]
          omega
        have happ : b64Char (b0 >>> 2) :: b64Char (((b0 &&& 3) <<< 4) ||| (b1 >>> 4)) ::
            b64Char (((b1 &&& 15) <<< 2) ||| (b2 >>> 6)) :: b64Char (b2 &&& 63) ::
            bytesToBase64 (r :: rs) =
            [b64Char (b0 >>> 2), b64Char (((b0 &&& 3) <<< 4) ||| (b1 >>> 4)),
              b64Char (((b1 &&& 15) <<< 2) ||| (b2 >>> 6)), b64Char (b2 &&& 63)] ++
            bytesToBase64 (r :: rs) := rfl
        rw [happ, b64Padding_append _ _ hlen2, ihpad]
        simp only [List.length_cons]
        congr 1
        omega
    · have hgrp : b64Groups (b64Char (b0 >>> 2) ::
          b64Char (((b0 &&& 3) <<< 4) ||| (b1 >>> 4)) ::
          b64Char (((b1 &&& 15) <<< 2) ||| (b2 >>> 6)) :: b64Char (b2 &&& 63) ::
          bytesToBase64 rest) =
          chunkBytes (b64Chunk (BASE64_LOOKUP (b64Char (b0 >>> 2)).toNat)
            (BASE64_LOOKUP (b64Char (((b0 &&& 3) <<< 4) ||| (b1 >>> 4))).toNat)
            (BASE64_LOOKUP (b64Char (((b1 &&& 15) <<< 2) ||| (b2 >>> 6))).toNat)
            (BASE64_LOOKUP (b64Char (b2 &&& 63)).toNat)) ++
            b64Groups (bytesToBase64 rest) := rfl
      rw [hgrp, hbytes, ihgrp]
      simp only [List.length_cons]
      rw [(by omega : (3 - (rest.length + 1 + 1 + 1) % 3) % 3 = (3 - rest.length % 3) % 3)]
      simp

theorem alphabet_not_ws : ∀ c ∈ BASE64_ALPHABET, isJsWhitespace c = false := by decide

theorem b64Char_not_ws_all (v : Nat) : isJsWhitespace (b64Char v) = false := by
  unfold b64Char
  by_cases h : v < BASE64_ALPHABET.length
  · rw [List.getD_eq_getElem _ _ h]
    exact alphabet_not_ws _ (List.getElem_mem h)
  · rw [List.getD_eq_default _ _ (by omega)]
    decide

theorem bytesToBase64_no_ws (bs : List Nat) :
    (bytesToBase64 bs).filter (fun c => !(isJsWhitespace c)) = bytesToBase64 bs := by
  apply List.filter_eq_self.mpr
  intro c hc
  suffices h : isJsWhitespace c = false by simp [h]
  induction bs using bytesToBase64.induct with
  | case1 => simp [bytesToBase64] at hc
  | case2 b0 =>
    have henc : bytesToBase64 [b0] =
        [b64Char (b0 >>> 2), b64Char ((b0 &&& 3) <<< 4), '=', '='] := rfl
    rw [henc] at hc
    simp only [List.mem_cons] at hc
    rcases hc with h | h | h | h | h
    all_goals first
      | (subst h; exact b64Char_not_ws_all _)
      | (subst h; exact eq_char_not_ws)
      | simp at h
  | case3 b0 b1 =>
    have henc : bytesToBase64 [b0, b1] =
        [b64Char (b0 >>> 2), b64Char (((b0 &&& 3) <<< 4) ||| (b1 >>> 4)),
          b64Char ((b1 &&& 15) <<< 2), '='] := rfl
    rw [henc] at hc
    simp only [List.mem_cons] at hc
    rcases hc with h | h | h | h | h
    all_goals first
      | (subst h; exact b64Char_not_ws_all _)
      | (subst h; exact eq_char_not_ws)
      | simp at h
  | case4 b0 b1 b2 rest ih =>
    have henc : bytesToBase64 (b0 :: b1 :: b2 :: rest) =
        b64Char (b0 >>> 2) :: b64Char (((b0 &&& 3) <<< 4) ||| (b1 >>> 4)) ::
        b64Char (((b1 &&& 15) <<< 2) ||| (b2 >>> 6)) :: b64Char (b2 &&& 63) ::
        bytesToBase64 rest := rfl
    rw [henc] at hc
    simp only [List.mem_cons] at hc
    rcases hc with h | h | h | h | h
    all_goals first
      | (subst h; exact b64Char_not_ws_all _)
      | exact ih h

/-- Decoding our own `btoa` output returns exactly the original bytes
(given an `inflate` oracle that rejects them, as `pako` does for data
without a zlib header). -/
theorem decodeBase64_of_bytesToBase64 (inflate : List Nat → Option (List Nat))
    (bs : List Nat) (hb : ∀ x ∈ bs, x < 256) (hinf : inflate bs = none) :
    decodeBase64ToUint8Array inflate (bytesToBase64 bs) = .ok bs := by
  obtain ⟨hlen, hpad, hgrp⟩ := bytesToBase64_spec bs hb
  simp only [decodeBase64ToUint8Array, bytesToBase64_no_ws bs]
  have hmod : (bytesToBase64 bs).length % 4 = 0 := by rw [hlen]; omega
  rw [if_neg (by simp [hmod])]
  have hraw : decodeB64Raw (bytesToBase64 bs) = bs := by
    unfold decodeB64Raw
    rw [hgrp, hpad, hlen]
    rw [(by omega : 4 * ((bs.length + 2) / 3) / 4 * 3 - (3 - bs.length % 3) % 3 = bs.length)]
    exact List.take_left bs (List.replicate ((3 - bs.length % 3) % 3) 0)
  rw [hraw]
  split_ifs with hej
  · rw [hinf]
  · rfl

/-! ### Properties of the packed moves of a repetition-free path -/

/-- No two consecutive moves are inverse of each other (N/S or E/W). -/
def noBacktrack : List Int → Prop
  | a :: b :: rest =>
    ¬ (a = 0 ∧ b = 2) ∧ ¬ (a = 2 ∧ b = 0) ∧ ¬ (a = 1 ∧ b = 3) ∧ ¬ (a = 3 ∧ b = 1) ∧
    noBacktrack (b :: rest)
  | _ => True

theorem noBacktrack_tail : ∀ (x : Int) (l : List Int), noBacktrack (x :: l) → noBacktrack l
  | _, [], _ => trivial
  | _, _ :: _, h => h.2.2.2.2

theorem moveOfStep_zero {dx dy : Int} (h : moveOfStep dx dy = some 0) :
    dx = 0 ∧ dy = -1 := by
  unfold moveOfStep at h
  split_ifs at h with h1 h2 h3 h4 <;> first | exact h1 | simp at h

theorem moveOfStep_one {dx dy : Int} (h : moveOfStep dx dy = some 1) :
    dx = 1 ∧ dy = 0 := by
  unfold moveOfStep at h
  split_ifs at h with h1 h2 h3 h4 <;> first | exact h2 | simp at h

theorem moveOfStep_two {dx dy : Int} (h : moveOfStep dx dy = some 2) :
    dx = 0 ∧ dy = 1 := by
  unfold moveOfStep at h
  split_ifs at h with h1 h2 h3 h4 <;> first | exact h3 | simp at h

theorem moveOfStep_three {dx dy : Int} (h : moveOfStep dx dy = some 3) :
    dx = -1 ∧ dy = 0 := by
  unfold moveOfStep at h
  split_ifs at h with h1 h2 h3 h4 <;> first | exact h4 | simp at h

theorem moveOfStep_bounds {dx dy : Int} {m : Int} (h : moveOfStep dx dy = some m) :
    0 ≤ m ∧ m < 4 := by
  unfold moveOfStep at h
  split_ifs at h <;> simp only [Option.some.injEq] at h <;> omega

theorem movesFromPathCoords_bounds :
    ∀ (coords : List GridPoint) (ms : List Int),
      movesFromPathCoords coords = some ms → ∀ m ∈ ms, 0 ≤ m ∧ m < 4
  | [], ms, h => by
    simp only [movesFromPathCoords, Option.some.injEq] at h
    subst h; simp
  | [_], ms, h => by
    simp only [movesFromPathCoords, Option.some.injEq] at h
    subst h; simp
  | p :: q :: rest, ms, h => by
    simp only [movesFromPathCoords] at h
    rcases hmv : moveOfStep (q.x - p.x) (q.y - p.y) with _ | m0
    · rw [hmv] at h; simp at h
    · rw [hmv] at h
      rcases hrec : movesFromPathCoords (q :: rest) with _ | ms'
      · rw [hrec] at h; simp at h
      · rw [hrec] at h
        simp only [Option.map_some', Option.some.injEq] at h
        subst h
        intro m hm
        rcases List.mem_cons.mp hm with hm' | hm'
        · exact hm' ▸ moveOfStep_bounds hmv
        · exact movesFromPathCoords_bounds (q :: rest) ms' hrec m hm'

theorem movesFromPathCoords_length :
    ∀ (coords : List GridPoint) (ms : List Int),
      movesFromPathCoords coords = some ms → ms.length = coords.length - 1
  | [], ms, h => by
    simp only [movesFromPathCoords, Option.some.injEq] at h
    subst h; rfl
  | [_], ms, h => by
    simp only [movesFromPathCoords, Option.some.injEq] at h
    subst h; rfl
  | p :: q :: rest, ms, h => by
    simp only [movesFromPathCoords] at h
    rcases hmv : moveOfStep (q.x - p.x) (q.y - p.y) with _ | m0
    · rw [hmv] at h; simp at h
    · rw [hmv] at h
      rcases hrec : movesFromPathCoords (q :: rest) with _ | ms'
      · rw [hrec] at h; simp at h
      · rw [hrec] at h
        simp only [Option.map_some', Option.some.injEq] at h
        subst h
        have := movesFromPathCoords_length (q :: rest) ms' hrec
        simp only [List.length_cons] at this ⊢
        omega

/-- A repetition-free path never takes a move immediately followed by its
inverse: that would return to the previous cell. -/
theorem movesFromPathCoords_noBacktrack :
    ∀ (coords : List GridPoint) (ms : List Int),
      movesFromPathCoords coords = some ms → coords.Nodup → noBacktrack ms
  | [], ms, h, _ => by
    simp only [movesFromPathCoords, Option.some.injEq] at h
    subst h; trivial
  | [_], ms, h, _ => by
    simp only [movesFromPathCoords, Option.some.injEq] at h
    subst h; trivial
  | p :: q :: rest, ms, h, hnd => by
    simp only [movesFromPathCoords] at h
    rcases hmv : moveOfStep (q.x - p.x) (q.y - p.y) with _ | m0
    · rw [hmv] at h; simp at h
    · rw [hmv] at h
      rcases hrec : movesFromPathCoords (q :: rest) with _ | ms'
      · rw [hrec] at h; simp at h
      · rw [hrec] at h
        simp only [Option.map_some', Option.some.injEq] at h
        subst h
        have htail : noBacktrack ms' :=
          movesFromPathCoords_noBacktrack (q :: rest) ms' hrec (hnd.sublist (by simp))
        cases rest with
        | nil =>
          simp only [movesFromPathCoords, Option.some.injEq] at hrec
          subst hrec
          trivial
        | cons r rest' =>
          simp only [movesFromPathCoords] at hrec
          rcases hmv2 : moveOfStep (r.x - q.x) (r.y - q.y) with _ | m1
          · rw [hmv2] at hrec; simp at hrec
          · rw [hmv2] at hrec
            rcases hrec2 : movesFromPathCoords (r :: rest') with _ | ms''
            · rw [hrec2] at hrec; simp at hrec
            · rw [hrec2] at hrec
              simp only [Option.map_some', Option.some.injEq] at hrec
              subst hrec
              have hpr : p ≠ r := by
                have : p ∉ q :: r :: rest' := (List.nodup_cons.mp hnd).1
                intro heq
                exact this (by rw [heq]; simp)
              refine ⟨?_, ?_, ?_, ?_, htail⟩
              · rintro ⟨h0, h2⟩
                obtain ⟨e1, e2⟩ := moveOfStep_zero (h0 ▸ hmv)
                obtain ⟨e3, e4⟩ := moveOfStep_two (h2 ▸ hmv2)
                exact hpr (by apply GridPoint.ext <;> omega)
              · rintro ⟨h0, h2⟩
                obtain ⟨e1, e2⟩ := moveOfStep_two (h0 ▸ hmv)
                obtain ⟨e3, e4⟩ := moveOfStep_zero (h2 ▸ hmv2)
                exact hpr (by apply GridPoint.ext <;> omega)
              · rintro ⟨h0, h2⟩
                obtain ⟨e1, e2⟩ := moveOfStep_one (h0 ▸ hmv)
                obtain ⟨e3, e4⟩ := moveOfStep_three (h2 ▸ hmv2)
                exact hpr (by apply GridPoint.ext <;> omega)
              · rintro ⟨h0, h2⟩
                obtain ⟨e1, e2⟩ := moveOfStep_three (h0 ▸ hmv)
                obtain ⟨e3, e4⟩ := moveOfStep_one (h2 ▸ hmv2)
                exact hpr (by apply GridPoint.ext <;> omega)

theorem packByte_nat_lt : ∀ A < 4, ∀ B < 4, ∀ C < 4, ∀ D < 4,
    (A &&& 3) ||| ((B &&& 3) <<< 2) ||| ((C &&& 3) <<< 4) ||| ((D &&& 3) <<< 6) < 256 := by
  decide

theorem packByte_nat_93 : ∀ A < 4, ∀ B < 4,
    (∀ C < 4, ∀ D < 4,
      ¬ ((A &&& 3) ||| ((B &&& 3) <<< 2) ||| ((C &&& 3) <<< 4) ||| ((D &&& 3) <<< 6) = 93)) ∨
    (A = 1 ∧ B = 3) := by
  decide

theorem packByte_nat_nibble : ∀ A < 4, ∀ B < 4,
    (∀ C < 4, ∀ D < 4,
      ¬ (((A &&& 3) ||| ((B &&& 3) <<< 2) ||| ((C &&& 3) <<< 4) |||
        ((D &&& 3) <<< 6)) &&& 15 = 8)) ∨
    (A = 0 ∧ B = 2) := by
  decide

theorem byteMoves_packByte_nat : ∀ A < 4, ∀ B < 4, ∀ C < 4, ∀ D < 4,
    byteMoves ((A &&& 3) ||| ((B &&& 3) <<< 2) ||| ((C &&& 3) <<< 4) ||| ((D &&& 3) <<< 6)) =
      [(A : Int), (B : Int), (C : Int), (D : Int)] := by
  decide

theorem byteMoves_packByte (a b c d : Int) (ha : 0 ≤ a ∧ a < 4) (hb : 0 ≤ b ∧ b < 4)
    (hc : 0 ≤ c ∧ c < 4) (hd : 0 ≤ d ∧ d < 4) :
    byteMoves (packByte a b c d) = [a, b, c, d] := by
  have h := byteMoves_packByte_nat a.toNat (by omega) b.toNat (by omega)
    c.toNat (by omega) d.toNat (by omega)
  unfold packByte
  rw [h]
  rw [Int.toNat_of_nonneg ha.1, Int.toNat_of_nonneg hb.1, Int.toNat_of_nonneg hc.1,
    Int.toNat_of_nonneg hd.1]

theorem packMovesBytes_lt : ∀ (ms : List Int), (∀ m ∈ ms, 0 ≤ m ∧ m < 4) →
    ∀ b ∈ packMovesBytes ms, b < 256 := by
  intro ms
  induction ms using packMovesBytes.induct with
  | case1 => intro _ b hb; simp [packMovesBytes] at hb
  | case2 a =>
    intro hm b hb
    have ha := hm a (by simp)
    simp only [packMovesBytes, List.mem_singleton] at hb
    subst hb
    exact packByte_nat_lt a.toNat (by omega) 0 (by omega) 0 (by omega) 0 (by omega)
  | case3 a b' =>
    intro hm b hb
    have ha := hm a (by simp)
    have hb' := hm b' (by simp)
    simp only [packMovesBytes, List.mem_singleton] at hb
    subst hb
    exact packByte_nat_lt a.toNat (by omega) b'.toNat (by omega) 0 (by omega) 0 (by omega)
  | case4 a b' c =>
    intro hm b hb
    have ha := hm a (by simp)
    have hb' := hm b' (by simp)
    have hc := hm c (by simp)
    simp only [packMovesBytes, List.mem_singleton] at hb
    subst hb
    exact packByte_nat_lt a.toNat (by omega) b'.toNat (by omega) c.toNat (by omega)
      0 (by omega)
  | case5 a b' c d rest ih =>
    intro hm b hb
    have ha := hm a (by simp)
    have hb' := hm b' (by simp)
    have hc := hm c (by simp)
    have hd := hm d (by simp)
    simp only [packMovesBytes, List.mem_cons] at hb
    rcases hb with hb | hb
    · subst hb
      exact packByte_nat_lt a.toNat (by omega) b'.toNat (by omega) c.toNat (by omega)
        d.toNat (by omega)
    · exact ih (fun m hmm => hm m (by simp [hmm])) b hb

theorem int_eq_of_toNat {a : Int} {n : Nat} (ha : 0 ≤ a) (h : a.toNat = n) : a = n := by
  omega

/-- A backtrack-free move list never packs a byte equal to 93 (ASCII `]`),
so its packed text can never contain the closing bracket a JSON array
needs. -/
theorem packMovesBytes_no93 : ∀ (ms : List Int), (∀ m ∈ ms, 0 ≤ m ∧ m < 4) →
    noBacktrack ms → ∀ b ∈ packMovesBytes ms, b ≠ 93 := by
  intro ms
  induction ms using packMovesBytes.induct with
  | case1 => intro _ _ b hb; simp [packMovesBytes] at hb
  | case2 a =>
    intro hm _ b hb h93
    have ha := hm a (by simp)
    simp only [packMovesBytes, List.mem_singleton] at hb
    subst hb
    rcases packByte_nat_93 a.toNat (by omega) 0 (by omega) with h | h
    · exact h 0 (by omega) 0 (by omega) h93
    · omega
  | case3 a b' =>
    intro hm hnb b hb h93
    have ha := hm a (by simp)
    have hb'' := hm b' (by simp)
    simp only [packMovesBytes, List.mem_singleton] at hb
    subst hb
    rcases packByte_nat_93 a.toNat (by omega) b'.toNat (by omega) with h | h
    · exact h 0 (by omega) 0 (by omega) h93
    · exact hnb.2.2.1 ⟨int_eq_of_toNat ha.1 h.1, int_eq_of_toNat hb''.1 h.2⟩
  | case4 a b' c =>
    intro hm hnb b hb h93
    have ha := hm a (by simp)
    have hb'' := hm b' (by simp)
    have hc := hm c (by simp)
    simp only [packMovesBytes, List.mem_singleton] at hb
    subst hb
    rcases packByte_nat_93 a.toNat (by omega) b'.toNat (by omega) with h | h
    · exact h c.toNat (by omega) 0 (by omega) h93
    · exact hnb.2.2.1 ⟨int_eq_of_toNat ha.1 h.1, int_eq_of_toNat hb''.1 h.2⟩
  | case5 a b' c d rest ih =>
    intro hm hnb b hb h93
    have ha := hm a (by simp)
    have hb'' := hm b' (by simp)
    have hc := hm c (by simp)
    have hd := hm d (by simp)
    simp only [packMovesBytes, List.mem_cons] at hb
    rcases hb with hb | hb
    · subst hb
      rcases packByte_nat_93 a.toNat (by omega) b'.toNat (by omega) with h | h
      · exact h c.toNat (by omega) d.toNat (by omega) h93
      · exact hnb.2.2.1 ⟨int_eq_of_toNat ha.1 h.1, int_eq_of_toNat hb''.1 h.2⟩
    · exact ih (fun m hmm => hm m (by simp [hmm]))
        (noBacktrack_tail d rest
          (noBacktrack_tail c (d :: rest)
            (noBacktrack_tail b' (c :: d :: rest)
              (noBacktrack_tail a (b' :: c :: d :: rest) hnb)))) b hb h93

/-- A backtrack-free move list never packs a head byte whose low nibble is
8, the zlib compression-method value, so `pako.inflate` always rejects the
packed bytes. -/
theorem packMovesBytes_head_nibble (ms : List Int) (hm : ∀ m ∈ ms, 0 ≤ m ∧ m < 4)
    (hnb : noBacktrack ms) :
    ∀ b0, (packMovesBytes ms).head? = some b0 → b0 &&& 15 ≠ 8 := by
  intro b0 hb0 h8
  match ms, hm, hnb, hb0 with
  | [], _, _, hb0 => simp [packMovesBytes] at hb0
  | [a], hm, _, hb0 =>
    have ha := hm a (by simp)
    simp only [packMovesBytes, List.head?_cons, Option.some.injEq] at hb0
    subst hb0
    rcases packByte_nat_nibble a.toNat (by omega) 0 (by omega) with h | h
    · exact h 0 (by omega) 0 (by omega) h8
    · omega
  | [a, b'], hm, hnb, hb0 =>
    have ha := hm a (by simp)
    have hb'' := hm b' (by simp)
    simp only [packMovesBytes, List.head?_cons, Option.some.injEq] at hb0
    subst hb0
    rcases packByte_nat_nibble a.toNat (by omega) b'.toNat (by omega) with h | h
    · exact h 0 (by omega) 0 (by omega) h8
    · exact hnb.1 ⟨int_eq_of_toNat ha.1 h.1, int_eq_of_toNat hb''.1 h.2⟩
  | [a, b', c], hm, hnb, hb0 =>
    have ha := hm a (by simp)
    have hb'' := hm b' (by simp)
    have hc := hm c (by simp)
    simp only [packMovesBytes, List.head?_cons, Option.some.injEq] at hb0
    subst hb0
    rcases packByte_nat_nibble a.toNat (by omega) b'.toNat (by omega) with h | h
    · exact h c.toNat (by omega) 0 (by omega) h8
    · exact hnb.1 ⟨int_eq_of_toNat ha.1 h.1, int_eq_of_toNat hb''.1 h.2⟩
  | a :: b' :: c :: d :: rest, hm, hnb, hb0 =>
    have ha := hm a (by simp)
    have hb'' := hm b' (by simp)
    have hc := hm c (by simp)
    have hd := hm d (by simp)
    simp only [packMovesBytes, List.head?_cons, Option.some.injEq] at hb0
    subst hb0
    rcases packByte_nat_nibble a.toNat (by omega) b'.toNat (by omega) with h | h
    · exact h c.toNat (by omega) d.toNat (by omega) h8
    · exact hnb.1 ⟨int_eq_of_toNat ha.1 h.1, int_eq_of_toNat hb''.1 h.2⟩

/-- Unpacking the packed bytes with the exact move count recovers the
moves. -/
theorem legacyMoves_packMovesBytes : ∀ (ms : List Int), (∀ m ∈ ms, 0 ≤ m ∧ m < 4) →
    legacyMoves (packMovesBytes ms) (ms.length : Int) = ms := by
  have hflat : ∀ (ms : List Int), (∀ m ∈ ms, 0 ≤ m ∧ m < 4) →
      (((packMovesBytes ms).map byteMoves).flatten).take ms.length = ms := by
    intro ms
    induction ms using packMovesBytes.induct with
    | case1 => intro _; rfl
    | case2 a =>
      intro hm
      have ha := hm a (by simp)
      show ((byteMoves (packByte a 0 0 0) ++ [])).take 1 = [a]
      rw [byteMoves_packByte a 0 0 0 ha (by omega) (by omega) (by omega)]
      rfl
    | case3 a b =>
      intro hm
      have ha := hm a (by simp)
      have hb := hm b (by simp)
      show ((byteMoves (packByte a b 0 0) ++ [])).take 2 = [a, b]
      rw [byteMoves_packByte a b 0 0 ha hb (by omega) (by omega)]
      rfl
    | case4 a b c =>
      intro hm
      have ha := hm a (by simp)
      have hb := hm b (by simp)
      have hc := hm c (by simp)
      show ((byteMoves (packByte a b c 0) ++ [])).take 3 = [a, b, c]
      rw [byteMoves_packByte a b c 0 ha hb hc (by omega)]
      rfl
    | case5 a b c d rest ih =>
      intro hm
      have ha := hm a (by simp)
      have hb := hm b (by simp)
      have hc := hm c (by simp)
      have hd := hm d (by simp)
      have ih' := ih (fun m hmm => hm m (by simp [hmm]))
      show ((byteMoves (packByte a b c d) ++
        ((packMovesBytes rest).map byteMoves).flatten)).take (rest.length + 1 + 1 + 1 + 1) =
        a :: b :: c :: d :: rest
      rw [byteMoves_packByte a b c d ha hb hc hd]
      rw [(by omega : rest.length + 1 + 1 + 1 + 1 = 4 + rest.length)]
      simp only [List.cons_append, List.nil_append, List.take_succ_cons,
        (by omega : 4 + rest.length = (3 + rest.length) + 1),
        (by omega : 3 + rest.length = (2 + rest.length) + 1),
        (by omega : 2 + rest.length = (1 + rest.length) + 1),
        (by omega : 1 + rest.length = rest.length + 1)]
      rw [ih']
  intro ms hm
  unfold legacyMoves
  rw [Int.toNat_natCast]
  exact hflat ms hm

/-- **C5.** Round trip: for every reference path — starting at (0,0), unit
steps between consecutive coordinates, no repeated cell — packing its move
sequence with the authoring packer (`movesFromPathCoords` then
`packMovesBase64`) and decoding with `decodeMoves` at
`maxLength = path length − 1` reproduces exactly the original moves.
The external oracles are constrained by two documented facts:
`pako.inflate` rejects input whose first byte's low nibble is not the zlib
compression-method value 8 (RFC 1950), and `JSON.parse` can only produce a
non-empty array from text containing the byte `0x5D` (`]`, whose packed
2-bit moves would be East immediately followed by West — a repeated
cell). -/
theorem decodeMoves_roundtrip (inflate : List Nat → Option (List Nat))
    (jsonParse : List Nat → Option JVal) (coords : List GridPoint) (ms : List Int)
    (hinf : ∀ bs : List Nat, (∀ b0, bs.head? = some b0 → b0 &&& 15 ≠ 8) → inflate bs = none)
    (hjson : ∀ bs (e : JVal) (es : List JVal),
      jsonParse bs = some (JVal.arr (e :: es)) → 93 ∈ bs)
    (hstart : coords.head? = some ⟨0, 0⟩)
    (hnodup : coords.Nodup)
    (hmoves : movesFromPathCoords coords = some ms) :
    decodeMoves inflate jsonParse (packMovesBase64 ms) ((coords.length : Int) - 1) =
      .ok ms := by
  have hbound := movesFromPathCoords_bounds coords ms hmoves
  have hnb := movesFromPathCoords_noBacktrack coords ms hmoves hnodup
  have hlenms := movesFromPathCoords_length coords ms hmoves
  have hcne : coords ≠ [] := by
    intro h; rw [h] at hstart; simp at hstart
  have hL : (coords.length : Int) - 1 = (ms.length : Int) := by
    cases coords with
    | nil => exact absurd rfl hcne
    | cons c cs =>
      rw [hlenms]
      simp only [List.length_cons]
      omega
  rw [hL]
  by_cases hempty : ms.length = 0
  · have hms : ms = [] := List.length_eq_zero.mp hempty
    subst hms
    have hinf0 : inflate [] = none := hinf [] (by intro b0 h; simp at h)
    have hdec : decodeBase64ToUint8Array inflate [] = .ok [] := rfl
    show decodeMoves inflate jsonParse [] 0 = .ok []
    rcases hjp : jsonParse [] with _ | v
    · rw [decodeMoves, tryParseBase64ZlibJson]
      simp only [hdec, hinf0, hjp]
      rfl
    · cases v with
      | num n =>
        rw [decodeMoves, tryParseBase64ZlibJson]
        simp only [hdec, hinf0, hjp]
        rfl
      | other =>
        rw [decodeMoves, tryParseBase64ZlibJson]
        simp only [hdec, hinf0, hjp]
        rfl
      | arr elems =>
        cases elems with
        | nil =>
          rw [decodeMoves, tryParseBase64ZlibJson]
          simp only [hdec, hinf0, hjp]
          rfl
        | cons e es => exact absurd (hjson [] e es hjp) (by simp)
  · set bytes := packMovesBytes ms with hbytes
    have hb256 : ∀ b ∈ bytes, b < 256 := packMovesBytes_lt ms hbound
    have hnib := packMovesBytes_head_nibble ms hbound hnb
    have hinfbytes : inflate bytes = none := hinf bytes hnib
    have hno93 := packMovesBytes_no93 ms hbound hnb
    have hdec : decodeBase64ToUint8Array inflate (bytesToBase64 bytes) = .ok bytes :=
      decodeBase64_of_bytesToBase64 inflate bytes hb256 hinfbytes
    have hpack : packMovesBase64 ms = bytesToBase64 bytes := by
      rw [packMovesBase64, if_neg hempty]
    rw [hpack]
    have hleg : legacyMoves bytes ((ms.length : Int)) = ms :=
      legacyMoves_packMovesBytes ms hbound
    rcases hjp : jsonParse bytes with _ | v
    · rw [decodeMoves, tryParseBase64ZlibJson]
      simp only [hdec, hinfbytes, hjp]
      rw [hleg]
    · cases v with
      | num n =>
        rw [decodeMoves, tryParseBase64ZlibJson]
        simp only [hdec, hinfbytes, hjp]
        rw [hleg]
      | other =>
        rw [decodeMoves, tryParseBase64ZlibJson]
        simp only [hdec, hinfbytes, hjp]
        rw [hleg]
      | arr elems =>
        cases elems with
        | nil =>
          rw [decodeMoves, tryParseBase64ZlibJson]
          simp only [hdec, hinfbytes, hjp]
          rw [hleg]
        | cons e es => exact absurd (hjson bytes e es hjp) (by
            intro hmem
            exact hno93 93 hmem rfl)

/-- Witness for C5: the two-cell path `(0,0) → (0,1)` (one East move),
packed to `"AQ=="` and decoded back. -/
theorem decodeMoves_roundtrip_witness :
    movesFromPathCoords [⟨0, 0⟩, ⟨1, 0⟩] = some [1] ∧
    packMovesBase64 [1] = "AQ==".toList ∧
    decodeMoves noInflate jsonParseNone (packMovesBase64 [1])
      (((2 : Nat) : Int) - 1) = .ok [1] :=
  ⟨rfl, rfl,
    decodeMoves_roundtrip noInflate jsonParseNone [⟨0, 0⟩, ⟨1, 0⟩] [1]
      (fun _ _ => rfl) (fun bs e es h => absurd h (by simp [jsonParseNone]))
      rfl (by decide) rfl⟩

/-! ### Maze generation (src/temp/app.js, GenerationAlgorithms)

Cells are `(x, y)` pairs of naturals.  Per-cell wall state mirrors
`MazeCell.walls` as a bitmask of OPEN directions (N=1, E=2, S=4, W=8:
`walls.N = false` in the source corresponds to bit 1 set here, all walls
initially present = mask 0), and `generated` as a Boolean map.
`Math.random()` outcomes are modelled by an adversarial stream
`s : Nat → Nat` consumed one value per call site: `randomItem(items)`
picks index `s k % items.length`, a comparison `Math.random() < p` reads
`s k % 2 = 0`, and `Math.floor(Math.random() * n)` reads `s k % n`. -/

abbrev Cell := Nat × Nat

abbrev RS := Nat → Nat

abbrev OMap := Cell → Nat

abbrev GMap := Cell → Bool

def updO (o : OMap) (c : Cell) (v : Nat) : OMap := fun d => if d = c then v else o d

def updG (g : GMap) (c : Cell) (v : Bool) : GMap := fun d => if d = c then v else g d

/-- `this.directions` from app.js: N, E, S, W with their `(dx, dy)`. -/
def DIRS4 : List (Int × Int) := [(0, -1), (1, 0), (0, 1), (-1, 0)]

/-- `getCell(x, y)`: `some` cell when in bounds, `none` (null) otherwise. -/
def getCell (W H : Nat) (x y : Int) : Option Cell :=
  if 0 ≤ x ∧ 0 ≤ y ∧ x < (W : Int) ∧ y < (H : Int) then some (x.toNat, y.toNat) else none

/-- `neighbors(cell)`, cells only: in-bounds neighbours in N, E, S, W order. -/
def neighborsOf (W H : Nat) (c : Cell) : List Cell :=
  DIRS4.filterMap (fun d => getCell W H ((c.1 : Int) + d.1) ((c.2 : Int) + d.2))

/-- `carvePassage(cell, neighbor)`: clears the mirrored wall pair between the
two cells, i.e. sets the mirrored OPEN bits (E=2 with W=8, or S=4 with N=1). -/
def carvePassage (o : OMap) (c n : Cell) : OMap :=
  let dx : Int := (n.1 : Int) - (c.1 : Int)
  let dy : Int := (n.2 : Int) - (c.2 : Int)
  if dx = 1 ∧ dy = 0 then updO (updO o c (o c ||| 2)) n (o n ||| 8)
  else if dx = -1 ∧ dy = 0 then updO (updO o c (o c ||| 8)) n (o n ||| 2)
  else if dy = 1 ∧ dx = 0 then updO (updO o c (o c ||| 4)) n (o n ||| 1)
  else if dy = -1 ∧ dx = 0 then updO (updO o c (o c ||| 1)) n (o n ||| 4)
  else o

/-- The shared wall between two adjacent cells is removed (both mirrored
wall flags cleared, as `carvePassage` does). -/
def openBetween (o : OMap) (a b : Cell) : Bool :=
  (decide (b = (a.1 + 1, a.2)) && (o a &&& 2 ≠ 0 ∧ o b &&& 8 ≠ 0)) ||
  (decide (a = (b.1 + 1, b.2)) && (o b &&& 2 ≠ 0 ∧ o a &&& 8 ≠ 0)) ||
  (decide (b = (a.1, a.2 + 1)) && (o a &&& 4 ≠ 0 ∧ o b &&& 1 ≠ 0)) ||
  (decide (a = (b.1, b.2 + 1)) && (o b &&& 4 ≠ 0 ∧ o a &&& 1 ≠ 0))

/-- Reachability along carved passages. -/
def Reach (o : OMap) : Cell → Cell → Prop :=
  Relation.ReflTransGen (fun a b => openBetween o a b = true)

def popcount4 (m : Nat) : Nat :=
  (m &&& 1) + (m >>> 1 &&& 1) + (m >>> 2 &&& 1) + (m >>> 3 &&& 1)

def gridFinset (W H : Nat) : Finset Cell := Finset.range W ×ˢ Finset.range H

def genCount (W H : Nat) (g : GMap) : Nat :=
  ((gridFinset W H).filter (fun c => g c = true)).card

def popSum (W H : Nat) (o : OMap) : Nat := ∑ c ∈ gridFinset W H, popcount4 (o c)

/-- The grid cells in JS `Set` insertion order (`y` outer, `x` inner), as
built by `wilsons` for `allUnvisited`. -/
def gridList (W H : Nat) : List Cell :=
  (List.range H).flatMap (fun y => (List.range W).map (fun x => (x, y)))

/-- The random walk of `wilsons`: from `current`, keep stepping to a random
neighbour, erasing loops (the `visitedInWalk` map is exactly the index of
each cell in `path`, so the splice is `path.take (idx + 1)`), until a
generated cell is reached; returns the stream position and the final path.
Fuelled: `none` when the walk has not terminated within `fuel` steps. -/
def wilsonWalk (W H : Nat) (s : RS) (g : GMap) :
    Nat → Nat → Cell → List Cell → Option (Nat × List Cell)
  | 0, _, _, _ => none
  | fuel + 1, k, current, path =>
    if g current then some (k, path)
    else
      let ns := neighborsOf W H current
      let next := ns.getD (s k % ns.length) current
      let path' :=
        match List.findIdx? (fun c => decide (c = next)) path with
        | some idx => path.take (idx + 1)
        | none => path ++ [next]
      wilsonWalk W H s g fuel (k + 1) next path'

/-- The carving loop at the end of each `wilsons` round: carve along the
walk path, marking each next cell generated and deleting it from the
unvisited list. -/
def carvePath (o : OMap) (g : GMap) (unv : List Cell) : List Cell → OMap × GMap × List Cell
  | [] => (o, g, unv)
  | [_] => (o, g, unv)
  | a :: b :: rest =>
    carvePath (carvePassage o a b) (updG g b true) (unv.erase b) (b :: rest)

/-- The outer loop of `wilsons`: while unvisited cells remain, pick a random
start, random-walk until hitting the generated tree, then carve the
loop-erased path.  Fuelled: `none` when not terminated within `fuel`
combined loop steps. -/
def wilsonsLoop (W H : Nat) (s : RS) : Nat → Nat → OMap → GMap → List Cell → Option (OMap × GMap)
  | _, _, o, g, [] => some (o, g)
  | 0, _, _, _, _ :: _ => none
  | fuel + 1, k, o, g, u0 :: urest =>
    let unv := u0 :: urest
    let start := unv.getD (s k % unv.length) (0, 0)
    match wilsonWalk W H s g fuel (k + 1) start [start] with
    | none => none
    | some (k', path) =>
      let g1 := updG g (path.headD (0, 0)) true
      let unv1 := unv.erase (path.headD (0, 0))
      match carvePath o g1 unv1 path with
      | (o', g', unv') => wilsonsLoop W H s fuel k' o' g' unv'

/-- `wilsons(visualizer)`: root at `randomCell()` (two stream reads), then
the outer loop over the remaining unvisited cells. -/
def wilsons (W H : Nat) (s : RS) (fuel : Nat) : Option (OMap × GMap) :=
  let root : Cell := (s 0 % W, s 1 % H)
  wilsonsLoop W H s fuel 2 (fun _ => 0) (updG (fun _ => false) root true)
    ((gridList W H).erase root)

/-- An adversarial random stream: root `(0,0)`, first walk start `(0,1)`,
then always pick choice index 1. -/
def advStream : RS := fun k => if k = 0 then 0 else if k = 1 then 0 else 1

/-- The generated map after `wilsons` on the 2×2 grid has placed its root
at `(0,0)` under `advStream`. -/
def genRoot00 : GMap := updG (fun _ => false) (0, 0) true

theorem advStream_ge2 (k : Nat) (hk : 2 ≤ k) : advStream k = 1 := by
  unfold advStream
  rw [if_neg (by omega), if_neg (by omega)]

theorem genRoot00_01 : genRoot00 (0, 1) = false := rfl

theorem genRoot00_11 : genRoot00 (1, 1) = false := rfl

theorem neighborsOf_01 : neighborsOf 2 2 (0, 1) = [(0, 0), (1, 1)] := rfl

theorem neighborsOf_11 : neighborsOf 2 2 (1, 1) = [(1, 0), (0, 1)] := rfl

/-- Under `advStream`, the first random walk of `wilsons` on the 2×2 grid
oscillates between `(0,1)` and `(1,1)` forever (each return to `(0,1)`
loop-erases the path back to a single cell), so the walk exhausts any
fuel. -/
theorem wilsonWalk_osc : ∀ fuel k, 2 ≤ k →
    wilsonWalk 2 2 advStream genRoot00 fuel k (0, 1) [(0, 1)] = none ∧
    wilsonWalk 2 2 advStream genRoot00 fuel k (1, 1) [(0, 1), (1, 1)] = none := by
  intro fuel
  induction fuel with
  | zero => intro k hk; exact ⟨rfl, rfl⟩
  | succ fuel ih =>
    intro k hk
    constructor
    · show wilsonWalk 2 2 advStream genRoot00 (fuel + 1) k (0, 1) [(0, 1)] = none
      rw [wilsonWalk]
      rw [if_neg (by rw [genRoot00_01]; simp)]
      simp only [neighborsOf_01, advStream_ge2 k hk]
      exact (ih (k + 1) (by omega)).2
    · show wilsonWalk 2 2 advStream genRoot00 (fuel + 1) k (1, 1) [(0, 1), (1, 1)] = none
      rw [wilsonWalk]
      rw [if_neg (by rw [genRoot00_11]; simp)]
      simp only [neighborsOf_11, advStream_ge2 k hk]
      exact (ih (k + 1) (by omega)).1

theorem and_or_distrib_bits (x y m : Nat) : (x ||| y) &&& m = (x &&& m) ||| (y &&& m) := by
  apply Nat.eq_of_testBit_eq
  intro i
  simp only [Nat.testBit_or, Nat.testBit_and, Bool.and_or_distrib_right]

theorem nat_or_eq_zero (x y : Nat) : x ||| y = 0 ↔ x = 0 ∧ y = 0 := by
  constructor
  · intro h
    refine ⟨Nat.eq_of_testBit_eq fun i => ?_, Nat.eq_of_testBit_eq fun i => ?_⟩ <;>
    · have ht := congrArg (fun z => Nat.testBit z i) h
      simp only [Nat.testBit_or, Nat.zero_testBit, Bool.or_eq_false_iff] at ht
      simp [ht.1, ht.2]
  · rintro ⟨rfl, rfl⟩; rfl

theorem and_ne_of_left (x y m : Nat) (h : x &&& m ≠ 0) : (x ||| y) &&& m ≠ 0 := by
  rw [and_or_distrib_bits, Ne, nat_or_eq_zero]
  exact fun hc => h hc.1

theorem and_ne_of_right (x y m : Nat) (h : y &&& m ≠ 0) : (x ||| y) &&& m ≠ 0 := by
  rw [and_or_distrib_bits, Ne, nat_or_eq_zero]
  exact fun hc => h hc.2

theorem and_ne_split (x y m : Nat) (h : (x ||| y) &&& m ≠ 0) :
    x &&& m ≠ 0 ∨ y &&& m ≠ 0 := by
  rw [and_or_distrib_bits, Ne, nat_or_eq_zero] at h
  by_cases hx : x &&& m = 0
  · exact Or.inr fun hy => h ⟨hx, hy⟩
  · exact Or.inl hx

theorem ne_zero_of_and_ne (m b : Nat) (h : m &&& b ≠ 0) : m ≠ 0 := by
  intro h0; rw [h0] at h; simp at h

/-- Adding a direction bit not yet present increments the 4-bit popcount. -/
theorem popcount4_or_fresh : ∀ m < 16,
    (m &&& 1 = 0 → popcount4 (m ||| 1) = popcount4 m + 1) ∧
    (m &&& 2 = 0 → popcount4 (m ||| 2) = popcount4 m + 1) ∧
    (m &&& 4 = 0 → popcount4 (m ||| 4) = popcount4 m + 1) ∧
    (m &&& 8 = 0 → popcount4 (m ||| 8) = popcount4 m + 1) := by decide

theorem updO_self (o : OMap) (c : Cell) (v : Nat) : updO o c v c = v := by
  simp [updO]

theorem updO_other (o : OMap) (c : Cell) (v : Nat) (d : Cell) (h : d ≠ c) :
    updO o c v d = o d := by
  simp [updO, h]

theorem updG_self (g : GMap) (c : Cell) (v : Bool) : updG g c v c = v := by
  simp [updG]

theorem updG_other (g : GMap) (c : Cell) (v : Bool) (d : Cell) (h : d ≠ c) :
    updG g c v d = g d := by
  simp [updG, h]

theorem sum_comp_updO2 (s : Finset Cell) (f : Nat → Nat) (o : OMap) (c n : Cell)
    (vc vn : Nat) (hc : c ∈ s) (hn : n ∈ s) (hcn : c ≠ n) :
    (∑ x ∈ s, f (updO (updO o c vc) n vn x)) + f (o c) + f (o n) =
      (∑ x ∈ s, f (o x)) + f vc + f vn := by
  have hc' : c ∈ s.erase n := Finset.mem_erase.mpr ⟨hcn, hc⟩
  have e1 : ∀ g : Cell → Nat, ∑ x ∈ s, g x = g n + ∑ x ∈ s.erase n, g x :=
    fun g => (Finset.add_sum_erase s g hn).symm
  have e2 : ∀ g : Cell → Nat,
      ∑ x ∈ s.erase n, g x = g c + ∑ x ∈ (s.erase n).erase c, g x :=
    fun g => (Finset.add_sum_erase (s.erase n) g hc').symm
  have agree : ∑ x ∈ (s.erase n).erase c, f (updO (updO o c vc) n vn x) =
      ∑ x ∈ (s.erase n).erase c, f (o x) := by
    apply Finset.sum_congr rfl
    intro x hx
    have hxc : x ≠ c := (Finset.mem_erase.mp hx).1
    have hxn : x ≠ n := (Finset.mem_erase.mp (Finset.mem_erase.mp hx).2).1
    rw [updO_other _ _ _ _ hxn, updO_other _ _ _ _ hxc]
  rw [e1 (fun x => f (updO (updO o c vc) n vn x)), e2 (fun x => f (updO (updO o c vc) n vn x))]
  rw [e1 (fun x => f (o x)), e2 (fun x => f (o x))]
  rw [agree, updO_self, updO_other _ _ _ _ hcn, updO_self]
  omega

theorem genCount_updG_true (W H : Nat) (g : GMap) (n : Cell)
    (hn : n ∈ gridFinset W H) (hfresh : g n = false) :
    genCount W H (updG g n true) = genCount W H g + 1 := by
  unfold genCount
  have hset : (gridFinset W H).filter (fun c => updG g n true c = true) =
      insert n ((gridFinset W H).filter (fun c => g c = true)) := by
    ext x
    by_cases hx : x = n
    · subst hx
      simp [Finset.mem_filter, updG_self, hn]
    · simp only [Finset.mem_filter, Finset.mem_insert, updG_other g n true x hx]
      tauto
  rw [hset, Finset.card_insert_of_not_mem]
  intro hmem
  have hgt := (Finset.mem_filter.mp hmem).2
  rw [hfresh] at hgt
  exact absurd hgt (by simp)

theorem openBetween_symm (o : OMap) (a b : Cell) :
    openBetween o a b = openBetween o b a := by
  rw [Bool.eq_iff_iff]
  simp only [openBetween, Bool.or_eq_true, Bool.and_eq_true, decide_eq_true_eq]
  tauto

theorem openBetween_irrefl (o : OMap) (a : Cell) : openBetween o a a = false := by
  have h1 : ¬(a = (a.1 + 1, a.2)) := by
    intro h; rw [Prod.ext_iff] at h; omega
  have h2 : ¬(a = (a.1, a.2 + 1)) := by
    intro h; rw [Prod.ext_iff] at h; omega
  simp [openBetween, h1, h2]

theorem openBetween_mono (o o' : OMap)
    (hm : ∀ p m, o p &&& m ≠ 0 → o' p &&& m ≠ 0) (a b : Cell)
    (h : openBetween o a b = true) : openBetween o' a b = true := by
  simp only [openBetween, Bool.or_eq_true, Bool.and_eq_true, decide_eq_true_eq] at h ⊢
  rcases h with ((⟨he, h1, h2⟩ | ⟨he, h1, h2⟩) | ⟨he, h1, h2⟩) | ⟨he, h1, h2⟩
  · exact Or.inl (Or.inl (Or.inl ⟨he, hm a 2 h1, hm b 8 h2⟩))
  · exact Or.inl (Or.inl (Or.inr ⟨he, hm b 2 h1, hm a 8 h2⟩))
  · exact Or.inl (Or.inr ⟨he, hm a 4 h1, hm b 1 h2⟩)
  · exact Or.inr ⟨he, hm b 4 h1, hm a 1 h2⟩

theorem Reach_mono (o o' : OMap)
    (hm : ∀ p m, o p &&& m ≠ 0 → o' p &&& m ≠ 0) (a b : Cell)
    (h : Reach o a b) : Reach o' a b :=
  Relation.ReflTransGen.mono (fun x y hxy => openBetween_mono o o' hm x y hxy) h

theorem openBetween_stepE (o : OMap) (a : Cell)
    (h1 : o a &&& 2 ≠ 0) (h2 : o (a.1 + 1, a.2) &&& 8 ≠ 0) :
    openBetween o a (a.1 + 1, a.2) = true := by
  simp only [openBetween, Bool.or_eq_true, Bool.and_eq_true, decide_eq_true_eq]
  exact Or.inl (Or.inl (Or.inl ⟨trivial, h1, h2⟩))

theorem openBetween_stepW (o : OMap) (a : Cell)
    (h1 : o a &&& 2 ≠ 0) (h2 : o (a.1 + 1, a.2) &&& 8 ≠ 0) :
    openBetween o (a.1 + 1, a.2) a = true := by
  rw [← openBetween_symm]
  exact openBetween_stepE o a h1 h2

theorem openBetween_stepS (o : OMap) (a : Cell)
    (h1 : o a &&& 4 ≠ 0) (h2 : o (a.1, a.2 + 1) &&& 1 ≠ 0) :
    openBetween o a (a.1, a.2 + 1) = true := by
  simp only [openBetween, Bool.or_eq_true, Bool.and_eq_true, decide_eq_true_eq]
  exact Or.inl (Or.inr ⟨trivial, h1, h2⟩)

theorem openBetween_stepN (o : OMap) (a : Cell)
    (h1 : o a &&& 4 ≠ 0) (h2 : o (a.1, a.2 + 1) &&& 1 ≠ 0) :
    openBetween o (a.1, a.2 + 1) a = true := by
  rw [← openBetween_symm]
  exact openBetween_stepS o a h1 h2

/-- The tree-growth invariant shared by the generation algorithms: `g` marks
the generated cells (all in bounds, the root among them), ungenerated cells
have no carved openings, openings are mirrored between in-bounds adjacent
cells, every generated cell is reachable from the root along carved
passages, and the total number of set direction bits is twice the number of
carved passages, i.e. `2 * (#generated - 1)`. -/
structure TG (W H : Nat) (r : Cell) (o : OMap) (g : GMap) : Prop where
  rootIn : r.1 < W ∧ r.2 < H
  rootGen : g r = true
  genIn : ∀ c : Cell, g c = true → c.1 < W ∧ c.2 < H
  freshO : ∀ c : Cell, g c = false → o c = 0
  lt16 : ∀ c : Cell, o c < 16
  symE : ∀ c : Cell, o c &&& 2 ≠ 0 → c.1 + 1 < W ∧ o (c.1 + 1, c.2) &&& 8 ≠ 0
  symW : ∀ c : Cell, o c &&& 8 ≠ 0 → ∃ d : Cell, c = (d.1 + 1, d.2) ∧ o d &&& 2 ≠ 0
  symS : ∀ c : Cell, o c &&& 4 ≠ 0 → c.2 + 1 < H ∧ o (c.1, c.2 + 1) &&& 1 ≠ 0
  symN : ∀ c : Cell, o c &&& 1 ≠ 0 → ∃ d : Cell, c = (d.1, d.2 + 1) ∧ o d &&& 4 ≠ 0
  reach : ∀ c : Cell, g c = true → Reach o r c
  count : popSum W H o + 2 = 2 * genCount W H g

theorem TG.genOf (h : TG W H r o g) (c : Cell) (hne : o c ≠ 0) : g c = true := by
  by_cases hg : g c = true
  · exact hg
  · exact absurd (h.freshO c (Bool.not_eq_true _ ▸ hg)) hne

theorem mem_gridFinset (W H : Nat) (x : Cell) :
    x ∈ gridFinset W H ↔ x.1 < W ∧ x.2 < H := by
  simp [gridFinset, Finset.mem_product, Finset.mem_range]

theorem or_lt_16 (x y : Nat) (hx : x < 16) (hy : y < 16) : x ||| y < 16 := by
  have hmask : ∀ z : Nat, z &&& 15 = z % 16 := fun z => by
    have := Nat.and_pow_two_sub_one_eq_mod z 4
    norm_num at this
    exact this
  have hx15 : x &&& 15 = x := by rw [hmask, Nat.mod_eq_of_lt hx]
  have hy15 : y &&& 15 = y := by rw [hmask, Nat.mod_eq_of_lt hy]
  have : x ||| y = (x ||| y) % 16 := by
    rw [← hmask, and_or_distrib_bits, hx15, hy15]
  rw [this]
  exact Nat.mod_lt _ (by norm_num)

theorem TG.carveE {W H : Nat} {r : Cell} {o : OMap} {g : GMap}
    (h : TG W H r o g) (c : Cell) (hcg : g c = true)
    (hng : g (c.1 + 1, c.2) = false) (hE : c.1 + 1 < W) :
    TG W H r (carvePassage o c (c.1 + 1, c.2)) (updG g (c.1 + 1, c.2) true) := by
  set n : Cell := (c.1 + 1, c.2) with hn
  have hcn : c ≠ n := by
    intro he; rw [hn, Prod.ext_iff] at he; omega
  have hon : o n = 0 := h.freshO n hng
  have hfreshbit : o c &&& 2 = 0 := by
    by_cases hb : o c &&& 2 = 0
    · exact hb
    · have := (h.symE c hb).2
      rw [← hn, hon] at this
      simp at this
  have hco : carvePassage o c n = updO (updO o c (o c ||| 2)) n (o n ||| 8) := by
    simp only [carvePassage]
    rw [if_pos (by constructor <;> push_cast <;> omega)]
  set o' : OMap := updO (updO o c (o c ||| 2)) n (o n ||| 8) with ho'
  have ho'c : o' c = o c ||| 2 := by
    rw [ho', updO_other _ _ _ _ hcn, updO_self]
  have ho'n : o' n = o n ||| 8 := by rw [ho', updO_self]
  have ho'x : ∀ x : Cell, x ≠ c → x ≠ n → o' x = o x := by
    intro x hxc hxn
    rw [ho', updO_other _ _ _ _ hxn, updO_other _ _ _ _ hxc]
  have hmono : ∀ p m, o p &&& m ≠ 0 → o' p &&& m ≠ 0 := by
    intro p m hpm
    by_cases hpc : p = c
    · rw [hpc, ho'c]; exact and_ne_of_left _ _ _ (hpc ▸ hpm)
    · by_cases hpn : p = n
      · rw [hpn, ho'n]; exact and_ne_of_left _ _ _ (hpn ▸ hpm)
      · rw [ho'x p hpc hpn]; exact hpm
  have hcin := h.genIn c hcg
  have hnin : n.1 < W ∧ n.2 < H := by rw [hn]; exact ⟨hE, hcin.2⟩
  have hrn : r ≠ n := by
    intro he; rw [← he] at hng; rw [h.rootGen] at hng
    exact absurd hng (by simp)
  rw [hco]
  constructor
  · exact h.rootIn
  · rw [updG_other _ _ _ _ hrn]; exact h.rootGen
  · intro x hx
    by_cases hxn : x = n
    · rw [hxn]; exact hnin
    · rw [updG_other _ _ _ _ hxn] at hx; exact h.genIn x hx
  · intro x hx
    by_cases hxn : x = n
    · rw [hxn, updG_self] at hx; exact absurd hx (by simp)
    · rw [updG_other _ _ _ _ hxn] at hx
      have hxc : x ≠ c := by intro he; rw [he, hcg] at hx; exact absurd hx (by simp)
      rw [ho'x x hxc hxn]
      exact h.freshO x hx
  · intro x
    by_cases hxc : x = c
    · rw [hxc, ho'c]; exact or_lt_16 _ _ (h.lt16 c) (by decide)
    · by_cases hxn : x = n
      · rw [hxn, ho'n]; exact or_lt_16 _ _ (h.lt16 n) (by decide)
      · rw [ho'x x hxc hxn]; exact h.lt16 x
  · -- symE
    intro x hx
    by_cases hxc : x = c
    · subst hxc
      refine ⟨hE, ?_⟩
      rw [← hn, ho'n]
      exact and_ne_of_right _ _ _ (by decide)
    · by_cases hxn : x = n
      · subst hxn
        rw [ho'n, hon] at hx
        exact absurd hx (by decide)
      · rw [ho'x x hxc hxn] at hx
        obtain ⟨hb, hm⟩ := h.symE x hx
        exact ⟨hb, hmono _ _ hm⟩
  · -- symW
    intro x hx
    by_cases hxn : x = n
    · subst hxn
      refine ⟨c, hn, ?_⟩
      rw [ho'c]
      exact and_ne_of_right _ _ _ (by decide)
    · by_cases hxc : x = c
      · subst hxc
        rw [ho'c] at hx
        rcases and_ne_split _ _ _ hx with hx' | hx'
        · obtain ⟨d, hd, hm⟩ := h.symW x hx'
          exact ⟨d, hd, hmono _ _ hm⟩
        · exact absurd hx' (by decide)
      · rw [ho'x x hxc hxn] at hx
        obtain ⟨d, hd, hm⟩ := h.symW x hx
        exact ⟨d, hd, hmono _ _ hm⟩
  · -- symS
    intro x hx
    by_cases hxc : x = c
    · subst hxc
      rw [ho'c] at hx
      rcases and_ne_split _ _ _ hx with hx' | hx'
      · obtain ⟨hb, hm⟩ := h.symS x hx'
        exact ⟨hb, hmono _ _ hm⟩
      · exact absurd hx' (by decide)
    · by_cases hxn : x = n
      · subst hxn
        rw [ho'n, hon] at hx
        exact absurd hx (by decide)
      · rw [ho'x x hxc hxn] at hx
        obtain ⟨hb, hm⟩ := h.symS x hx
        exact ⟨hb, hmono _ _ hm⟩
  · -- symN
    intro x hx
    by_cases hxc : x = c
    · subst hxc
      rw [ho'c] at hx
      rcases and_ne_split _ _ _ hx with hx' | hx'
      · obtain ⟨d, hd, hm⟩ := h.symN x hx'
        exact ⟨d, hd, hmono _ _ hm⟩
      · exact absurd hx' (by decide)
    · by_cases hxn : x = n
      · subst hxn
        rw [ho'n, hon] at hx
        exact absurd hx (by decide)
      · rw [ho'x x hxc hxn] at hx
        obtain ⟨d, hd, hm⟩ := h.symN x hx
        exact ⟨d, hd, hmono _ _ hm⟩
  · -- reach
    intro x hx
    by_cases hxn : x = n
    · subst hxn
      have hrc : Reach o' r c := Reach_mono o o' hmono r c (h.reach c hcg)
      refine Relation.ReflTransGen.tail hrc ?_
      rw [hn]
      apply openBetween_stepE o' c
      · rw [ho'c]; exact and_ne_of_right _ _ _ (by decide)
      · rw [← hn, ho'n]; exact and_ne_of_right _ _ _ (by decide)
    · rw [updG_other _ _ _ _ hxn] at hx
      exact Reach_mono o o' hmono r x (h.reach x hx)
  · -- count
    have hcmem : c ∈ gridFinset W H := (mem_gridFinset W H c).mpr hcin
    have hnmem : n ∈ gridFinset W H := (mem_gridFinset W H n).mpr hnin
    have hsum := sum_comp_updO2 (gridFinset W H) popcount4 o c n
      (o c ||| 2) (o n ||| 8) hcmem hnmem hcn
    have hpc : popcount4 (o c ||| 2) = popcount4 (o c) + 1 :=
      (popcount4_or_fresh (o c) (h.lt16 c)).2.1 hfreshbit
    have hpn : popcount4 (o n ||| 8) = popcount4 (o n) + 1 := by
      rw [hon]; rfl
    have hgc : genCount W H (updG g n true) = genCount W H g + 1 :=
      genCount_updG_true W H g n hnmem hng
    have hcnt := h.count
    rw [← ho'] at hsum
    unfold popSum at hcnt ⊢
    rw [hgc]
    omega

theorem TG.carveS {W H : Nat} {r : Cell} {o : OMap} {g : GMap}
    (h : TG W H r o g) (c : Cell) (hcg : g c = true)
    (hng : g (c.1, c.2 + 1) = false) (hS : c.2 + 1 < H) :
    TG W H r (carvePassage o c (c.1, c.2 + 1)) (updG g (c.1, c.2 + 1) true) := by
  set n : Cell := (c.1, c.2 + 1) with hn
  have hcn : c ≠ n := by
    intro he; rw [hn, Prod.ext_iff] at he; omega
  have hon : o n = 0 := h.freshO n hng
  have hfreshbit : o c &&& 4 = 0 := by
    by_cases hb : o c &&& 4 = 0
    · exact hb
    · have := (h.symS c hb).2
      rw [← hn, hon] at this
      simp at this
  have hco : carvePassage o c n = updO (updO o c (o c ||| 4)) n (o n ||| 1) := by
    simp only [carvePassage]
    rw [if_neg (by push_cast; omega), if_neg (by push_cast; omega),
      if_pos (by constructor <;> push_cast <;> omega)]
  set o' : OMap := updO (updO o c (o c ||| 4)) n (o n ||| 1) with ho'
  have ho'c : o' c = o c ||| 4 := by
    rw [ho', updO_other _ _ _ _ hcn, updO_self]
  have ho'n : o' n = o n ||| 1 := by rw [ho', updO_self]
  have ho'x : ∀ x : Cell, x ≠ c → x ≠ n → o' x = o x := by
    intro x hxc hxn
    rw [ho', updO_other _ _ _ _ hxn, updO_other _ _ _ _ hxc]
  have hmono : ∀ p m, o p &&& m ≠ 0 → o' p &&& m ≠ 0 := by
    intro p m hpm
    by_cases hpc : p = c
    · rw [hpc, ho'c]; exact and_ne_of_left _ _ _ (hpc ▸ hpm)
    · by_cases hpn : p = n
      · rw [hpn, ho'n]; exact and_ne_of_left _ _ _ (hpn ▸ hpm)
      · rw [ho'x p hpc hpn]; exact hpm
  have hcin := h.genIn c hcg
  have hnin : n.1 < W ∧ n.2 < H := by rw [hn]; exact ⟨hcin.1, hS⟩
  have hrn : r ≠ n := by
    intro he; rw [← he] at hng; rw [h.rootGen] at hng
    exact absurd hng (by simp)
  rw [hco]
  constructor
  · exact h.rootIn
  · rw [updG_other _ _ _ _ hrn]; exact h.rootGen
  · intro x hx
    by_cases hxn : x = n
    · rw [hxn]; exact hnin
    · rw [updG_other _ _ _ _ hxn] at hx; exact h.genIn x hx
  · intro x hx
    by_cases hxn : x = n
    · rw [hxn, updG_self] at hx; exact absurd hx (by simp)
    · rw [updG_other _ _ _ _ hxn] at hx
      have hxc : x ≠ c := by intro he; rw [he, hcg] at hx; exact absurd hx (by simp)
      rw [ho'x x hxc hxn]
      exact h.freshO x hx
  · intro x
    by_cases hxc : x = c
    · rw [hxc, ho'c]; exact or_lt_16 _ _ (h.lt16 c) (by decide)
    · by_cases hxn : x = n
      · rw [hxn, ho'n]; exact or_lt_16 _ _ (h.lt16 n) (by decide)
      · rw [ho'x x hxc hxn]; exact h.lt16 x
  · -- symE
    intro x hx
    by_cases hxc : x = c
    · subst hxc
      rw [ho'c] at hx
      rcases and_ne_split _ _ _ hx with hx' | hx'
      · obtain ⟨hb, hm⟩ := h.symE x hx'
        exact ⟨hb, hmono _ _ hm⟩
      · exact absurd hx' (by decide)
    · by_cases hxn : x = n
      · subst hxn
        rw [ho'n, hon] at hx
        exact absurd hx (by decide)
      · rw [ho'x x hxc hxn] at hx
        obtain ⟨hb, hm⟩ := h.symE x hx
        exact ⟨hb, hmono _ _ hm⟩
  · -- symW
    intro x hx
    by_cases hxc : x = c
    · subst hxc
      rw [ho'c] at hx
      rcases and_ne_split _ _ _ hx with hx' | hx'
      · obtain ⟨d, hd, hm⟩ := h.symW x hx'
        exact ⟨d, hd, hmono _ _ hm⟩
      · exact absurd hx' (by decide)
    · by_cases hxn : x = n
      · subst hxn
        rw [ho'n, hon] at hx
        exact absurd hx (by decide)
      · rw [ho'x x hxc hxn] at hx
        obtain ⟨d, hd, hm⟩ := h.symW x hx
        exact ⟨d, hd, hmono _ _ hm⟩
  · -- symS
    intro x hx
    by_cases hxc : x = c
    · subst hxc
      refine ⟨hS, ?_⟩
      rw [← hn, ho'n]
      exact and_ne_of_right _ _ _ (by decide)
    · by_cases hxn : x = n
      · subst hxn
        rw [ho'n, hon] at hx
        exact absurd hx (by decide)
      · rw [ho'x x hxc hxn] at hx
        obtain ⟨hb, hm⟩ := h.symS x hx
        exact ⟨hb, hmono _ _ hm⟩
  · -- symN
    intro x hx
    by_cases hxn : x = n
    · subst hxn
      refine ⟨c, hn, ?_⟩
      rw [ho'c]
      exact and_ne_of_right _ _ _ (by decide)
    · by_cases hxc : x = c
      · subst hxc
        rw [ho'c] at hx
        rcases and_ne_split _ _ _ hx with hx' | hx'
        · obtain ⟨d, hd, hm⟩ := h.symN x hx'
          exact ⟨d, hd, hmono _ _ hm⟩
        · exact absurd hx' (by decide)
      · rw [ho'x x hxc hxn] at hx
        obtain ⟨d, hd, hm⟩ := h.symN x hx
        exact ⟨d, hd, hmono _ _ hm⟩
  · -- reach
    intro x hx
    by_cases hxn : x = n
    · subst hxn
      have hrc : Reach o' r c := Reach_mono o o' hmono r c (h.reach c hcg)
      refine Relation.ReflTransGen.tail hrc ?_
      rw [hn]
      apply openBetween_stepS o' c
      · rw [ho'c]; exact and_ne_of_right _ _ _ (by decide)
      · rw [← hn, ho'n]; exact and_ne_of_right _ _ _ (by decide)
    · rw [updG_other _ _ _ _ hxn] at hx
      exact Reach_mono o o' hmono r x (h.reach x hx)
  · -- count
    have hcmem : c ∈ gridFinset W H := (mem_gridFinset W H c).mpr hcin
    have hnmem : n ∈ gridFinset W H := (mem_gridFinset W H n).mpr hnin
    have hsum := sum_comp_updO2 (gridFinset W H) popcount4 o c n
      (o c ||| 4) (o n ||| 1) hcmem hnmem hcn
    have hpc : popcount4 (o c ||| 4) = popcount4 (o c) + 1 :=
      (popcount4_or_fresh (o c) (h.lt16 c)).2.2.1 hfreshbit
    have hpn : popcount4 (o n ||| 1) = popcount4 (o n) + 1 := by
      rw [hon]; rfl
    have hgc : genCount W H (updG g n true) = genCount W H g + 1 :=
      genCount_updG_true W H g n hnmem hng
    have hcnt := h.count
    rw [← ho'] at hsum
    unfold popSum at hcnt ⊢
    rw [hgc]
    omega

theorem TG.carveW {W H : Nat} {r : Cell} {o : OMap} {g : GMap}
    (h : TG W H r o g) (n : Cell) (hcg : g (n.1 + 1, n.2) = true)
    (hng : g n = false) (hW : n.1 + 1 < W) :
    TG W H r (carvePassage o (n.1 + 1, n.2) n) (updG g n true) := by
  set c : Cell := (n.1 + 1, n.2) with hc
  have hcn : c ≠ n := by
    intro he; rw [hc, Prod.ext_iff] at he; omega
  have hon : o n = 0 := h.freshO n hng
  have hfreshbit : o c &&& 8 = 0 := by
    by_cases hb : o c &&& 8 = 0
    · exact hb
    · obtain ⟨d, hd, hm⟩ := h.symW c hb
      have hdn : d = n := by
        rw [hc] at hd; rw [Prod.ext_iff] at hd ⊢; omega
      rw [hdn, hon] at hm
      simp at hm
  have hco : carvePassage o c n = updO (updO o c (o c ||| 8)) n (o n ||| 2) := by
    simp only [carvePassage]
    rw [if_neg (by push_cast; omega), if_pos (by constructor <;> push_cast <;> omega)]
  set o' : OMap := updO (updO o c (o c ||| 8)) n (o n ||| 2) with ho'
  have ho'c : o' c = o c ||| 8 := by
    rw [ho', updO_other _ _ _ _ hcn, updO_self]
  have ho'n : o' n = o n ||| 2 := by rw [ho', updO_self]
  have ho'x : ∀ x : Cell, x ≠ c → x ≠ n → o' x = o x := by
    intro x hxc hxn
    rw [ho', updO_other _ _ _ _ hxn, updO_other _ _ _ _ hxc]
  have hmono : ∀ p m, o p &&& m ≠ 0 → o' p &&& m ≠ 0 := by
    intro p m hpm
    by_cases hpc : p = c
    · rw [hpc, ho'c]; exact and_ne_of_left _ _ _ (hpc ▸ hpm)
    · by_cases hpn : p = n
      · rw [hpn, ho'n]; exact and_ne_of_left _ _ _ (hpn ▸ hpm)
      · rw [ho'x p hpc hpn]; exact hpm
  have hcin := h.genIn c hcg
  have hnin : n.1 < W ∧ n.2 < H := by
    constructor
    · omega
    · have : c.2 = n.2 := by rw [hc]
      omega
  have hrn : r ≠ n := by
    intro he; rw [← he] at hng; rw [h.rootGen] at hng
    exact absurd hng (by simp)
  rw [hco]
  constructor
  · exact h.rootIn
  · rw [updG_other _ _ _ _ hrn]; exact h.rootGen
  · intro x hx
    by_cases hxn : x = n
    · rw [hxn]; exact hnin
    · rw [updG_other _ _ _ _ hxn] at hx; exact h.genIn x hx
  · intro x hx
    by_cases hxn : x = n
    · rw [hxn, updG_self] at hx; exact absurd hx (by simp)
    · rw [updG_other _ _ _ _ hxn] at hx
      have hxc : x ≠ c := by intro he; rw [he, hcg] at hx; exact absurd hx (by simp)
      rw [ho'x x hxc hxn]
      exact h.freshO x hx
  · intro x
    by_cases hxc : x = c
    · rw [hxc, ho'c]; exact or_lt_16 _ _ (h.lt16 c) (by decide)
    · by_cases hxn : x = n
      · rw [hxn, ho'n]; exact or_lt_16 _ _ (h.lt16 n) (by decide)
      · rw [ho'x x hxc hxn]; exact h.lt16 x
  · -- symE
    intro x hx
    by_cases hxn : x = n
    · subst hxn
      refine ⟨hW, ?_⟩
      rw [← hc, ho'c]
      exact and_ne_of_right _ _ _ (by decide)
    · by_cases hxc : x = c
      · subst hxc
        rw [ho'c] at hx
        rcases and_ne_split _ _ _ hx with hx' | hx'
        · obtain ⟨hb, hm⟩ := h.symE c hx'
          exact ⟨hb, hmono _ _ hm⟩
        · exact absurd hx' (by decide)
      · rw [ho'x x hxc hxn] at hx
        obtain ⟨hb, hm⟩ := h.symE x hx
        exact ⟨hb, hmono _ _ hm⟩
  · -- symW
    intro x hx
    by_cases hxc : x = c
    · subst hxc
      refine ⟨n, hc, ?_⟩
      rw [ho'n]
      exact and_ne_of_right _ _ _ (by decide)
    · by_cases hxn : x = n
      · subst hxn
        rw [ho'n, hon] at hx
        exact absurd hx (by decide)
      · rw [ho'x x hxc hxn] at hx
        obtain ⟨d, hd, hm⟩ := h.symW x hx
        exact ⟨d, hd, hmono _ _ hm⟩
  · -- symS
    intro x hx
    by_cases hxc : x = c
    · subst hxc
      rw [ho'c] at hx
      rcases and_ne_split _ _ _ hx with hx' | hx'
      · obtain ⟨hb, hm⟩ := h.symS c hx'
        exact ⟨hb, hmono _ _ hm⟩
      · exact absurd hx' (by decide)
    · by_cases hxn : x = n
      · subst hxn
        rw [ho'n, hon] at hx
        exact absurd hx (by decide)
      · rw [ho'x x hxc hxn] at hx
        obtain ⟨hb, hm⟩ := h.symS x hx
        exact ⟨hb, hmono _ _ hm⟩
  · -- symN
    intro x hx
    by_cases hxc : x = c
    · subst hxc
      rw [ho'c] at hx
      rcases and_ne_split _ _ _ hx with hx' | hx'
      · obtain ⟨d, hd, hm⟩ := h.symN c hx'
        exact ⟨d, hd, hmono _ _ hm⟩
      · exact absurd hx' (by decide)
    · by_cases hxn : x = n
      · subst hxn
        rw [ho'n, hon] at hx
        exact absurd hx (by decide)
      · rw [ho'x x hxc hxn] at hx
        obtain ⟨d, hd, hm⟩ := h.symN x hx
        exact ⟨d, hd, hmono _ _ hm⟩
  · -- reach
    intro x hx
    by_cases hxn : x = n
    · subst hxn
      have hrc : Reach o' r c := Reach_mono o o' hmono r c (h.reach c hcg)
      refine Relation.ReflTransGen.tail hrc ?_
      have hstep := openBetween_stepW o' x ?h1 ?h2
      case h1 => rw [ho'n]; exact and_ne_of_right _ _ _ (by decide)
      case h2 => rw [← hc, ho'c]; exact and_ne_of_right _ _ _ (by decide)
      rw [← hc] at hstep
      exact hstep
    · rw [updG_other _ _ _ _ hxn] at hx
      exact Reach_mono o o' hmono r x (h.reach x hx)
  · -- count
    have hcmem : c ∈ gridFinset W H := (mem_gridFinset W H c).mpr hcin
    have hnmem : n ∈ gridFinset W H := (mem_gridFinset W H n).mpr hnin
    have hsum := sum_comp_updO2 (gridFinset W H) popcount4 o c n
      (o c ||| 8) (o n ||| 2) hcmem hnmem hcn
    have hpc : popcount4 (o c ||| 8) = popcount4 (o c) + 1 :=
      (popcount4_or_fresh (o c) (h.lt16 c)).2.2.2 hfreshbit
    have hpn : popcount4 (o n ||| 2) = popcount4 (o n) + 1 := by
      rw [hon]; rfl
    have hgc : genCount W H (updG g n true) = genCount W H g + 1 :=
      genCount_updG_true W H g n hnmem hng
    have hcnt := h.count
    rw [← ho'] at hsum
    unfold popSum at hcnt ⊢
    rw [hgc]
    omega

theorem TG.carveN {W H : Nat} {r : Cell} {o : OMap} {g : GMap}
    (h : TG W H r o g) (n : Cell) (hcg : g (n.1, n.2 + 1) = true)
    (hng : g n = false) (hH : n.2 + 1 < H) :
    TG W H r (carvePassage o (n.1, n.2 + 1) n) (updG g n true) := by
  set c : Cell := (n.1, n.2 + 1) with hc
  have hcn : c ≠ n := by
    intro he; rw [hc, Prod.ext_iff] at he; omega
  have hon : o n = 0 := h.freshO n hng
  have hfreshbit : o c &&& 1 = 0 := by
    by_cases hb : o c &&& 1 = 0
    · exact hb
    · obtain ⟨d, hd, hm⟩ := h.symN c hb
      have hdn : d = n := by
        rw [hc] at hd; rw [Prod.ext_iff] at hd ⊢; omega
      rw [hdn, hon] at hm
      simp at hm
  have hco : carvePassage o c n = updO (updO o c (o c ||| 1)) n (o n ||| 4) := by
    simp only [carvePassage]
    rw [if_neg (by push_cast; omega), if_neg (by push_cast; omega),
      if_neg (by push_cast; omega), if_pos (by constructor <;> push_cast <;> omega)]
  set o' : OMap := updO (updO o c (o c ||| 1)) n (o n ||| 4) with ho'
  have ho'c : o' c = o c ||| 1 := by
    rw [ho', updO_other _ _ _ _ hcn, updO_self]
  have ho'n : o' n = o n ||| 4 := by rw [ho', updO_self]
  have ho'x : ∀ x : Cell, x ≠ c → x ≠ n → o' x = o x := by
    intro x hxc hxn
    rw [ho', updO_other _ _ _ _ hxn, updO_other _ _ _ _ hxc]
  have hmono : ∀ p m, o p &&& m ≠ 0 → o' p &&& m ≠ 0 := by
    intro p m hpm
    by_cases hpc : p = c
    · rw [hpc, ho'c]; exact and_ne_of_left _ _ _ (hpc ▸ hpm)
    · by_cases hpn : p = n
      · rw [hpn, ho'n]; exact and_ne_of_left _ _ _ (hpn ▸ hpm)
      · rw [ho'x p hpc hpn]; exact hpm
  have hcin := h.genIn c hcg
  have hnin : n.1 < W ∧ n.2 < H := by
    constructor
    · have : c.1 = n.1 := by rw [hc]
      omega
    · omega
  have hrn : r ≠ n := by
    intro he; rw [← he] at hng; rw [h.rootGen] at hng
    exact absurd hng (by simp)
  rw [hco]
  constructor
  · exact h.rootIn
  · rw [updG_other _ _ _ _ hrn]; exact h.rootGen
  · intro x hx
    by_cases hxn : x = n
    · rw [hxn]; exact hnin
    · rw [updG_other _ _ _ _ hxn] at hx; exact h.genIn x hx
  · intro x hx
    by_cases hxn : x = n
    · rw [hxn, updG_self] at hx; exact absurd hx (by simp)
    · rw [updG_other _ _ _ _ hxn] at hx
      have hxc : x ≠ c := by intro he; rw [he, hcg] at hx; exact absurd hx (by simp)
      rw [ho'x x hxc hxn]
      exact h.freshO x hx
  · intro x
    by_cases hxc : x = c
    · rw [hxc, ho'c]; exact or_lt_16 _ _ (h.lt16 c) (by decide)
    · by_cases hxn : x = n
      · rw [hxn, ho'n]; exact or_lt_16 _ _ (h.lt16 n) (by decide)
      · rw [ho'x x hxc hxn]; exact h.lt16 x
  · -- symE
    intro x hx
    by_cases hxc : x = c
    · subst hxc
      rw [ho'c] at hx
      rcases and_ne_split _ _ _ hx with hx' | hx'
      · obtain ⟨hb, hm⟩ := h.symE c hx'
        exact ⟨hb, hmono _ _ hm⟩
      · exact absurd hx' (by decide)
    · by_cases hxn : x = n
      · subst hxn
        rw [ho'n, hon] at hx
        exact absurd hx (by decide)
      · rw [ho'x x hxc hxn] at hx
        obtain ⟨hb, hm⟩ := h.symE x hx
        exact ⟨hb, hmono _ _ hm⟩
  · -- symW
    intro x hx
    by_cases hxc : x = c
    · subst hxc
      rw [ho'c] at hx
      rcases and_ne_split _ _ _ hx with hx' | hx'
      · obtain ⟨d, hd, hm⟩ := h.symW c hx'
        exact ⟨d, hd, hmono _ _ hm⟩
      · exact absurd hx' (by decide)
    · by_cases hxn : x = n
      · subst hxn
        rw [ho'n, hon] at hx
        exact absurd hx (by decide)
      · rw [ho'x x hxc hxn] at hx
        obtain ⟨d, hd, hm⟩ := h.symW x hx
        exact ⟨d, hd, hmono _ _ hm⟩
  · -- symS
    intro x hx
    by_cases hxn : x = n
    · subst hxn
      refine ⟨hH, ?_⟩
      rw [← hc, ho'c]
      exact and_ne_of_right _ _ _ (by decide)
    · by_cases hxc : x = c
      · subst hxc
        rw [ho'c] at hx
        rcases and_ne_split _ _ _ hx with hx' | hx'
        · obtain ⟨hb, hm⟩ := h.symS c hx'
          exact ⟨hb, hmono _ _ hm⟩
        · exact absurd hx' (by decide)
      · rw [ho'x x hxc hxn] at hx
        obtain ⟨hb, hm⟩ := h.symS x hx
        exact ⟨hb, hmono _ _ hm⟩
  · -- symN
    intro x hx
    by_cases hxc : x = c
    · subst hxc
      refine ⟨n, hc, ?_⟩
      rw [ho'n]
      exact and_ne_of_right _ _ _ (by decide)
    · by_cases hxn : x = n
      · subst hxn
        rw [ho'n, hon] at hx
        exact absurd hx (by decide)
      · rw [ho'x x hxc hxn] at hx
        obtain ⟨d, hd, hm⟩ := h.symN x hx
        exact ⟨d, hd, hmono _ _ hm⟩
  · -- reach
    intro x hx
    by_cases hxn : x = n
    · subst hxn
      have hrc : Reach o' r c := Reach_mono o o' hmono r c (h.reach c hcg)
      refine Relation.ReflTransGen.tail hrc ?_
      have hstep := openBetween_stepN o' x ?h1 ?h2
      case h1 => rw [ho'n]; exact and_ne_of_right _ _ _ (by decide)
      case h2 => rw [← hc, ho'c]; exact and_ne_of_right _ _ _ (by decide)
      rw [← hc] at hstep
      exact hstep
    · rw [updG_other _ _ _ _ hxn] at hx
      exact Reach_mono o o' hmono r x (h.reach x hx)
  · -- count
    have hcmem : c ∈ gridFinset W H := (mem_gridFinset W H c).mpr hcin
    have hnmem : n ∈ gridFinset W H := (mem_gridFinset W H n).mpr hnin
    have hsum := sum_comp_updO2 (gridFinset W H) popcount4 o c n
      (o c ||| 1) (o n ||| 4) hcmem hnmem hcn
    have hpc : popcount4 (o c ||| 1) = popcount4 (o c) + 1 :=
      (popcount4_or_fresh (o c) (h.lt16 c)).1 hfreshbit
    have hpn : popcount4 (o n ||| 4) = popcount4 (o n) + 1 := by
      rw [hon]; rfl
    have hgc : genCount W H (updG g n true) = genCount W H g + 1 :=
      genCount_updG_true W H g n hnmem hng
    have hcnt := h.count
    rw [← ho'] at hsum
    unfold popSum at hcnt ⊢
    rw [hgc]
    omega

theorem mem_neighborsOf {W H : Nat} {c n : Cell} :
    n ∈ neighborsOf W H c ↔ (n.1 < W ∧ n.2 < H) ∧
      (n = (c.1 + 1, c.2) ∨ c = (n.1 + 1, n.2) ∨ n = (c.1, c.2 + 1) ∨ c = (n.1, n.2 + 1)) := by
  rw [neighborsOf, List.mem_filterMap]
  constructor
  · rintro ⟨d, hd, hfd⟩
    simp only [DIRS4, List.mem_cons, List.not_mem_nil, or_false] at hd
    rcases hd with rfl | rfl | rfl | rfl <;>
    · rw [getCell] at hfd
      split_ifs at hfd with hcond
      rw [Option.some_inj] at hfd
      subst hfd
      refine ⟨⟨by omega, by omega⟩, ?_⟩
      simp only [Prod.ext_iff]
      omega
  · rintro ⟨⟨hn1, hn2⟩, hsh⟩
    rcases hsh with rfl | hcc | rfl | hcc
    · refine ⟨((1 : Int), (0 : Int)), by simp [DIRS4], ?_⟩
      rw [getCell, if_pos (by omega)]
      rw [Option.some_inj, Prod.ext_iff]
      constructor <;> simp <;> omega
    · subst hcc
      refine ⟨((-1 : Int), (0 : Int)), by simp [DIRS4], ?_⟩
      rw [getCell, if_pos (by push_cast; omega)]
      rw [Option.some_inj, Prod.ext_iff]
      constructor <;> simp <;> push_cast <;> omega
    · refine ⟨((0 : Int), (1 : Int)), by simp [DIRS4], ?_⟩
      rw [getCell, if_pos (by omega)]
      rw [Option.some_inj, Prod.ext_iff]
      constructor <;> simp <;> omega
    · subst hcc
      refine ⟨((0 : Int), (-1 : Int)), by simp [DIRS4], ?_⟩
      rw [getCell, if_pos (by push_cast; omega)]
      rw [Option.some_inj, Prod.ext_iff]
      constructor <;> simp <;> push_cast <;> omega

theorem TG.carveStep {W H : Nat} {r : Cell} {o : OMap} {g : GMap}
    (h : TG W H r o g) {c n : Cell} (hcg : g c = true) (hng : g n = false)
    (hmem : n ∈ neighborsOf W H c) :
    TG W H r (carvePassage o c n) (updG g n true) := by
  obtain ⟨⟨hn1, hn2⟩, hsh⟩ := mem_neighborsOf.mp hmem
  rcases hsh with rfl | hcc | rfl | hcc
  · exact h.carveE c hcg hng hn1
  · subst hcc
    exact h.carveW n hcg hng (h.genIn _ hcg).1
  · exact h.carveS c hcg hng hn2
  · subst hcc
    exact h.carveN n hcg hng (h.genIn _ hcg).2

/-- A set of generated cells closed under grid adjacency and containing an
in-bounds cell contains every in-bounds cell (the grid is connected). -/
theorem gen_all_of_closed {W H : Nat} {g : GMap} {r : Cell}
    (hrg : g r = true) (hrIn : r.1 < W ∧ r.2 < H)
    (hcl : ∀ c : Cell, g c = true → ∀ n ∈ neighborsOf W H c, g n = true) :
    ∀ c : Cell, c.1 < W → c.2 < H → g c = true := by
  have stepE : ∀ x y : Nat, g (x, y) = true → x + 1 < W → y < H → g (x + 1, y) = true := by
    intro x y hg hx hy
    exact hcl (x, y) hg (x + 1, y) (mem_neighborsOf.mpr ⟨⟨hx, hy⟩, Or.inl rfl⟩)
  have stepW : ∀ x y : Nat, g (x + 1, y) = true → x + 1 ≤ W → y < H → g (x, y) = true := by
    intro x y hg hx hy
    exact hcl (x + 1, y) hg (x, y)
      (mem_neighborsOf.mpr ⟨⟨by omega, hy⟩, Or.inr (Or.inl rfl)⟩)
  have stepS : ∀ x y : Nat, g (x, y) = true → x < W → y + 1 < H → g (x, y + 1) = true := by
    intro x y hg hx hy
    exact hcl (x, y) hg (x, y + 1)
      (mem_neighborsOf.mpr ⟨⟨hx, hy⟩, Or.inr (Or.inr (Or.inl rfl))⟩)
  have stepN : ∀ x y : Nat, g (x, y + 1) = true → x < W → y + 1 ≤ H → g (x, y) = true := by
    intro x y hg hx hy
    exact hcl (x, y + 1) hg (x, y)
      (mem_neighborsOf.mpr ⟨⟨hx, by omega⟩, Or.inr (Or.inr (Or.inr rfl))⟩)
  have hdx : ∀ i, i ≤ r.1 → g (r.1 - i, r.2) = true := by
    intro i
    induction i with
    | zero => intro _; simpa using hrg
    | succ i ih =>
      intro hi
      have hg := ih (by omega)
      have he : r.1 - i = (r.1 - (i + 1)) + 1 := by omega
      rw [he] at hg
      exact stepW _ _ hg (by omega) hrIn.2
  have h0y : g (0, r.2) = true := by
    have := hdx r.1 (le_refl _)
    simpa using this
  have hdy : ∀ j, j ≤ r.2 → g (0, r.2 - j) = true := by
    intro j
    induction j with
    | zero => intro _; simpa using h0y
    | succ j ih =>
      intro hj
      have hg := ih (by omega)
      have he : r.2 - j = (r.2 - (j + 1)) + 1 := by omega
      rw [he] at hg
      exact stepN _ _ hg (by omega) (by omega)
  have h00 : g (0, 0) = true := by
    have := hdy r.2 (le_refl _)
    simpa using this
  have hrow : ∀ x, x < W → g (x, 0) = true := by
    intro x
    induction x with
    | zero => intro _; exact h00
    | succ x ih =>
      intro hx
      exact stepE _ _ (ih (by omega)) hx (by omega)
  intro c hc1 hc2
  have hcol : ∀ y, y < H → g (c.1, y) = true := by
    intro y
    induction y with
    | zero => intro _; exact hrow c.1 hc1
    | succ y ih =>
      intro hy
      exact stepS _ _ (ih (by omega)) hc1 hy
  have := hcol c.2 hc2
  simpa using this

/-- Rerouting: if the two endpoints of a removed edge are still reachable,
removing that edge preserves all reachability. -/
theorem reachable_in_delete {V : Type} (G : SimpleGraph V) (v w : V)
    (hvw : (G \ SimpleGraph.fromEdgeSet {s(v, w)}).Reachable v w) :
    ∀ a b : V, G.Reachable a b →
      (G \ SimpleGraph.fromEdgeSet {s(v, w)}).Reachable a b := by
  intro a b hab
  obtain ⟨p⟩ := hab
  induction p with
  | nil => exact SimpleGraph.Reachable.refl _
  | @cons x y z h q ih =>
    by_cases he : s(x, y) = s(v, w)
    · rw [Sym2.eq_iff] at he
      rcases he with ⟨rfl, rfl⟩ | ⟨rfl, rfl⟩
      · exact hvw.trans ih
      · exact hvw.symm.trans ih
    · have hadj : (G \ SimpleGraph.fromEdgeSet {s(v, w)}).Adj x y := by
        rw [SimpleGraph.sdiff_adj]
        refine ⟨h, ?_⟩
        rw [SimpleGraph.fromEdgeSet_adj]
        rintro ⟨hmem, -⟩
        exact he (by simpa using hmem)
      exact hadj.reachable.trans ih

/-- A connected graph on `n` vertices has at least `n - 1` edges. -/
theorem conn_lower {V : Type} [Fintype V] [DecidableEq V] :
    ∀ (n : Nat) (G : SimpleGraph V), G.Connected → G.edgeSet.ncard = n →
      Fintype.card V ≤ n + 1 := by
  intro n
  induction n using Nat.strong_induction_on with
  | _ n ih =>
    intro G hconn hn
    by_cases hac : G.IsAcyclic
    · have htree : G.IsTree := ⟨hconn, hac⟩
      haveI : Fintype G.edgeSet := G.edgeSet.toFinite.fintype
      have hcard := htree.card_edgeFinset
      rw [Set.ncard_eq_toFinset_card'] at hn
      rw [SimpleGraph.edgeFinset] at hcard
      omega
    · simp only [SimpleGraph.IsAcyclic, not_forall, not_not] at hac
      obtain ⟨v, c, hc⟩ := hac
      have hlen := hc.three_le_length
      have hne : c.edges ≠ [] := by
        have hl := SimpleGraph.Walk.length_edges c
        intro h0
        rw [h0] at hl
        simp at hl
        omega
      obtain ⟨e, he⟩ := List.exists_mem_of_ne_nil _ hne
      revert he
      induction e using Sym2.ind with
      | _ a b =>
        intro he
        have hkey := (SimpleGraph.adj_and_reachable_delete_edges_iff_exists_cycle).mpr
          ⟨v, c, hc, he⟩
        have hconn' : (G \ SimpleGraph.fromEdgeSet {s(a, b)}).Connected := by
          rw [SimpleGraph.connected_iff] at hconn ⊢
          exact ⟨fun x y => reachable_in_delete G a b hkey.2 x y (hconn.1 x y), hconn.2⟩
        have hmem : s(a, b) ∈ G.edgeSet := hkey.1
        have hesub : (G \ SimpleGraph.fromEdgeSet {s(a, b)}).edgeSet =
            G.edgeSet \ {s(a, b)} := by
          rw [SimpleGraph.edgeSet_sdiff, SimpleGraph.edgeSet_fromEdgeSet]
          ext f
          simp only [Set.mem_diff, Set.mem_singleton_iff, Set.mem_setOf_eq, not_and, not_not]
          constructor
          · rintro ⟨hf, hff⟩
            refine ⟨hf, fun hfe => ?_⟩
            have := hff hfe
            exact absurd this (SimpleGraph.not_isDiag_of_mem_edgeSet G hf)
          · rintro ⟨hf, hfe⟩
            exact ⟨hf, fun hfe' => absurd hfe' hfe⟩
        have hfin : G.edgeSet.Finite := G.edgeSet.toFinite
        have hpos : 0 < G.edgeSet.ncard := by
          rw [Set.ncard_pos hfin]
          exact ⟨s(a, b), hmem⟩
        have hncard' : (G \ SimpleGraph.fromEdgeSet {s(a, b)}).edgeSet.ncard = n - 1 := by
          rw [hesub, Set.ncard_diff_singleton_of_mem hmem hfin, hn]
        have hlow := ih (n - 1) (by omega) _ hconn' hncard'
        omega

/-- A connected graph on `n` vertices with `n - 1` edges is acyclic. -/
theorem isAcyclic_of_connected_ncard {V : Type} [Fintype V] [DecidableEq V]
    (G : SimpleGraph V) (hconn : G.Connected)
    (hcard : G.edgeSet.ncard + 1 = Fintype.card V) : G.IsAcyclic := by
  by_contra hac
  simp only [SimpleGraph.IsAcyclic, not_forall, not_not] at hac
  obtain ⟨v, c, hc⟩ := hac
  have hlen := hc.three_le_length
  have hne : c.edges ≠ [] := by
    have hl := SimpleGraph.Walk.length_edges c
    intro h0
    rw [h0] at hl
    simp at hl
    omega
  obtain ⟨e, he⟩ := List.exists_mem_of_ne_nil _ hne
  revert he
  induction e using Sym2.ind with
  | _ a b =>
    intro he
    have hkey := (SimpleGraph.adj_and_reachable_delete_edges_iff_exists_cycle).mpr
      ⟨v, c, hc, he⟩
    have hconn' : (G \ SimpleGraph.fromEdgeSet {s(a, b)}).Connected := by
      rw [SimpleGraph.connected_iff] at hconn ⊢
      exact ⟨fun x y => reachable_in_delete G a b hkey.2 x y (hconn.1 x y), hconn.2⟩
    have hmem : s(a, b) ∈ G.edgeSet := hkey.1
    have hesub : (G \ SimpleGraph.fromEdgeSet {s(a, b)}).edgeSet =
        G.edgeSet \ {s(a, b)} := by
      rw [SimpleGraph.edgeSet_sdiff, SimpleGraph.edgeSet_fromEdgeSet]
      ext f
      simp only [Set.mem_diff, Set.mem_singleton_iff, Set.mem_setOf_eq, not_and, not_not]
      constructor
      · rintro ⟨hf, hff⟩
        refine ⟨hf, fun hfe => ?_⟩
        have := hff hfe
        exact absurd this (SimpleGraph.not_isDiag_of_mem_edgeSet G hf)
      · rintro ⟨hf, hfe⟩
        exact ⟨hf, fun hfe' => absurd hfe' hfe⟩
    have hfin : G.edgeSet.Finite := G.edgeSet.toFinite
    have hpos : 0 < G.edgeSet.ncard := by
      rw [Set.ncard_pos hfin]
      exact ⟨s(a, b), hmem⟩
    have hncard' : (G \ SimpleGraph.fromEdgeSet {s(a, b)}).edgeSet.ncard =
        G.edgeSet.ncard - 1 := by
      rw [hesub, Set.ncard_diff_singleton_of_mem hmem hfin]
    have hlow := conn_lower (G.edgeSet.ncard - 1) _ hconn' hncard'
    omega

/-- The carved passage graph of the claim: vertices are the grid cells,
edges the adjacent pairs whose shared wall has been removed. -/
def mazeGraph (W H : Nat) (o : OMap) : SimpleGraph (Fin W × Fin H) where
  Adj u v := openBetween o (u.1.val, u.2.val) (v.1.val, v.2.val) = true
  symm := by
    intro u v h
    rw [openBetween_symm]
    exact h
  loopless := by
    intro u h
    rw [openBetween_irrefl] at h
    exact absurd h (by simp)

instance mazeGraphDecAdj (W H : Nat) (o : OMap) : DecidableRel (mazeGraph W H o).Adj :=
  fun u v =>
    inferInstanceAs (Decidable (openBetween o (u.1.val, u.2.val) (v.1.val, v.2.val) = true))

theorem openBetween_cases {o : OMap} {a b : Cell} (h : openBetween o a b = true) :
    (b = (a.1 + 1, a.2) ∧ o a &&& 2 ≠ 0 ∧ o b &&& 8 ≠ 0) ∨
    (a = (b.1 + 1, b.2) ∧ o b &&& 2 ≠ 0 ∧ o a &&& 8 ≠ 0) ∨
    (b = (a.1, a.2 + 1) ∧ o a &&& 4 ≠ 0 ∧ o b &&& 1 ≠ 0) ∨
    (a = (b.1, b.2 + 1) ∧ o b &&& 4 ≠ 0 ∧ o a &&& 1 ≠ 0) := by
  simpa only [openBetween, Bool.or_eq_true, Bool.and_eq_true, decide_eq_true_eq,
    or_assoc] using h

/-- The direction index (N=0, E=1, S=2, W=3) of neighbour `b` as seen
from `a`. -/
def dirIdx (a b : Cell) : Nat :=
  if b.1 = a.1 + 1 then 1
  else if a.1 = b.1 + 1 then 3
  else if b.2 = a.2 + 1 then 2
  else 0

theorem dirIdx_E {a b : Cell} (h1 : b.1 = a.1 + 1) : dirIdx a b = 1 := by
  rw [dirIdx, if_pos h1]

theorem dirIdx_W {a b : Cell} (h1 : a.1 = b.1 + 1) : dirIdx a b = 3 := by
  rw [dirIdx, if_neg (by omega), if_pos h1]

theorem dirIdx_S {a b : Cell} (h1 : b.1 = a.1) (h2 : b.2 = a.2 + 1) : dirIdx a b = 2 := by
  rw [dirIdx, if_neg (by omega), if_neg (by omega), if_pos h2]

theorem dirIdx_N {a b : Cell} (h1 : b.1 = a.1) (h2 : a.2 = b.2 + 1) : dirIdx a b = 0 := by
  rw [dirIdx, if_neg (by omega), if_neg (by omega), if_neg (by omega)]

theorem popcount4_filter_card : ∀ m < 16,
    ((Finset.range 4).filter (fun d => m &&& 2 ^ d ≠ 0)).card = popcount4 m := by decide

theorem finPair_eq {W H : Nat} (u1 u2 : Fin W × Fin H)
    (h1 : u1.1.val = u2.1.val) (h2 : u1.2.val = u2.2.val) : u1 = u2 := by
  rcases u1 with ⟨⟨a, _⟩, ⟨b, _⟩⟩
  rcases u2 with ⟨⟨c, _⟩, ⟨d, _⟩⟩
  simp only [Prod.ext_iff, Fin.ext_iff]
  exact ⟨h1, h2⟩

/-- In a `TG` state the graph degree of a vertex equals the number of set
direction bits on its cell. -/
theorem degree_eq_popcount4 {W H : Nat} {r : Cell} {o : OMap} {g : GMap}
    (h : TG W H r o g) (v : Fin W × Fin H) :
    (mazeGraph W H o).degree v = popcount4 (o (v.1.val, v.2.val)) := by
  classical
  have hlt := h.lt16 (v.1.val, v.2.val)
  rw [← popcount4_filter_card (o (v.1.val, v.2.val)) hlt]
  rw [SimpleGraph.degree, SimpleGraph.neighborFinset_eq_filter]
  have shape : ∀ u : Fin W × Fin H,
      openBetween o (v.1.val, v.2.val) (u.1.val, u.2.val) = true →
      (dirIdx (v.1.val, v.2.val) (u.1.val, u.2.val) = 1 ∧
        u.1.val = v.1.val + 1 ∧ u.2.val = v.2.val) ∨
      (dirIdx (v.1.val, v.2.val) (u.1.val, u.2.val) = 3 ∧
        u.1.val + 1 = v.1.val ∧ u.2.val = v.2.val) ∨
      (dirIdx (v.1.val, v.2.val) (u.1.val, u.2.val) = 2 ∧
        u.1.val = v.1.val ∧ u.2.val = v.2.val + 1) ∨
      (dirIdx (v.1.val, v.2.val) (u.1.val, u.2.val) = 0 ∧
        u.1.val = v.1.val ∧ u.2.val + 1 = v.2.val) := by
    intro u hadj
    rcases openBetween_cases hadj with ⟨he, -, -⟩ | ⟨he, -, -⟩ | ⟨he, -, -⟩ | ⟨he, -, -⟩ <;>
      rw [Prod.ext_iff] at he <;> dsimp only at he
    · exact Or.inl ⟨dirIdx_E he.1, he.1, he.2⟩
    · exact Or.inr (Or.inl ⟨dirIdx_W he.1, by omega, by omega⟩)
    · exact Or.inr (Or.inr (Or.inl ⟨dirIdx_S he.1 he.2, he.1, he.2⟩))
    · exact Or.inr (Or.inr (Or.inr ⟨dirIdx_N (by omega) he.2, by omega, by omega⟩))
  have hbits : ∀ u : Fin W × Fin H,
      openBetween o (v.1.val, v.2.val) (u.1.val, u.2.val) = true →
      o (v.1.val, v.2.val) &&& 2 ^ dirIdx (v.1.val, v.2.val) (u.1.val, u.2.val) ≠ 0 := by
    intro u hadj
    rcases openBetween_cases hadj with ⟨he, h1, h2⟩ | ⟨he, h1, h2⟩ |
      ⟨he, h1, h2⟩ | ⟨he, h1, h2⟩ <;> rw [Prod.ext_iff] at he <;> dsimp only at he
    · rw [dirIdx_E he.1]; simpa using h1
    · rw [dirIdx_W he.1]; simpa using h2
    · rw [dirIdx_S he.1 he.2]; simpa using h1
    · rw [dirIdx_N (by omega) he.2]; simpa using h2
  apply Finset.card_bij
    (fun u _ => dirIdx (v.1.val, v.2.val) (u.1.val, u.2.val))
  · intro u hu
    have hadj : openBetween o (v.1.val, v.2.val) (u.1.val, u.2.val) = true :=
      (Finset.mem_filter.mp hu).2
    rw [Finset.mem_filter, Finset.mem_range]
    rcases shape u hadj with ⟨hd, -, -⟩ | ⟨hd, -, -⟩ | ⟨hd, -, -⟩ | ⟨hd, -, -⟩ <;>
      exact ⟨by omega, hbits u hadj⟩
  · intro u1 hu1 u2 hu2 hi
    have hadj1 : openBetween o (v.1.val, v.2.val) (u1.1.val, u1.2.val) = true :=
      (Finset.mem_filter.mp hu1).2
    have hadj2 : openBetween o (v.1.val, v.2.val) (u2.1.val, u2.2.val) = true :=
      (Finset.mem_filter.mp hu2).2
    rcases shape u1 hadj1 with ⟨hd1, hx1, hy1⟩ | ⟨hd1, hx1, hy1⟩ |
      ⟨hd1, hx1, hy1⟩ | ⟨hd1, hx1, hy1⟩ <;>
    rcases shape u2 hadj2 with ⟨hd2, hx2, hy2⟩ | ⟨hd2, hx2, hy2⟩ |
      ⟨hd2, hx2, hy2⟩ | ⟨hd2, hx2, hy2⟩ <;>
    rw [hd1, hd2] at hi <;>
    first
      | omega
      | exact finPair_eq u1 u2 (by omega) (by omega)
  · intro d hd
    rw [Finset.mem_filter, Finset.mem_range] at hd
    obtain ⟨hd4, hbit⟩ := hd
    interval_cases d
    · obtain ⟨dc, hdc, hbit2⟩ := h.symN (v.1.val, v.2.val) (by simpa using hbit)
      have hdcb := h.genIn dc (h.genOf dc (ne_zero_of_and_ne _ _ hbit2))
      refine ⟨(⟨dc.1, hdcb.1⟩, ⟨dc.2, hdcb.2⟩), ?_, ?_⟩
      · rw [Finset.mem_filter]
        refine ⟨Finset.mem_univ _, ?_⟩
        show openBetween o (v.1.val, v.2.val) (dc.1, dc.2) = true
        have hs := openBetween_stepN o dc hbit2 (by rw [← hdc]; simpa using hbit)
        rw [← hdc] at hs
        exact hs
      · show dirIdx (v.1.val, v.2.val) (dc.1, dc.2) = 0
        rw [Prod.ext_iff] at hdc
        dsimp only at hdc
        exact dirIdx_N (by omega) (by omega)
    · obtain ⟨hEb, hm⟩ := h.symE (v.1.val, v.2.val) (by simpa using hbit)
      dsimp only at hEb hm
      refine ⟨(⟨v.1.val + 1, hEb⟩, v.2), ?_, ?_⟩
      · rw [Finset.mem_filter]
        refine ⟨Finset.mem_univ _, ?_⟩
        show openBetween o (v.1.val, v.2.val) (v.1.val + 1, v.2.val) = true
        exact openBetween_stepE o (v.1.val, v.2.val) (by simpa using hbit) hm
      · show dirIdx (v.1.val, v.2.val) (v.1.val + 1, v.2.val) = 1
        exact dirIdx_E rfl
    · obtain ⟨hSb, hm⟩ := h.symS (v.1.val, v.2.val) (by simpa using hbit)
      dsimp only at hSb hm
      refine ⟨(v.1, ⟨v.2.val + 1, hSb⟩), ?_, ?_⟩
      · rw [Finset.mem_filter]
        refine ⟨Finset.mem_univ _, ?_⟩
        show openBetween o (v.1.val, v.2.val) (v.1.val, v.2.val + 1) = true
        exact openBetween_stepS o (v.1.val, v.2.val) (by simpa using hbit) hm
      · show dirIdx (v.1.val, v.2.val) (v.1.val, v.2.val + 1) = 2
        exact dirIdx_S rfl rfl
    · obtain ⟨dc, hdc, hbit2⟩ := h.symW (v.1.val, v.2.val) (by simpa using hbit)
      have hdcb := h.genIn dc (h.genOf dc (ne_zero_of_and_ne _ _ hbit2))
      refine ⟨(⟨dc.1, hdcb.1⟩, ⟨dc.2, hdcb.2⟩), ?_, ?_⟩
      · rw [Finset.mem_filter]
        refine ⟨Finset.mem_univ _, ?_⟩
        show openBetween o (v.1.val, v.2.val) (dc.1, dc.2) = true
        have hs := openBetween_stepW o dc hbit2 (by rw [← hdc]; simpa using hbit)
        rw [← hdc] at hs
        exact hs
      · show dirIdx (v.1.val, v.2.val) (dc.1, dc.2) = 3
        rw [Prod.ext_iff] at hdc
        dsimp only at hdc
        exact dirIdx_W (by omega)

theorem sum_popcount_fin {W H : Nat} (o : OMap) :
    ∑ v : Fin W × Fin H, popcount4 (o (v.1.val, v.2.val)) = popSum W H o := by
  unfold popSum
  apply Finset.sum_bij (fun (v : Fin W × Fin H) _ => ((v.1.val, v.2.val) : Cell))
  · intro a _
    rw [mem_gridFinset]
    exact ⟨a.1.isLt, a.2.isLt⟩
  · intro a _ b _ hab
    rw [Prod.ext_iff] at hab
    dsimp only at hab
    exact finPair_eq a b hab.1 hab.2
  · intro c hc
    rw [mem_gridFinset] at hc
    exact ⟨(⟨c.1, hc.1⟩, ⟨c.2, hc.2⟩), Finset.mem_univ _, rfl⟩
  · intro a _
    rfl

theorem openBetween_bounds {W H : Nat} {r : Cell} {o : OMap} {g : GMap}
    (h : TG W H r o g) {a b : Cell} (hab : openBetween o a b = true) :
    (a.1 < W ∧ a.2 < H) ∧ (b.1 < W ∧ b.2 < H) := by
  rcases openBetween_cases hab with ⟨-, h1, h2⟩ | ⟨-, h1, h2⟩ |
    ⟨-, h1, h2⟩ | ⟨-, h1, h2⟩
  · exact ⟨h.genIn a (h.genOf a (ne_zero_of_and_ne _ _ h1)),
      h.genIn b (h.genOf b (ne_zero_of_and_ne _ _ h2))⟩
  · exact ⟨h.genIn a (h.genOf a (ne_zero_of_and_ne _ _ h2)),
      h.genIn b (h.genOf b (ne_zero_of_and_ne _ _ h1))⟩
  · exact ⟨h.genIn a (h.genOf a (ne_zero_of_and_ne _ _ h1)),
      h.genIn b (h.genOf b (ne_zero_of_and_ne _ _ h2))⟩
  · exact ⟨h.genIn a (h.genOf a (ne_zero_of_and_ne _ _ h2)),
      h.genIn b (h.genOf b (ne_zero_of_and_ne _ _ h1))⟩

theorem reach_toReachable {W H : Nat} {r : Cell} {o : OMap} {g : GMap}
    (h : TG W H r o g) : ∀ a b : Cell, Reach o a b →
    ∀ (ha1 : a.1 < W) (ha2 : a.2 < H) (hb1 : b.1 < W) (hb2 : b.2 < H),
      (mazeGraph W H o).Reachable (⟨a.1, ha1⟩, ⟨a.2, ha2⟩) (⟨b.1, hb1⟩, ⟨b.2, hb2⟩) := by
  intro a b hr
  induction hr with
  | refl =>
    intro ha1 ha2 hb1 hb2
    exact SimpleGraph.Reachable.refl _
  | tail hst hob ih =>
    rename_i b' c
    intro ha1 ha2 hc1 hc2
    obtain ⟨hb', hc'⟩ := openBetween_bounds h hob
    have ihr := ih ha1 ha2 hb'.1 hb'.2
    refine ihr.trans ?_
    have hadj : (mazeGraph W H o).Adj (⟨b'.1, hb'.1⟩, ⟨b'.2, hb'.2⟩)
        (⟨c.1, hc1⟩, ⟨c.2, hc2⟩) := by
      show openBetween o (b'.1, b'.2) (c.1, c.2) = true
      exact hob
    exact hadj.reachable

/-- The claim's spanning-tree property for a W×H wall state: the carved
passage graph is connected, has no cycles, and has exactly `W*H - 1`
edges. -/
def IsSpanningTree (W H : Nat) (o : OMap) : Prop :=
  (mazeGraph W H o).Connected ∧ (mazeGraph W H o).IsAcyclic ∧
    (mazeGraph W H o).edgeFinset.card + 1 = W * H

/-- A completed tree-growth state (all cells generated) is a spanning
tree. -/
theorem spanningTree_of_TG {W H : Nat} {r : Cell} {o : OMap} {g : GMap}
    (hW : 1 ≤ W) (hH : 1 ≤ H) (h : TG W H r o g)
    (hall : ∀ c : Cell, c.1 < W → c.2 < H → g c = true) : IsSpanningTree W H o := by
  haveI : Nonempty (Fin W × Fin H) := ⟨(⟨0, hW⟩, ⟨0, hH⟩)⟩
  have hpre : (mazeGraph W H o).Preconnected := by
    intro u v
    have hru := reach_toReachable h r (u.1.val, u.2.val)
      (h.reach _ (hall _ u.1.isLt u.2.isLt)) h.rootIn.1 h.rootIn.2 u.1.isLt u.2.isLt
    have hrv := reach_toReachable h r (v.1.val, v.2.val)
      (h.reach _ (hall _ v.1.isLt v.2.isLt)) h.rootIn.1 h.rootIn.2 v.1.isLt v.2.isLt
    exact hru.symm.trans hrv
  have hconn : (mazeGraph W H o).Connected := by
    rw [SimpleGraph.connected_iff]
    exact ⟨hpre, inferInstance⟩
  have hgc : genCount W H g = W * H := by
    unfold genCount
    rw [Finset.filter_true_of_mem
      (fun x hx => hall x ((mem_gridFinset W H x).mp hx).1 ((mem_gridFinset W H x).mp hx).2)]
    rw [gridFinset, Finset.card_product]
    simp [Finset.card_range]
  have hsum : ∑ v, (mazeGraph W H o).degree v = popSum W H o := by
    rw [Finset.sum_congr rfl (fun v _ => degree_eq_popcount4 h v)]
    exact sum_popcount_fin o
  have h2e := (mazeGraph W H o).sum_degrees_eq_twice_card_edges
  have hcnt := h.count
  have hedge : (mazeGraph W H o).edgeFinset.card + 1 = W * H := by
    rw [hsum] at h2e
    omega
  refine ⟨hconn, ?_, hedge⟩
  apply isAcyclic_of_connected_ncard _ hconn
  have hncard : (mazeGraph W H o).edgeSet.ncard = (mazeGraph W H o).edgeFinset.card :=
    Set.ncard_eq_toFinset_card' _
  rw [hncard, hedge, Fintype.card_prod, Fintype.card_fin, Fintype.card_fin]

theorem updG_true_mono (g : GMap) (n c : Cell) (h : g c = true) :
    updG g n true c = true := by
  by_cases hc : c = n
  · rw [hc, updG_self]
  · rw [updG_other _ _ _ _ hc]; exact h

theorem getD_mod_mem (l : List Cell) (i : Nat) (d : Cell) (hl : l.length ≠ 0) :
    l.getD (i % l.length) d ∈ l := by
  have hlt : i % l.length < l.length := Nat.mod_lt _ (Nat.pos_of_ne_zero hl)
  rw [List.getD, List.get?_eq_get hlt]
  exact List.get_mem l _ _

theorem gridFinset_card (W H : Nat) : (gridFinset W H).card = W * H := by
  rw [gridFinset, Finset.card_product]
  simp

theorem genCount_le (W H : Nat) (g : GMap) : genCount W H g ≤ W * H := by
  unfold genCount
  calc ((gridFinset W H).filter (fun c => g c = true)).card
      ≤ (gridFinset W H).card := Finset.card_filter_le _ _
    _ = W * H := gridFinset_card W H

theorem genCount_lt_of_fresh (W H : Nat) (g : GMap) (n : Cell)
    (hn : n ∈ gridFinset W H) (hfresh : g n = false) : genCount W H g < W * H := by
  unfold genCount
  have hsub : (gridFinset W H).filter (fun c => g c = true) ⊂ gridFinset W H := by
    rw [Finset.ssubset_iff_of_subset (Finset.filter_subset _ _)]
    exact ⟨n, hn, by simp [Finset.mem_filter, hfresh]⟩
  have hlt := Finset.card_lt_card hsub
  have hcard := gridFinset_card W H
  omega

theorem genCount_single (W H : Nat) (r : Cell) (hr1 : r.1 < W) (hr2 : r.2 < H) :
    genCount W H (updG (fun _ => false) r true) = 1 := by
  unfold genCount
  rw [Finset.card_eq_one]
  refine ⟨r, ?_⟩
  ext x
  simp only [Finset.mem_filter, Finset.mem_singleton, mem_gridFinset]
  constructor
  · rintro ⟨-, hx⟩
    by_cases hx0 : x = r
    · exact hx0
    · rw [updG_other _ _ _ _ hx0] at hx
      exact absurd hx (by simp)
  · rintro rfl
    exact ⟨⟨hr1, hr2⟩, updG_self _ _ _⟩

theorem popSum_zero (W H : Nat) : popSum W H (fun _ => 0) = 0 := by
  unfold popSum
  apply Finset.sum_eq_zero
  intro x _
  simp [popcount4]

/-- The initial tree-growth state: no passages carved, only the root
generated. -/
theorem TG.start {W H : Nat} {r : Cell} (hr1 : r.1 < W) (hr2 : r.2 < H) :
    TG W H r (fun _ => 0) (updG (fun _ => false) r true) := by
  have hgen : ∀ c : Cell, updG (fun _ => false) r true c = true → c = r := by
    intro c hc
    by_cases h0 : c = r
    · exact h0
    · rw [updG_other _ _ _ _ h0] at hc
      exact absurd hc (by simp)
  constructor
  · exact ⟨hr1, hr2⟩
  · exact updG_self _ _ _
  · intro c hc
    rw [hgen c hc]
    exact ⟨hr1, hr2⟩
  · intro c _
    rfl
  · intro c
    norm_num
  · intro c hc
    exact absurd rfl hc
  · intro c hc
    exact absurd rfl hc
  · intro c hc
    exact absurd rfl hc
  · intro c hc
    exact absurd rfl hc
  · intro c hc
    rw [hgen c hc]
    exact Relation.ReflTransGen.refl
  · rw [popSum_zero, genCount_single W H r hr1 hr2]

/-- State of `recursiveBacktracker`: wall bitmasks, generated map, the DFS
stack (head = top), and the stream position. -/
structure RBState where
  walls : OMap
  gen : GMap
  stack : List Cell
  k : Nat

/-- The main loop of `recursiveBacktracker`, one iteration per fuel unit:
look at the top of the stack; if it has unvisited neighbours, carve to a
random one and push it, else pop. -/
def rbRun (W H : Nat) (s : RS) : Nat → RBState → Option RBState
  | _, ⟨o, g, [], k⟩ => some ⟨o, g, [], k⟩
  | 0, ⟨_, _, _ :: _, _⟩ => none
  | fuel + 1, ⟨o, g, current :: rest, k⟩ =>
    let ns := (neighborsOf W H current).filter (fun c => !g c)
    if ns.length ≠ 0 then
      let next := ns.getD (s k % ns.length) current
      rbRun W H s fuel
        ⟨carvePassage o current next, updG g next true, next :: current :: rest, k + 1⟩
    else rbRun W H s fuel ⟨o, g, rest, k⟩

def rbFuel (W H : Nat) : Nat := 2 * (W * H) + 1

/-- `recursiveBacktracker(visualizer)`: starts at `this.start = (0,0)`. -/
def recursiveBacktracker (W H : Nat) (s : RS) (fuel : Nat) : Option RBState :=
  rbRun W H s fuel ⟨fun _ => 0, updG (fun _ => false) (0, 0) true, [(0, 0)], 0⟩

structure RBInv (W H : Nat) (o : OMap) (g : GMap) (stack : List Cell) : Prop where
  tg : TG W H (0, 0) o g
  stackGen : ∀ c ∈ stack, g c = true
  closed : ∀ c : Cell, g c = true → c ∉ stack →
    ∀ n ∈ neighborsOf W H c, g n = true

theorem rbRun_ok (W H : Nat) (s : RS) : ∀ fuel o g stack k, RBInv W H o g stack →
    2 * (W * H - genCount W H g) + stack.length ≤ fuel →
    ∃ st' : RBState, rbRun W H s fuel ⟨o, g, stack, k⟩ = some st' ∧
      RBInv W H st'.walls st'.gen st'.stack ∧ st'.stack = [] := by
  intro fuel
  induction fuel with
  | zero =>
    intro o g stack k hinv hm
    have hlen : stack.length = 0 := by omega
    have hstack := List.length_eq_zero.mp hlen
    subst hstack
    exact ⟨⟨o, g, [], k⟩, rfl, hinv, rfl⟩
  | succ fuel ih =>
    intro o g stack k hinv hm
    rcases stack with _ | ⟨current, rest⟩
    · exact ⟨⟨o, g, [], k⟩, rfl, hinv, rfl⟩
    · have hcur_gen : g current = true :=
        hinv.stackGen current (List.mem_cons_self _ _)
      by_cases hne : ((neighborsOf W H current).filter (fun c => !g c)).length ≠ 0
      · -- carve and push
        set ns := (neighborsOf W H current).filter (fun c => !g c) with hns
        set next := ns.getD (s k % ns.length) current with hnext
        have hmem_ns : next ∈ ns := getD_mod_mem ns (s k) current hne
        have hmem_filter := List.mem_filter.mp (hns ▸ hmem_ns)
        have hmemN : next ∈ neighborsOf W H current := hmem_filter.1
        have hfresh : g next = false := by
          have := hmem_filter.2
          simpa using this
        have hnin : next.1 < W ∧ next.2 < H := (mem_neighborsOf.mp hmemN).1
        have hngrid : next ∈ gridFinset W H := (mem_gridFinset W H next).mpr hnin
        have htg' := hinv.tg.carveStep hcur_gen hfresh hmemN
        have hgcnew := genCount_updG_true W H g next hngrid hfresh
        have hgclt := genCount_lt_of_fresh W H g next hngrid hfresh
        have hinv1 : RBInv W H (carvePassage o current next) (updG g next true)
            (next :: current :: rest) := by
          constructor
          · exact htg'
          · intro c hc
            simp only [List.mem_cons] at hc
            rcases hc with rfl | rfl | hc
            · exact updG_self _ _ _
            · exact updG_true_mono _ _ _ hcur_gen
            · exact updG_true_mono _ _ _
                (hinv.stackGen c (List.mem_cons_of_mem _ hc))
          · intro c hc hcn n hn
            simp only [List.mem_cons, not_or] at hcn
            rw [updG_other _ _ _ _ hcn.1] at hc
            have hcn_old : c ∉ current :: rest := by
              simp only [List.mem_cons, not_or]
              exact ⟨hcn.2.1, hcn.2.2⟩
            exact updG_true_mono _ _ _ (hinv.closed c hc hcn_old n hn)
        have hm1 : 2 * (W * H - genCount W H (updG g next true)) +
            (next :: current :: rest).length ≤ fuel := by
          rw [hgcnew]
          simp only [List.length_cons] at hm ⊢
          omega
        obtain ⟨st', hrun, hinv', hst'⟩ := ih _ _ _ (k + 1) hinv1 hm1
        refine ⟨st', ?_, hinv', hst'⟩
        rw [rbRun]
        rw [if_pos hne]
        exact hrun
      · -- pop
        have hns_nil : (neighborsOf W H current).filter (fun c => !g c) = [] := by
          rcases hfe : (neighborsOf W H current).filter (fun c => !g c) with _ | ⟨a, l⟩
          · rfl
          · rw [hfe] at hne
            simp at hne
        have hinv1 : RBInv W H o g rest := by
          constructor
          · exact hinv.tg
          · intro c hc
            exact hinv.stackGen c (List.mem_cons_of_mem _ hc)
          · intro c hc hcn n hn
            by_cases hcc : c = current
            · subst hcc
              have := List.filter_eq_nil.mp hns_nil n hn
              simpa using this
            · have hcn_old : c ∉ current :: rest := by
                simp only [List.mem_cons, not_or]
                exact ⟨hcc, hcn⟩
              exact hinv.closed c hc hcn_old n hn
        have hm1 : 2 * (W * H - genCount W H g) + rest.length ≤ fuel := by
          simp only [List.length_cons] at hm
          omega
        obtain ⟨st', hrun, hinv', hst'⟩ := ih _ _ _ k hinv1 hm1
        refine ⟨st', ?_, hinv', hst'⟩
        rw [rbRun]
        rw [if_neg hne]
        exact hrun

/-- `recursiveBacktracker` terminates within `rbFuel` steps on every stream,
and its final wall state is a spanning tree of the grid. -/
theorem recursiveBacktracker_spanning (W H : Nat) (s : RS) (hW : 1 ≤ W) (hH : 1 ≤ H) :
    ∃ st, recursiveBacktracker W H s (rbFuel W H) = some st ∧
      IsSpanningTree W H st.walls := by
  have hinv0 : RBInv W H (fun _ => 0) (updG (fun _ => false) (0, 0) true) [(0, 0)] := by
    constructor
    · exact TG.start hW hH
    · intro c hc
      simp only [List.mem_cons, List.not_mem_nil, or_false] at hc
      subst hc
      exact updG_self _ _ _
    · intro c hc hcn n hn
      exfalso
      apply hcn
      have hc00 : c = (0, 0) := by
        by_cases h0 : c = (0, 0)
        · exact h0
        · rw [updG_other _ _ _ _ h0] at hc
          exact absurd hc (by simp)
      rw [hc00]
      exact List.mem_cons_self _ _
  have hm0 : 2 * (W * H - genCount W H (updG (fun _ => false) (0, 0) true)) +
      ([(0, 0)] : List Cell).length ≤ rbFuel W H := by
    unfold rbFuel
    have h1 := genCount_single W H (0, 0) hW hH
    simp only [List.length_cons, List.length_nil]
    omega
  obtain ⟨st', hrun, hinv', hst'⟩ := rbRun_ok W H s (rbFuel W H) _ _ _ 0 hinv0 hm0
  refine ⟨st', hrun, ?_⟩
  apply spanningTree_of_TG hW hH hinv'.tg
  apply gen_all_of_closed hinv'.tg.rootGen hinv'.tg.rootIn
  intro c hcg n hn
  exact hinv'.closed c hcg (by rw [hst']; exact List.not_mem_nil c) n hn

theorem getD_mem_of_lt (l : List Cell) (i : Nat) (d : Cell) (h : i < l.length) :
    l.getD i d ∈ l := by
  rw [List.getD, List.get?_eq_get h]
  exact List.get_mem l _ _

theorem mem_eraseIdx_of_ne : ∀ (l : List Cell) (i : Nat) (c : Cell),
    c ∈ l → c ≠ l.getD i (0, 0) → c ∈ l.eraseIdx i := by
  intro l
  induction l with
  | nil => intro i c hc _; simp at hc
  | cons a t ih =>
    intro i c hc hne
    rcases i with _ | i
    · rw [List.eraseIdx_cons_zero]
      rcases List.mem_cons.mp hc with rfl | hc
      · exact absurd (List.getD_cons_zero).symm hne
      · exact hc
    · rw [List.eraseIdx_cons_succ]
      rcases List.mem_cons.mp hc with rfl | hc
      · exact List.mem_cons_self _ _
      · exact List.mem_cons_of_mem _ (ih i c hc (by simpa using hne))

/-- The index selection of `growingTreeRightWall`: with bias pick the newest
cell (one stream read), otherwise a random index (two stream reads).
Returns the index and the next stream position. -/
def gtPick (s : RS) (k len : Nat) : Nat × Nat :=
  if s k % 2 = 0 then (len - 1, k + 1) else (s (k + 1) % len, k + 2)

theorem gtPick_lt (s : RS) (k len : Nat) (h : len ≠ 0) : (gtPick s k len).1 < len := by
  unfold gtPick
  split_ifs
  · dsimp only
    omega
  · dsimp only
    exact Nat.mod_lt _ (by omega)

/-- The main loop of `growingTreeRightWall`: pick a cell from the active
list (newest with bias 0.75), carve to an unvisited neighbour (east
preferred) and append it, or splice the cell out if it has none. -/
def gtRun (W H : Nat) (s : RS) : Nat → OMap → GMap → List Cell → Nat → Option (OMap × GMap)
  | _, o, g, [], _ => some (o, g)
  | 0, _, _, _ :: _, _ => none
  | fuel + 1, o, g, l0 :: lrest, k =>
    let index := (gtPick s k (l0 :: lrest).length).1
    let k1 := (gtPick s k (l0 :: lrest).length).2
    let current := (l0 :: lrest).getD index (0, 0)
    let ns := (neighborsOf W H current).filter (fun c => !g c)
    if ns.length ≠ 0 then
      let eastPreferred := ns.filter (fun c => decide (c.1 = current.1 + 1))
      let ns2 := if eastPreferred.length ≠ 0 then eastPreferred else ns
      let next := ns2.getD (s k1 % ns2.length) current
      gtRun W H s fuel (carvePassage o current next) (updG g next true)
        ((l0 :: lrest) ++ [next]) (k1 + 1)
    else gtRun W H s fuel o g ((l0 :: lrest).eraseIdx index) k1

/-- `growingTreeRightWall(visualizer)`: random start cell, then the growing
tree loop. -/
def growingTreeRightWall (W H : Nat) (s : RS) (fuel : Nat) : Option (OMap × GMap) :=
  gtRun W H s fuel (fun _ => 0) (updG (fun _ => false) (s 0 % W, s 1 % H) true)
    [(s 0 % W, s 1 % H)] 2

def gtFuel (W H : Nat) : Nat := 2 * (W * H) + 1

structure GTInv (W H : Nat) (r : Cell) (o : OMap) (g : GMap) (act : List Cell) : Prop where
  tg : TG W H r o g
  actGen : ∀ c ∈ act, g c = true
  closed : ∀ c : Cell, g c = true → c ∉ act → ∀ n ∈ neighborsOf W H c, g n = true

theorem gtRun_ok (W H : Nat) (s : RS) (r : Cell) : ∀ fuel o g act k,
    GTInv W H r o g act →
    2 * (W * H - genCount W H g) + act.length ≤ fuel →
    ∃ og : OMap × GMap, gtRun W H s fuel o g act k = some og ∧
      GTInv W H r og.1 og.2 [] := by
  intro fuel
  induction fuel with
  | zero =>
    intro o g act k hinv hm
    have hlen : act.length = 0 := by omega
    have hact := List.length_eq_zero.mp hlen
    subst hact
    exact ⟨(o, g), rfl, hinv⟩
  | succ fuel ih =>
    intro o g act k hinv hm
    rcases act with _ | ⟨l0, lrest⟩
    · exact ⟨(o, g), rfl, hinv⟩
    · have hlen0 : (l0 :: lrest).length ≠ 0 := by simp
      set index := (gtPick s k (l0 :: lrest).length).1 with hindex
      set k1 := (gtPick s k (l0 :: lrest).length).2 with hk1
      have hidx_lt : index < (l0 :: lrest).length := gtPick_lt s k _ hlen0
      set current := (l0 :: lrest).getD index (0, 0) with hcurrent
      have hcur_mem : current ∈ l0 :: lrest := getD_mem_of_lt _ _ _ hidx_lt
      have hcur_gen : g current = true := hinv.actGen current hcur_mem
      by_cases hne : ((neighborsOf W H current).filter (fun c => !g c)).length ≠ 0
      · -- carve and append
        set ns := (neighborsOf W H current).filter (fun c => !g c) with hns
        set eastPreferred := ns.filter (fun c => decide (c.1 = current.1 + 1)) with heast
        set ns2 := (if eastPreferred.length ≠ 0 then eastPreferred else ns) with hns2
        have hns2sub : ∀ x ∈ ns2, x ∈ ns := by
          intro x hx
          rw [hns2] at hx
          split_ifs at hx
          · exact List.mem_of_mem_filter hx
          · exact hx
        have hns2len : ns2.length ≠ 0 := by
          rw [hns2]
          split_ifs with hel
          · exact hel
          · exact hne
        set next := ns2.getD (s k1 % ns2.length) current with hnext
        have hmem_ns2 : next ∈ ns2 := getD_mod_mem ns2 (s k1) current hns2len
        have hmem_filter := List.mem_filter.mp (hns2sub next hmem_ns2)
        have hmemN : next ∈ neighborsOf W H current := hmem_filter.1
        have hfresh : g next = false := by
          have := hmem_filter.2
          simpa using this
        have hnin : next.1 < W ∧ next.2 < H := (mem_neighborsOf.mp hmemN).1
        have hngrid : next ∈ gridFinset W H := (mem_gridFinset W H next).mpr hnin
        have htg' := hinv.tg.carveStep hcur_gen hfresh hmemN
        have hgcnew := genCount_updG_true W H g next hngrid hfresh
        have hgclt := genCount_lt_of_fresh W H g next hngrid hfresh
        have hinv1 : GTInv W H r (carvePassage o current next) (updG g next true)
            ((l0 :: lrest) ++ [next]) := by
          constructor
          · exact htg'
          · intro c hc
            rcases List.mem_append.mp hc with hc | hc
            · exact updG_true_mono _ _ _ (hinv.actGen c hc)
            · rw [List.mem_singleton.mp hc]
              exact updG_self _ _ _
          · intro c hc hcn n hn
            have hc_ne : c ≠ next := by
              intro he
              apply hcn
              rw [he]
              exact List.mem_append.mpr (Or.inr (List.mem_singleton.mpr rfl))
            rw [updG_other _ _ _ _ hc_ne] at hc
            have hcn_old : c ∉ l0 :: lrest := by
              intro hmem
              exact hcn (List.mem_append.mpr (Or.inl hmem))
            exact updG_true_mono _ _ _ (hinv.closed c hc hcn_old n hn)
        have hm1 : 2 * (W * H - genCount W H (updG g next true)) +
            ((l0 :: lrest) ++ [next]).length ≤ fuel := by
          rw [hgcnew]
          rw [List.length_append]
          simp only [List.length_cons, List.length_nil, List.length_cons] at hm ⊢
          omega
        obtain ⟨og, hrun, hinv'⟩ := ih _ _ _ (k1 + 1) hinv1 hm1
        refine ⟨og, ?_, hinv'⟩
        rw [gtRun]
        rw [if_pos hne]
        exact hrun
      · -- splice out
        have hns_nil : (neighborsOf W H current).filter (fun c => !g c) = [] := by
          rcases hfe : (neighborsOf W H current).filter (fun c => !g c) with _ | ⟨a, l⟩
          · rfl
          · rw [hfe] at hne
            simp at hne
        have hinv1 : GTInv W H r o g ((l0 :: lrest).eraseIdx index) := by
          constructor
          · exact hinv.tg
          · intro c hc
            exact hinv.actGen c (List.mem_of_mem_eraseIdx hc)
          · intro c hc hcn n hn
            by_cases hcc : c = current
            · subst hcc
              have := List.filter_eq_nil.mp hns_nil n hn
              simpa using this
            · have hcn_old : c ∉ l0 :: lrest := by
                intro hmem
                exact hcn (mem_eraseIdx_of_ne _ index c hmem hcc)
              exact hinv.closed c hc hcn_old n hn
        have hm1 : 2 * (W * H - genCount W H g) +
            ((l0 :: lrest).eraseIdx index).length ≤ fuel := by
          rw [List.length_eraseIdx_of_lt hidx_lt]
          simp only [List.length_cons] at hm ⊢
          omega
        obtain ⟨og, hrun, hinv'⟩ := ih _ _ _ k1 hinv1 hm1
        refine ⟨og, ?_, hinv'⟩
        rw [gtRun]
        rw [if_neg hne]
        exact hrun

/-- `growingTreeRightWall` terminates within `gtFuel` steps on every stream,
and its final wall state is a spanning tree of the grid. -/
theorem growingTreeRightWall_spanning (W H : Nat) (s : RS) (hW : 1 ≤ W) (hH : 1 ≤ H) :
    ∃ og : OMap × GMap, growingTreeRightWall W H s (gtFuel W H) = some og ∧
      IsSpanningTree W H og.1 := by
  have hr1 : s 0 % W < W := Nat.mod_lt _ (by omega)
  have hr2 : s 1 % H < H := Nat.mod_lt _ (by omega)
  have hinv0 : GTInv W H (s 0 % W, s 1 % H) (fun _ => 0)
      (updG (fun _ => false) (s 0 % W, s 1 % H) true) [(s 0 % W, s 1 % H)] := by
    constructor
    · exact TG.start hr1 hr2
    · intro c hc
      simp only [List.mem_cons, List.not_mem_nil, or_false] at hc
      subst hc
      exact updG_self _ _ _
    · intro c hc hcn n hn
      exfalso
      apply hcn
      have hcr : c = (s 0 % W, s 1 % H) := by
        by_cases h0 : c = (s 0 % W, s 1 % H)
        · exact h0
        · rw [updG_other _ _ _ _ h0] at hc
          exact absurd hc (by simp)
      rw [hcr]
      exact List.mem_cons_self _ _
  have hm0 : 2 * (W * H - genCount W H (updG (fun _ => false) (s 0 % W, s 1 % H) true)) +
      ([(s 0 % W, s 1 % H)] : List Cell).length ≤ gtFuel W H := by
    unfold gtFuel
    have h1 := genCount_single W H (s 0 % W, s 1 % H) hr1 hr2
    simp only [List.length_cons, List.length_nil]
    omega
  obtain ⟨og, hrun, hinv'⟩ := gtRun_ok W H s (s 0 % W, s 1 % H) (gtFuel W H) _ _ _ 2 hinv0 hm0
  refine ⟨og, hrun, ?_⟩
  apply spanningTree_of_TG hW hH hinv'.tg
  apply gen_all_of_closed hinv'.tg.rootGen hinv'.tg.rootIn
  intro c hcg n hn
  exact hinv'.closed c hcg (List.not_mem_nil c) n hn

theorem updO2_comm (o : OMap) (a b : Cell) (va vb : Nat) (hab : a ≠ b) :
    updO (updO o a va) b vb = updO (updO o b vb) a va := by
  funext x
  by_cases hxb : x = b
  · rw [hxb, updO_self, updO_other _ _ _ _ (Ne.symm hab), updO_self]
  · rw [updO_other _ _ _ _ hxb]
    by_cases hxa : x = a
    · rw [hxa, updO_self, updO_self]
    · rw [updO_other _ _ _ _ hxa, updO_other _ _ _ _ hxa, updO_other _ _ _ _ hxb]

/-- `carvePassage(cell, neighbor)` carves the same pair of wall flags as
`carvePassage(neighbor, cell)`. -/
theorem carvePassage_comm (o : OMap) (a b : Cell) :
    carvePassage o a b = carvePassage o b a := by
  simp only [carvePassage]
  split_ifs <;>
    first
      | rfl
      | omega
      | (apply updO2_comm
         intro he
         subst he
         omega)

theorem mem_gridList (W H : Nat) (c : Cell) :
    c ∈ gridList W H ↔ c.1 < W ∧ c.2 < H := by
  rcases c with ⟨x, y⟩
  simp only [gridList, List.mem_flatMap, List.mem_map, List.mem_range]
  constructor
  · rintro ⟨y', hy', x', hx', he⟩
    rw [Prod.ext_iff] at he
    dsimp only at he
    omega
  · rintro ⟨hx, hy⟩
    exact ⟨y, hy, x, hx, rfl⟩

theorem neighborsOf_symm {W H : Nat} {c n : Cell} (hc : c.1 < W ∧ c.2 < H)
    (h : n ∈ neighborsOf W H c) : c ∈ neighborsOf W H n := by
  obtain ⟨hb, hsh⟩ := mem_neighborsOf.mp h
  apply mem_neighborsOf.mpr
  refine ⟨hc, ?_⟩
  tauto

/-- The hunt scan of `huntAndKill`: the first unvisited cell in row-major
order that has a visited neighbour. -/
def huntScan (W H : Nat) (g : GMap) : Option Cell :=
  (gridList W H).find?
    (fun c => !g c && !((neighborsOf W H c).filter (fun n => g n)).isEmpty)

/-- The main loop of `huntAndKill`: random walk carving into unvisited
neighbours; when stuck, hunt for the first unvisited cell adjacent to a
visited one, carve to a random visited neighbour, and continue from it;
stop when the hunt finds nothing. -/
def hkRun (W H : Nat) (s : RS) : Nat → OMap → GMap → Cell → Nat → Option (OMap × GMap)
  | 0, _, _, _, _ => none
  | fuel + 1, o, g, current, k =>
    let ns := (neighborsOf W H current).filter (fun c => !g c)
    if ns.length ≠ 0 then
      let next := ns.getD (s k % ns.length) current
      hkRun W H s fuel (carvePassage o current next) (updG g next true) next (k + 1)
    else
      match huntScan W H g with
      | none => some (o, g)
      | some cell =>
        let vns := (neighborsOf W H cell).filter (fun n => g n)
        let vn := vns.getD (s k % vns.length) cell
        hkRun W H s fuel (carvePassage o cell vn) (updG g cell true) cell (k + 1)

def hkFuel (W H : Nat) : Nat := W * H + 1

/-- `huntAndKill(visualizer)`: random start cell, then the walk/hunt loop. -/
def huntAndKill (W H : Nat) (s : RS) (fuel : Nat) : Option (OMap × GMap) :=
  hkRun W H s fuel (fun _ => 0) (updG (fun _ => false) (s 0 % W, s 1 % H) true)
    (s 0 % W, s 1 % H) 2

theorem hkRun_ok (W H : Nat) (s : RS) (r : Cell) : ∀ fuel o g current k,
    TG W H r o g → g current = true → (W * H + 1) - genCount W H g ≤ fuel →
    ∃ og : OMap × GMap, hkRun W H s fuel o g current k = some og ∧ TG W H r og.1 og.2 ∧
      (∀ c : Cell, og.2 c = true → ∀ n ∈ neighborsOf W H c, og.2 n = true) := by
  intro fuel
  induction fuel with
  | zero =>
    intro o g current k htg hcur hm
    have hle := genCount_le W H g
    omega
  | succ fuel ih =>
    intro o g current k htg hcur hm
    by_cases hne : ((neighborsOf W H current).filter (fun c => !g c)).length ≠ 0
    · -- walk carve
      set ns := (neighborsOf W H current).filter (fun c => !g c) with hns
      set next := ns.getD (s k % ns.length) current with hnext
      have hmem_ns : next ∈ ns := getD_mod_mem ns (s k) current hne
      have hmem_filter := List.mem_filter.mp (hns ▸ hmem_ns)
      have hmemN : next ∈ neighborsOf W H current := hmem_filter.1
      have hfresh : g next = false := by
        have := hmem_filter.2
        simpa using this
      have hnin : next.1 < W ∧ next.2 < H := (mem_neighborsOf.mp hmemN).1
      have hngrid : next ∈ gridFinset W H := (mem_gridFinset W H next).mpr hnin
      have htg' := htg.carveStep hcur hfresh hmemN
      have hgcnew := genCount_updG_true W H g next hngrid hfresh
      have hm1 : (W * H + 1) - genCount W H (updG g next true) ≤ fuel := by
        rw [hgcnew]
        omega
      obtain ⟨og, hrun, htg2, hcl⟩ := ih _ _ next (k + 1) htg' (updG_self _ _ _) hm1
      refine ⟨og, ?_, htg2, hcl⟩
      rw [hkRun]
      rw [if_pos hne]
      exact hrun
    · -- hunt
      rcases hscan : huntScan W H g with _ | cell
      · -- nothing left: closure holds
        refine ⟨(o, g), ?_, htg, ?_⟩
        · rw [hkRun]
          rw [if_neg hne, hscan]
        · intro c hc n hn
          have hc' : g c = true := hc
          by_cases hgn : g n = true
          · exact hgn
          · exfalso
            have hnb := (mem_neighborsOf.mp hn).1
            have hnl : n ∈ gridList W H := (mem_gridList W H n).mpr hnb
            have hnone := List.find?_eq_none.mp hscan n hnl
            apply hnone
            have hgnf : g n = false := by
              rcases hb : g n
              · rfl
              · exact absurd hb hgn
            rw [hgnf]
            have hcb := htg.genIn c hc'
            have hcn : c ∈ neighborsOf W H n := neighborsOf_symm hcb hn
            have hne2 : (neighborsOf W H n).filter (fun m => g m) ≠ [] := by
              intro hnil
              have := List.filter_eq_nil.mp hnil c hcn
              simp [hc'] at this
            simp only [Bool.not_false, Bool.true_and, Bool.not_eq_true',
          List.isEmpty_eq_false]
            exact hne2
      · -- hunt found a cell
        have hpred := List.find?_some hscan
        have hcell_mem := List.mem_of_find?_eq_some hscan
        have hcell_b : cell.1 < W ∧ cell.2 < H := (mem_gridList W H cell).mp hcell_mem
        simp only [Bool.and_eq_true, Bool.not_eq_true', List.isEmpty_eq_false] at hpred
        have hcell_fresh : g cell = false := hpred.1
        have hvns_ne : (neighborsOf W H cell).filter (fun n => g n) ≠ [] := hpred.2
        set vns := (neighborsOf W H cell).filter (fun n => g n) with hvns
        have hvns_len : vns.length ≠ 0 := by
          intro h0
          exact hvns_ne (List.length_eq_zero.mp h0)
        set vn := vns.getD (s k % vns.length) cell with hvn
        have hmem_vns : vn ∈ vns := getD_mod_mem vns (s k) cell hvns_len
        have hmem_filter := List.mem_filter.mp (hvns ▸ hmem_vns)
        have hvnN : vn ∈ neighborsOf W H cell := hmem_filter.1
        have hvn_gen : g vn = true := by
          have := hmem_filter.2
          simpa using this
        have hcellN : cell ∈ neighborsOf W H vn := neighborsOf_symm hcell_b hvnN
        have htg' : TG W H r (carvePassage o cell vn) (updG g cell true) := by
          rw [carvePassage_comm]
          exact htg.carveStep hvn_gen hcell_fresh hcellN
        have hcgrid : cell ∈ gridFinset W H := (mem_gridFinset W H cell).mpr hcell_b
        have hgcnew := genCount_updG_true W H g cell hcgrid hcell_fresh
        have hm1 : (W * H + 1) - genCount W H (updG g cell true) ≤ fuel := by
          rw [hgcnew]
          omega
        obtain ⟨og, hrun, htg2, hcl⟩ := ih _ _ cell (k + 1) htg' (updG_self _ _ _) hm1
        refine ⟨og, ?_, htg2, hcl⟩
        rw [hkRun]
        rw [if_neg hne, hscan]
        exact hrun

/-- `huntAndKill` terminates within `hkFuel` steps on every stream, and its
final wall state is a spanning tree of the grid. -/
theorem huntAndKill_spanning (W H : Nat) (s : RS) (hW : 1 ≤ W) (hH : 1 ≤ H) :
    ∃ og : OMap × GMap, huntAndKill W H s (hkFuel W H) = some og ∧
      IsSpanningTree W H og.1 := by
  have hr1 : s 0 % W < W := Nat.mod_lt _ (by omega)
  have hr2 : s 1 % H < H := Nat.mod_lt _ (by omega)
  have htg0 : TG W H (s 0 % W, s 1 % H) (fun _ => 0)
      (updG (fun _ => false) (s 0 % W, s 1 % H) true) := TG.start hr1 hr2
  have hm0 : (W * H + 1) - genCount W H (updG (fun _ => false) (s 0 % W, s 1 % H) true) ≤
      hkFuel W H := by
    unfold hkFuel
    omega
  obtain ⟨og, hrun, htg', hcl⟩ :=
    hkRun_ok W H s (s 0 % W, s 1 % H) (hkFuel W H) _ _ _ 2 htg0 (updG_self _ _ _) hm0
  refine ⟨og, hrun, ?_⟩
  apply spanningTree_of_TG hW hH htg'
  exact gen_all_of_closed htg'.rootGen htg'.rootIn hcl

/-- The wall-symmetry core of `TG`, independent of the generated map:
masks are 4-bit and carved openings are mirrored between in-bounds
adjacent cells. -/
structure Sym4 (W H : Nat) (o : OMap) : Prop where
  lt16 : ∀ c : Cell, o c < 16
  symE : ∀ c : Cell, o c &&& 2 ≠ 0 → c.1 + 1 < W ∧ o (c.1 + 1, c.2) &&& 8 ≠ 0
  symW : ∀ c : Cell, o c &&& 8 ≠ 0 → ∃ d : Cell, c = (d.1 + 1, d.2) ∧ o d &&& 2 ≠ 0
  symS : ∀ c : Cell, o c &&& 4 ≠ 0 → c.2 + 1 < H ∧ o (c.1, c.2 + 1) &&& 1 ≠ 0
  symN : ∀ c : Cell, o c &&& 1 ≠ 0 → ∃ d : Cell, c = (d.1, d.2 + 1) ∧ o d &&& 4 ≠ 0

theorem TG.toSym4 {W H : Nat} {r : Cell} {o : OMap} {g : GMap} (h : TG W H r o g) :
    Sym4 W H o :=
  ⟨h.lt16, h.symE, h.symW, h.symS, h.symN⟩

theorem Sym4.openE {W H : Nat} {o : OMap} (h : Sym4 W H o) (c : Cell)
    (hE : c.1 + 1 < W) (hcH : c.2 < H) (hfwd : o c &&& 2 = 0) :
    Sym4 W H (carvePassage o c (c.1 + 1, c.2)) ∧
    popSum W H (carvePassage o c (c.1 + 1, c.2)) = popSum W H o + 2 ∧
    (∀ p m, o p &&& m ≠ 0 → carvePassage o c (c.1 + 1, c.2) p &&& m ≠ 0) ∧
    openBetween (carvePassage o c (c.1 + 1, c.2)) c (c.1 + 1, c.2) = true ∧
    (∀ x : Cell, x ≠ c → x ≠ (c.1 + 1, c.2) →
      carvePassage o c (c.1 + 1, c.2) x = o x) ∧
    carvePassage o c (c.1 + 1, c.2) c = o c ||| 2 ∧
    carvePassage o c (c.1 + 1, c.2) (c.1 + 1, c.2) = o (c.1 + 1, c.2) ||| 8 := by
  set n : Cell := (c.1 + 1, c.2) with hn
  have hcn : c ≠ n := by
    intro he; rw [hn, Prod.ext_iff] at he; omega
  have hmir : o n &&& 8 = 0 := by
    by_cases hb : o n &&& 8 = 0
    · exact hb
    · obtain ⟨d, hd, hm⟩ := h.symW n hb
      have hdc : d = c := by
        rw [hn] at hd; rw [Prod.ext_iff] at hd ⊢; omega
      rw [hdc] at hm
      exact absurd hfwd hm
  have hco : carvePassage o c n = updO (updO o c (o c ||| 2)) n (o n ||| 8) := by
    simp only [carvePassage]
    rw [if_pos (by constructor <;> push_cast <;> omega)]
  set o' : OMap := updO (updO o c (o c ||| 2)) n (o n ||| 8) with ho'
  have ho'c : o' c = o c ||| 2 := by
    rw [ho', updO_other _ _ _ _ hcn, updO_self]
  have ho'n : o' n = o n ||| 8 := by rw [ho', updO_self]
  have ho'x : ∀ x : Cell, x ≠ c → x ≠ n → o' x = o x := by
    intro x hxc hxn
    rw [ho', updO_other _ _ _ _ hxn, updO_other _ _ _ _ hxc]
  have hmono : ∀ p m, o p &&& m ≠ 0 → o' p &&& m ≠ 0 := by
    intro p m hpm
    by_cases hpc : p = c
    · rw [hpc, ho'c]; exact and_ne_of_left _ _ _ (hpc ▸ hpm)
    · by_cases hpn : p = n
      · rw [hpn, ho'n]; exact and_ne_of_left _ _ _ (hpn ▸ hpm)
      · rw [ho'x p hpc hpn]; exact hpm
  have hsym' : Sym4 W H o' := by
    constructor
    · intro x
      by_cases hxc : x = c
      · rw [hxc, ho'c]; exact or_lt_16 _ _ (h.lt16 c) (by decide)
      · by_cases hxn : x = n
        · rw [hxn, ho'n]; exact or_lt_16 _ _ (h.lt16 n) (by decide)
        · rw [ho'x x hxc hxn]; exact h.lt16 x
    · -- symE
      intro x hx
      by_cases hxc : x = c
      · subst hxc
        refine ⟨hE, ?_⟩
        rw [← hn, ho'n]
        exact and_ne_of_right _ _ _ (by decide)
      · by_cases hxn : x = n
        · subst hxn
          rw [ho'n] at hx
          rcases and_ne_split _ _ _ hx with hx' | hx'
          · obtain ⟨hb, hm⟩ := h.symE n hx'
            exact ⟨hb, hmono _ _ hm⟩
          · exact absurd hx' (by decide)
        · rw [ho'x x hxc hxn] at hx
          obtain ⟨hb, hm⟩ := h.symE x hx
          exact ⟨hb, hmono _ _ hm⟩
    · -- symW
      intro x hx
      by_cases hxn : x = n
      · subst hxn
        refine ⟨c, hn, ?_⟩
        rw [ho'c]
        exact and_ne_of_right _ _ _ (by decide)
      · by_cases hxc : x = c
        · subst hxc
          rw [ho'c] at hx
          rcases and_ne_split _ _ _ hx with hx' | hx'
          · obtain ⟨d, hd, hm⟩ := h.symW x hx'
            exact ⟨d, hd, hmono _ _ hm⟩
          · exact absurd hx' (by decide)
        · rw [ho'x x hxc hxn] at hx
          obtain ⟨d, hd, hm⟩ := h.symW x hx
          exact ⟨d, hd, hmono _ _ hm⟩
    · -- symS
      intro x hx
      by_cases hxc : x = c
      · subst hxc
        rw [ho'c] at hx
        rcases and_ne_split _ _ _ hx with hx' | hx'
        · obtain ⟨hb, hm⟩ := h.symS x hx'
          exact ⟨hb, hmono _ _ hm⟩
        · exact absurd hx' (by decide)
      · by_cases hxn : x = n
        · subst hxn
          rw [ho'n] at hx
          rcases and_ne_split _ _ _ hx with hx' | hx'
          · obtain ⟨hb, hm⟩ := h.symS n hx'
            exact ⟨hb, hmono _ _ hm⟩
          · exact absurd hx' (by decide)
        · rw [ho'x x hxc hxn] at hx
          obtain ⟨hb, hm⟩ := h.symS x hx
          exact ⟨hb, hmono _ _ hm⟩
    · -- symN
      intro x hx
      by_cases hxc : x = c
      · subst hxc
        rw [ho'c] at hx
        rcases and_ne_split _ _ _ hx with hx' | hx'
        · obtain ⟨d, hd, hm⟩ := h.symN x hx'
          exact ⟨d, hd, hmono _ _ hm⟩
        · exact absurd hx' (by decide)
      · by_cases hxn : x = n
        · subst hxn
          rw [ho'n] at hx
          rcases and_ne_split _ _ _ hx with hx' | hx'
          · obtain ⟨d, hd, hm⟩ := h.symN n hx'
            exact ⟨d, hd, hmono _ _ hm⟩
          · exact absurd hx' (by decide)
        · rw [ho'x x hxc hxn] at hx
          obtain ⟨d, hd, hm⟩ := h.symN x hx
          exact ⟨d, hd, hmono _ _ hm⟩
  have hpop : popSum W H o' = popSum W H o + 2 := by
    have hcmem : c ∈ gridFinset W H := (mem_gridFinset W H c).mpr ⟨by omega, hcH⟩
    have hnmem : n ∈ gridFinset W H := by
      rw [mem_gridFinset, hn]
      exact ⟨hE, hcH⟩
    have hsum := sum_comp_updO2 (gridFinset W H) popcount4 o c n
      (o c ||| 2) (o n ||| 8) hcmem hnmem hcn
    have hpc : popcount4 (o c ||| 2) = popcount4 (o c) + 1 :=
      (popcount4_or_fresh (o c) (h.lt16 c)).2.1 hfwd
    have hpn : popcount4 (o n ||| 8) = popcount4 (o n) + 1 :=
      (popcount4_or_fresh (o n) (h.lt16 n)).2.2.2 hmir
    rw [← ho'] at hsum
    unfold popSum
    omega
  have hob : openBetween o' c n = true := by
    rw [hn]
    apply openBetween_stepE o' c
    · rw [ho'c]; exact and_ne_of_right _ _ _ (by decide)
    · rw [← hn, ho'n]; exact and_ne_of_right _ _ _ (by decide)
  rw [hco]
  exact ⟨hsym', hpop, hmono, hob, ho'x, ho'c, ho'n⟩

theorem Sym4.openW {W H : Nat} {o : OMap} (h : Sym4 W H o) (n : Cell)
    (hW : n.1 + 1 < W) (hcH : n.2 < H) (hfwd : o (n.1 + 1, n.2) &&& 8 = 0) :
    Sym4 W H (carvePassage o (n.1 + 1, n.2) n) ∧
    popSum W H (carvePassage o (n.1 + 1, n.2) n) = popSum W H o + 2 ∧
    (∀ p m, o p &&& m ≠ 0 → carvePassage o (n.1 + 1, n.2) n p &&& m ≠ 0) ∧
    openBetween (carvePassage o (n.1 + 1, n.2) n) (n.1 + 1, n.2) n = true ∧
    (∀ x : Cell, x ≠ (n.1 + 1, n.2) → x ≠ n →
      carvePassage o (n.1 + 1, n.2) n x = o x) ∧
    carvePassage o (n.1 + 1, n.2) n (n.1 + 1, n.2) = o (n.1 + 1, n.2) ||| 8 ∧
    carvePassage o (n.1 + 1, n.2) n n = o n ||| 2 := by
  set c : Cell := (n.1 + 1, n.2) with hc
  have hcn : c ≠ n := by
    intro he; rw [hc, Prod.ext_iff] at he; omega
  have hmir : o n &&& 2 = 0 := by
    by_cases hb : o n &&& 2 = 0
    · exact hb
    · have := (h.symE n hb).2
      rw [← hc] at this
      exact absurd hfwd this
  have hco : carvePassage o c n = updO (updO o c (o c ||| 8)) n (o n ||| 2) := by
    simp only [carvePassage]
    rw [if_neg (by push_cast; omega), if_pos (by constructor <;> push_cast <;> omega)]
  set o' : OMap := updO (updO o c (o c ||| 8)) n (o n ||| 2) with ho'
  have ho'c : o' c = o c ||| 8 := by
    rw [ho', updO_other _ _ _ _ hcn, updO_self]
  have ho'n : o' n = o n ||| 2 := by rw [ho', updO_self]
  have ho'x : ∀ x : Cell, x ≠ c → x ≠ n → o' x = o x := by
    intro x hxc hxn
    rw [ho', updO_other _ _ _ _ hxn, updO_other _ _ _ _ hxc]
  have hmono : ∀ p m, o p &&& m ≠ 0 → o' p &&& m ≠ 0 := by
    intro p m hpm
    by_cases hpc : p = c
    · rw [hpc, ho'c]; exact and_ne_of_left _ _ _ (hpc ▸ hpm)
    · by_cases hpn : p = n
      · rw [hpn, ho'n]; exact and_ne_of_left _ _ _ (hpn ▸ hpm)
      · rw [ho'x p hpc hpn]; exact hpm
  have hsym' : Sym4 W H o' := by
    constructor
    · intro x
      by_cases hxc : x = c
      · rw [hxc, ho'c]; exact or_lt_16 _ _ (h.lt16 c) (by decide)
      · by_cases hxn : x = n
        · rw [hxn, ho'n]; exact or_lt_16 _ _ (h.lt16 n) (by decide)
        · rw [ho'x x hxc hxn]; exact h.lt16 x
    · -- symE
      intro x hx
      by_cases hxn : x = n
      · subst hxn
        refine ⟨hW, ?_⟩
        rw [← hc, ho'c]
        exact and_ne_of_right _ _ _ (by decide)
      · by_cases hxc : x = c
        · subst hxc
          rw [ho'c] at hx
          rcases and_ne_split _ _ _ hx with hx' | hx'
          · obtain ⟨hb, hm⟩ := h.symE c hx'
            exact ⟨hb, hmono _ _ hm⟩
          · exact absurd hx' (by decide)
        · rw [ho'x x hxc hxn] at hx
          obtain ⟨hb, hm⟩ := h.symE x hx
          exact ⟨hb, hmono _ _ hm⟩
    · -- symW
      intro x hx
      by_cases hxc : x = c
      · subst hxc
        refine ⟨n, hc, ?_⟩
        rw [ho'n]
        exact and_ne_of_right _ _ _ (by decide)
      · by_cases hxn : x = n
        · subst hxn
          rw [ho'n] at hx
          rcases and_ne_split _ _ _ hx with hx' | hx'
          · obtain ⟨d, hd, hm⟩ := h.symW x hx'
            exact ⟨d, hd, hmono _ _ hm⟩
          · exact absurd hx' (by decide)
        · rw [ho'x x hxc hxn] at hx
          obtain ⟨d, hd, hm⟩ := h.symW x hx
          exact ⟨d, hd, hmono _ _ hm⟩
    · -- symS
      intro x hx
      by_cases hxc : x = c
      · subst hxc
        rw [ho'c] at hx
        rcases and_ne_split _ _ _ hx with hx' | hx'
        · obtain ⟨hb, hm⟩ := h.symS c hx'
          exact ⟨hb, hmono _ _ hm⟩
        · exact absurd hx' (by decide)
      · by_cases hxn : x = n
        · subst hxn
          rw [ho'n] at hx
          rcases and_ne_split _ _ _ hx with hx' | hx'
          · obtain ⟨hb, hm⟩ := h.symS x hx'
            exact ⟨hb, hmono _ _ hm⟩
          · exact absurd hx' (by decide)
        · rw [ho'x x hxc hxn] at hx
          obtain ⟨hb, hm⟩ := h.symS x hx
          exact ⟨hb, hmono _ _ hm⟩
    · -- symN
      intro x hx
      by_cases hxc : x = c
      · subst hxc
        rw [ho'c] at hx
        rcases and_ne_split _ _ _ hx with hx' | hx'
        · obtain ⟨d, hd, hm⟩ := h.symN c hx'
          exact ⟨d, hd, hmono _ _ hm⟩
        · exact absurd hx' (by decide)
      · by_cases hxn : x = n
        · subst hxn
          rw [ho'n] at hx
          rcases and_ne_split _ _ _ hx with hx' | hx'
          · obtain ⟨d, hd, hm⟩ := h.symN x hx'
            exact ⟨d, hd, hmono _ _ hm⟩
          · exact absurd hx' (by decide)
        · rw [ho'x x hxc hxn] at hx
          obtain ⟨d, hd, hm⟩ := h.symN x hx
          exact ⟨d, hd, hmono _ _ hm⟩
  have hpop : popSum W H o' = popSum W H o + 2 := by
    have hcmem : c ∈ gridFinset W H := by
      rw [mem_gridFinset, hc]
      exact ⟨hW, hcH⟩
    have hnmem : n ∈ gridFinset W H := by
      rw [mem_gridFinset]
      exact ⟨by omega, hcH⟩
    have hsum := sum_comp_updO2 (gridFinset W H) popcount4 o c n
      (o c ||| 8) (o n ||| 2) hcmem hnmem hcn
    have hpc : popcount4 (o c ||| 8) = popcount4 (o c) + 1 :=
      (popcount4_or_fresh (o c) (h.lt16 c)).2.2.2 (hc ▸ hfwd)
    have hpn : popcount4 (o n ||| 2) = popcount4 (o n) + 1 :=
      (popcount4_or_fresh (o n) (h.lt16 n)).2.1 hmir
    rw [← ho'] at hsum
    unfold popSum
    omega
  have hob : openBetween o' c n = true := by
    have hs := openBetween_stepW o' n ?h1 ?h2
    case h1 => rw [ho'n]; exact and_ne_of_right _ _ _ (by decide)
    case h2 => rw [← hc, ho'c]; exact and_ne_of_right _ _ _ (by decide)
    rw [← hc] at hs
    exact hs
  rw [hco]
  exact ⟨hsym', hpop, hmono, hob, ho'x, ho'c, ho'n⟩

theorem Sym4.openN {W H : Nat} {o : OMap} (h : Sym4 W H o) (n : Cell)
    (hN1 : n.1 < W) (hN2 : n.2 + 1 < H) (hfwd : o (n.1, n.2 + 1) &&& 1 = 0) :
    Sym4 W H (carvePassage o (n.1, n.2 + 1) n) ∧
    popSum W H (carvePassage o (n.1, n.2 + 1) n) = popSum W H o + 2 ∧
    (∀ p m, o p &&& m ≠ 0 → carvePassage o (n.1, n.2 + 1) n p &&& m ≠ 0) ∧
    openBetween (carvePassage o (n.1, n.2 + 1) n) (n.1, n.2 + 1) n = true ∧
    (∀ x : Cell, x ≠ (n.1, n.2 + 1) → x ≠ n →
      carvePassage o (n.1, n.2 + 1) n x = o x) ∧
    carvePassage o (n.1, n.2 + 1) n (n.1, n.2 + 1) = o (n.1, n.2 + 1) ||| 1 ∧
    carvePassage o (n.1, n.2 + 1) n n = o n ||| 4 := by
  set c : Cell := (n.1, n.2 + 1) with hc
  have hcn : c ≠ n := by
    intro he; rw [hc, Prod.ext_iff] at he; omega
  have hmir : o n &&& 4 = 0 := by
    by_cases hb : o n &&& 4 = 0
    · exact hb
    · have := (h.symS n hb).2
      rw [← hc] at this
      exact absurd hfwd this
  have hco : carvePassage o c n = updO (updO o c (o c ||| 1)) n (o n ||| 4) := by
    simp only [carvePassage]
    rw [if_neg (by push_cast; omega), if_neg (by push_cast; omega),
      if_neg (by push_cast; omega), if_pos (by constructor <;> push_cast <;> omega)]
  set o' : OMap := updO (updO o c (o c ||| 1)) n (o n ||| 4) with ho'
  have ho'c : o' c = o c ||| 1 := by
    rw [ho', updO_other _ _ _ _ hcn, updO_self]
  have ho'n : o' n = o n ||| 4 := by rw [ho', updO_self]
  have ho'x : ∀ x : Cell, x ≠ c → x ≠ n → o' x = o x := by
    intro x hxc hxn
    rw [ho', updO_other _ _ _ _ hxn, updO_other _ _ _ _ hxc]
  have hmono : ∀ p m, o p &&& m ≠ 0 → o' p &&& m ≠ 0 := by
    intro p m hpm
    by_cases hpc : p = c
    · rw [hpc, ho'c]; exact and_ne_of_left _ _ _ (hpc ▸ hpm)
    · by_cases hpn : p = n
      · rw [hpn, ho'n]; exact and_ne_of_left _ _ _ (hpn ▸ hpm)
      · rw [ho'x p hpc hpn]; exact hpm
  have hsym' : Sym4 W H o' := by
    constructor
    · intro x
      by_cases hxc : x = c
      · rw [hxc, ho'c]; exact or_lt_16 _ _ (h.lt16 c) (by decide)
      · by_cases hxn : x = n
        · rw [hxn, ho'n]; exact or_lt_16 _ _ (h.lt16 n) (by decide)
        · rw [ho'x x hxc hxn]; exact h.lt16 x
    · -- symE
      intro x hx
      by_cases hxc : x = c
      · subst hxc
        rw [ho'c] at hx
        rcases and_ne_split _ _ _ hx with hx' | hx'
        · obtain ⟨hb, hm⟩ := h.symE c hx'
          exact ⟨hb, hmono _ _ hm⟩
        · exact absurd hx' (by decide)
      · by_cases hxn : x = n
        · subst hxn
          rw [ho'n] at hx
          rcases and_ne_split _ _ _ hx with hx' | hx'
          · obtain ⟨hb, hm⟩ := h.symE x hx'
            exact ⟨hb, hmono _ _ hm⟩
          · exact absurd hx' (by decide)
        · rw [ho'x x hxc hxn] at hx
          obtain ⟨hb, hm⟩ := h.symE x hx
          exact ⟨hb, hmono _ _ hm⟩
    · -- symW
      intro x hx
      by_cases hxc : x = c
      · subst hxc
        rw [ho'c] at hx
        rcases and_ne_split _ _ _ hx with hx' | hx'
        · obtain ⟨d, hd, hm⟩ := h.symW c hx'
          exact ⟨d, hd, hmono _ _ hm⟩
        · exact absurd hx' (by decide)
      · by_cases hxn : x = n
        · subst hxn
          rw [ho'n] at hx
          rcases and_ne_split _ _ _ hx with hx' | hx'
          · obtain ⟨d, hd, hm⟩ := h.symW x hx'
            exact ⟨d, hd, hmono _ _ hm⟩
          · exact absurd hx' (by decide)
        · rw [ho'x x hxc hxn] at hx
          obtain ⟨d, hd, hm⟩ := h.symW x hx
          exact ⟨d, hd, hmono _ _ hm⟩
    · -- symS
      intro x hx
      by_cases hxn : x = n
      · subst hxn
        refine ⟨hN2, ?_⟩
        rw [← hc, ho'c]
        exact and_ne_of_right _ _ _ (by decide)
      · by_cases hxc : x = c
        · subst hxc
          rw [ho'c] at hx
          rcases and_ne_split _ _ _ hx with hx' | hx'
          · obtain ⟨hb, hm⟩ := h.symS c hx'
            exact ⟨hb, hmono _ _ hm⟩
          · exact absurd hx' (by decide)
        · rw [ho'x x hxc hxn] at hx
          obtain ⟨hb, hm⟩ := h.symS x hx
          exact ⟨hb, hmono _ _ hm⟩
    · -- symN
      intro x hx
      by_cases hxc : x = c
      · subst hxc
        refine ⟨n, hc, ?_⟩
        rw [ho'n]
        exact and_ne_of_right _ _ _ (by decide)
      · by_cases hxn : x = n
        · subst hxn
          rw [ho'n] at hx
          rcases and_ne_split _ _ _ hx with hx' | hx'
          · obtain ⟨d, hd, hm⟩ := h.symN x hx'
            exact ⟨d, hd, hmono _ _ hm⟩
          · exact absurd hx' (by decide)
        · rw [ho'x x hxc hxn] at hx
          obtain ⟨d, hd, hm⟩ := h.symN x hx
          exact ⟨d, hd, hmono _ _ hm⟩
  have hpop : popSum W H o' = popSum W H o + 2 := by
    have hcmem : c ∈ gridFinset W H := by
      rw [mem_gridFinset, hc]
      exact ⟨hN1, hN2⟩
    have hnmem : n ∈ gridFinset W H := by
      rw [mem_gridFinset]
      exact ⟨hN1, by omega⟩
    have hsum := sum_comp_updO2 (gridFinset W H) popcount4 o c n
      (o c ||| 1) (o n ||| 4) hcmem hnmem hcn
    have hpc : popcount4 (o c ||| 1) = popcount4 (o c) + 1 :=
      (popcount4_or_fresh (o c) (h.lt16 c)).1 (hc ▸ hfwd)
    have hpn : popcount4 (o n ||| 4) = popcount4 (o n) + 1 :=
      (popcount4_or_fresh (o n) (h.lt16 n)).2.2.1 hmir
    rw [← ho'] at hsum
    unfold popSum
    omega
  have hob : openBetween o' c n = true := by
    have hs := openBetween_stepN o' n ?h1 ?h2
    case h1 => rw [ho'n]; exact and_ne_of_right _ _ _ (by decide)
    case h2 => rw [← hc, ho'c]; exact and_ne_of_right _ _ _ (by decide)
    rw [← hc] at hs
    exact hs
  rw [hco]
  exact ⟨hsym', hpop, hmono, hob, ho'x, ho'c, ho'n⟩

/-- One row of `sidewinderBidirectional` (`y ≥ 1`): walk the traversal
order `xs`, mark each cell and push it on the current run; at the row
boundary close out unconditionally (the `||` short-circuits, consuming no
stream value for the test), otherwise a stream value decides; closing out
picks a random run cell and carves north, continuing carves sideways to
the next cell. -/
def swRow (s : RS) (y : Nat) : List Nat → List Cell → OMap → GMap → Nat → OMap × GMap × Nat
  | [], _, o, g, k => (o, g, k)
  | x :: rest, run, o, g, k =>
    let cell : Cell := (x, y)
    let g1 := updG g cell true
    let run1 := run ++ [cell]
    match rest with
    | [] =>
      let runCell := run1.getD (s k % run1.length) cell
      (carvePassage o runCell (runCell.1, y - 1), g1, k + 1)
    | x2 :: rest2 =>
      if s k % 2 = 0 then
        let runCell := run1.getD (s (k + 1) % run1.length) cell
        swRow s y (x2 :: rest2) [] (carvePassage o runCell (runCell.1, y - 1)) g1 (k + 2)
      else
        swRow s y (x2 :: rest2) run1 (carvePassage o cell (x2, y)) g1 (k + 1)

/-- Row 0 of `sidewinderBidirectional`: a single west-to-east corridor. -/
def swRow0 (W : Nat) (o : OMap) (g : GMap) : OMap × GMap :=
  (List.range (W - 1)).foldl
    (fun p i => (carvePassage p.1 (i, 0) (i + 1, 0), updG p.2 (i + 1, 0) true)) (o, g)

/-- The remaining rows of `sidewinderBidirectional`, alternating direction
by row parity (`eastward = y % 2 === 0`). -/
def swRows (W : Nat) (s : RS) : List Nat → OMap → GMap → Nat → OMap × GMap × Nat
  | [], o, g, k => (o, g, k)
  | y :: ys, o, g, k =>
    let xs := if y % 2 = 0 then List.range W else (List.range W).reverse
    match swRow s y xs [] o g k with
    | (o1, g1, k1) => swRows W s ys o1 g1 k1

/-- `sidewinderBidirectional(visualizer)`: corridor row 0, then each later
row in alternating direction.  The algorithm is structurally terminating,
so no fuel is needed. -/
def sidewinderBidirectional (W H : Nat) (s : RS) : OMap × GMap :=
  match swRow0 W (fun _ => 0) (updG (fun _ => false) (0, 0) true) with
  | (o1, g1) =>
    match swRows W s (List.range' 1 (H - 1)) o1 g1 0 with
    | (o2, g2, _) => (o2, g2)

theorem Reach_symm (o : OMap) (a b : Cell) (h : Reach o a b) : Reach o b a := by
  apply Relation.ReflTransGen.symmetric
  · intro x y hxy
    rwa [openBetween_symm]
  · exact h

theorem getLastD_append_singleton (l : List Cell) (a d : Cell) :
    (l ++ [a]).getLastD d = a := by
  induction l generalizing d with
  | nil => rfl
  | cons b t ih =>
    rw [List.cons_append, List.getLastD_cons]
    exact ih b

theorem getLastD_mem (l : List Cell) (d : Cell) (h : l ≠ []) : l.getLastD d ∈ l := by
  induction l generalizing d with
  | nil => exact absurd rfl h
  | cons b t ih =>
    rw [List.getLastD_cons]
    rcases ht : t with _ | ⟨c, t2⟩
    · exact List.mem_cons_self _ _
    · rw [← ht]
      exact List.mem_cons_of_mem _ (ih b (by rw [ht]; simp))

theorem and1_of_and5 (m : Nat) (h : m &&& 5 = 0) : m &&& 1 = 0 := by
  have h51 : (5 : Nat) &&& 1 = 1 := rfl
  calc m &&& 1 = m &&& (5 &&& 1) := by rw [h51]
    _ = (m &&& 5) &&& 1 := by rw [Nat.and_assoc]
    _ = 0 := by rw [h]; rfl

theorem chain'_adj_range (W : Nat) :
    List.Chain' (fun a b => b = a + 1 ∨ a = b + 1) (List.range W) := by
  rw [List.chain'_iff_get]
  intro i hi
  left
  simp only [List.get_eq_getElem, List.getElem_range]

theorem chain'_adj_range_reverse (W : Nat) :
    List.Chain' (fun a b => b = a + 1 ∨ a = b + 1) (List.range W).reverse := by
  rw [List.chain'_reverse]
  apply List.Chain'.imp ?_ (chain'_adj_range W)
  intro a b hab
  simp only [flip] at hab ⊢
  tauto

/-- Mid-row invariant of `sidewinderBidirectional`: `xs` the remaining
positions of row `y`, `run` the currently open run.  Rows below `y` are a
spanning-tree-so-far (symmetric masks, count, reachability from the root),
the processed prefix of row `y` is generated, the open run is internally
connected with a dangling carve into the next position, and no other
carving touches unvisited cells. -/
structure SWInv (W H y : Nat) (r : Cell) (xs : List Nat) (run : List Cell)
    (o : OMap) (g : GMap) : Prop where
  hxsb : ∀ x ∈ xs, x < W
  hchain : List.Chain' (fun a b => b = a + 1 ∨ a = b + 1) (run.map Prod.fst ++ xs)
  hnd : (run.map Prod.fst ++ xs).Nodup
  hrun : ∀ c ∈ run, c.2 = y ∧ c.1 < W
  hgen : ∀ c : Cell, g c = true ↔
    ((c.1 < W ∧ c.2 < y) ∨ (c.2 = y ∧ c.1 < W ∧ c.1 ∉ xs))
  hsym : Sym4 W H o
  hcount : popSum W H o + 2 = 2 * genCount W H g
  hreach : ∀ c : Cell, g c = true → c ∉ run → Reach o r c
  hrun_reach : ∀ c ∈ run, ∀ d ∈ run, Reach o c d
  hdangle : run ≠ [] → openBetween o (run.getLastD (0, 0)) (xs.headD 0, y) = true
  hfresh : ∀ c : Cell, g c = false → o c = 0 ∨ (run ≠ [] ∧ c = (xs.headD 0, y))
  hdangle5 : run ≠ [] → o (xs.headD 0, y) &&& 5 = 0
  hrunN : ∀ c ∈ run, o c &&& 1 = 0
  hemp : xs = [] → run = []

/-- Facts holding after a row (and after row 0 up to `y = 0`): rows
`0..y` are generated and form a connected, symmetric, correctly counted
wall state with no carving on unvisited cells. -/
structure SWPost (W H y : Nat) (r : Cell) (o : OMap) (g : GMap) : Prop where
  hgen : ∀ c : Cell, g c = true ↔ (c.1 < W ∧ c.2 < y + 1)
  hsym : Sym4 W H o
  hcount : popSum W H o + 2 = 2 * genCount W H g
  hreach : ∀ c : Cell, g c = true → Reach o r c
  hfresh : ∀ c : Cell, g c = false → o c = 0

theorem swCloseStep {W H y : Nat} {r : Cell} {x : Nat} {rest : List Nat}
    {run : List Cell} {o : OMap} {g : GMap}
    (hy1 : 1 ≤ y) (hyH : y < H)
    (inv : SWInv W H y r (x :: rest) run o g)
    (runCell : Cell) (hrc : runCell ∈ run ++ [((x : Nat), y)]) :
    SWInv W H y r rest [] (carvePassage o runCell (runCell.1, y - 1))
      (updG g (x, y) true) := by
  have hx_lt : x < W := inv.hxsb x (List.mem_cons_self _ _)
  have hx_notrest : x ∉ rest := by
    have h1 := (List.Nodup.of_append_right inv.hnd)
    exact (List.nodup_cons.mp h1).1
  have hrun_gen : ∀ c ∈ run, g c = true := by
    intro c hc
    rw [inv.hgen c]
    right
    refine ⟨(inv.hrun c hc).1, (inv.hrun c hc).2, ?_⟩
    have hdisj := List.disjoint_of_nodup_append inv.hnd
    exact fun hmem => hdisj (List.mem_map_of_mem Prod.fst hc) hmem
  have hcell_fresh : g (x, y) = false := by
    have hnt : ¬(g (x, y) = true) := by
      rw [inv.hgen (x, y)]
      rintro (⟨-, hyy⟩ | ⟨-, -, hx⟩)
      · omega
      · exact hx (List.mem_cons_self _ _)
    rcases hb : g (x, y)
    · rfl
    · exact absurd hb hnt
  have hrc_y : runCell.2 = y := by
    rcases List.mem_append.mp hrc with h | h
    · exact (inv.hrun _ h).1
    · rw [List.mem_singleton.mp h]
  have hrc_x : runCell.1 < W := by
    rcases List.mem_append.mp hrc with h | h
    · exact (inv.hrun _ h).2
    · rw [List.mem_singleton.mp h]
      exact hx_lt
  have hbitsN : o runCell &&& 1 = 0 := by
    rcases List.mem_append.mp hrc with h | h
    · exact inv.hrunN _ h
    · rw [List.mem_singleton.mp h]
      rcases inv.hfresh (x, y) hcell_fresh with h0 | ⟨hne, -⟩
      · rw [h0]
        decide
      · have := inv.hdangle5 hne
        simp only [List.headD_cons] at this
        exact and1_of_and5 _ this
  have hrw2 : (((runCell.1, y - 1) : Cell).1, ((runCell.1, y - 1) : Cell).2 + 1) = runCell := by
    rw [Prod.ext_iff]
    dsimp only
    omega
  have hfwd : o (((runCell.1, y - 1) : Cell).1, ((runCell.1, y - 1) : Cell).2 + 1) &&& 1 = 0 := by
    rw [hrw2]
    exact hbitsN
  have hcarve := inv.hsym.openN (runCell.1, y - 1) (by dsimp only; exact hrc_x)
    (by dsimp only; omega) hfwd
  rw [hrw2] at hcarve
  obtain ⟨hsym1, hpop1, hmono1, hob1, hframe1, ho1c, ho1n⟩ := hcarve
  set o1 := carvePassage o runCell (runCell.1, y - 1) with ho1
  set g1 := updG g (x, y) true with hg1
  have hn_gen : g (runCell.1, y - 1) = true := by
    rw [inv.hgen]
    left
    exact ⟨hrc_x, by omega⟩
  have hn_notrun : (runCell.1, y - 1) ∉ run := by
    intro hmem
    have := (inv.hrun _ hmem).1
    dsimp only at this
    omega
  have hreach_n1 : Reach o1 r (runCell.1, y - 1) :=
    Reach_mono o o1 hmono1 _ _ (inv.hreach _ hn_gen hn_notrun)
  rw [openBetween_symm] at hob1
  have hreach_rc : Reach o1 r runCell := Relation.ReflTransGen.tail hreach_n1 hob1
  have hrr1 : ∀ c ∈ run ++ [((x : Nat), y)], ∀ d ∈ run ++ [((x : Nat), y)], Reach o c d := by
    intro c hc d hd
    by_cases hne : run = []
    · subst hne
      simp only [List.nil_append, List.mem_singleton] at hc hd
      rw [hc, hd]
      exact Relation.ReflTransGen.refl
    · have hedge : openBetween o (run.getLastD (0, 0)) (x, y) = true := by
        have := inv.hdangle hne
        simpa using this
      have hlast_mem := getLastD_mem run (0, 0) hne
      have hcell_reach : ∀ e ∈ run, Reach o e ((x : Nat), y) := by
        intro e he
        exact Relation.ReflTransGen.tail (inv.hrun_reach e he _ hlast_mem) hedge
      rcases List.mem_append.mp hc with hc' | hc' <;>
        rcases List.mem_append.mp hd with hd' | hd'
      · exact inv.hrun_reach c hc' d hd'
      · rw [List.mem_singleton.mp hd']
        exact hcell_reach c hc'
      · rw [List.mem_singleton.mp hc']
        exact Reach_symm o _ _ (hcell_reach d hd')
      · rw [List.mem_singleton.mp hc', List.mem_singleton.mp hd']
        exact Relation.ReflTransGen.refl
  have hreach1_run1 : ∀ c ∈ run ++ [((x : Nat), y)], Reach o1 r c := by
    intro c hc
    exact hreach_rc.trans (Reach_mono o o1 hmono1 _ _ (hrr1 runCell hrc c hc))
  have hcgrid : ((x : Nat), y) ∈ gridFinset W H := by
    rw [mem_gridFinset]
    exact ⟨hx_lt, hyH⟩
  have hgcnew : genCount W H g1 = genCount W H g + 1 :=
    genCount_updG_true W H g (x, y) hcgrid hcell_fresh
  constructor
  · exact fun x' hx' => inv.hxsb x' (List.mem_cons_of_mem _ hx')
  · have h1 := (List.chain'_append.mp inv.hchain).2.1
    simp only [List.map_nil, List.nil_append]
    exact h1.tail
  · simp only [List.map_nil, List.nil_append]
    exact (List.nodup_cons.mp (List.Nodup.of_append_right inv.hnd)).2
  · intro c hc
    exact absurd hc (List.not_mem_nil c)
  · intro c
    by_cases hcc : c = ((x : Nat), y)
    · subst hcc
      rw [hg1, updG_self]
      exact iff_of_true rfl (Or.inr ⟨rfl, hx_lt, hx_notrest⟩)
    · rw [hg1, updG_other _ _ _ _ hcc, inv.hgen c]
      constructor
      · rintro (h | ⟨h1, h2, h3⟩)
        · exact Or.inl h
        · exact Or.inr ⟨h1, h2, fun hmem => h3 (List.mem_cons_of_mem _ hmem)⟩
      · rintro (h | ⟨h1, h2, h3⟩)
        · exact Or.inl h
        · right
          refine ⟨h1, h2, ?_⟩
          intro hmem
          rcases List.mem_cons.mp hmem with he | hm
          · exact hcc (by rw [Prod.ext_iff]; exact ⟨he, h1⟩)
          · exact h3 hm
  · exact hsym1
  · rw [hpop1, hgcnew]
    have := inv.hcount
    omega
  · intro c hc _
    by_cases hcc : c = ((x : Nat), y)
    · subst hcc
      exact hreach1_run1 _ (List.mem_append.mpr (Or.inr (List.mem_singleton.mpr rfl)))
    · rw [hg1, updG_other _ _ _ _ hcc] at hc
      by_cases hcr : c ∈ run
      · exact hreach1_run1 c (List.mem_append.mpr (Or.inl hcr))
      · exact Reach_mono o o1 hmono1 _ _ (inv.hreach c hc hcr)
  · intro c hc
    exact absurd hc (List.not_mem_nil c)
  · intro hne
    exact absurd rfl hne
  · intro c hc
    by_cases hcc : c = ((x : Nat), y)
    · rw [hg1, hcc, updG_self] at hc
      exact absurd hc (by simp)
    · rw [hg1, updG_other _ _ _ _ hcc] at hc
      left
      have h0 : o c = 0 := by
        rcases inv.hfresh c hc with h0 | ⟨-, he⟩
        · exact h0
        · simp only [List.headD_cons] at he
          exact absurd he hcc
      have hc_rc : c ≠ runCell := by
        intro he
        rcases List.mem_append.mp hrc with h | h
        · rw [he] at hc
          rw [hrun_gen _ h] at hc
          exact absurd hc (by simp)
        · exact hcc (he.trans (List.mem_singleton.mp h))
      have hc_n : c ≠ (runCell.1, y - 1) := by
        intro he
        rw [he] at hc
        rw [hn_gen] at hc
        exact absurd hc (by simp)
      rw [hframe1 c hc_rc hc_n]
      exact h0
  · intro hne
    exact absurd rfl hne
  · intro c hc
    exact absurd hc (List.not_mem_nil c)
  · intro _
    rfl

theorem swExtendStep {W H y : Nat} {r : Cell} {x x2 : Nat} {rest2 : List Nat}
    {run : List Cell} {o : OMap} {g : GMap}
    (hy1 : 1 ≤ y) (hyH : y < H)
    (inv : SWInv W H y r (x :: x2 :: rest2) run o g) :
    SWInv W H y r (x2 :: rest2) (run ++ [((x : Nat), y)])
      (carvePassage o (x, y) (x2, y)) (updG g (x, y) true) := by
  have hx_lt : x < W := inv.hxsb x (List.mem_cons_self _ _)
  have hx2_lt : x2 < W := inv.hxsb x2 (List.mem_cons_of_mem _ (List.mem_cons_self _ _))
  have hnd_tail : (x :: x2 :: rest2).Nodup := List.Nodup.of_append_right inv.hnd
  have hx_notrest : x ∉ x2 :: rest2 := (List.nodup_cons.mp hnd_tail).1
  have hx_ne_x2 : x ≠ x2 := fun he => hx_notrest (he ▸ List.mem_cons_self _ _)
  have hadj : x2 = x + 1 ∨ x = x2 + 1 := by
    have h2 := (List.chain'_append.mp inv.hchain).2.1
    exact (List.chain'_cons.mp h2).1
  have hcell_fresh : g (x, y) = false := by
    have hnt : ¬(g (x, y) = true) := by
      rw [inv.hgen (x, y)]
      rintro (⟨-, hyy⟩ | ⟨-, -, hx⟩)
      · omega
      · exact hx (List.mem_cons_self _ _)
    rcases hb : g (x, y)
    · rfl
    · exact absurd hb hnt
  have hx2_fresh : g ((x2 : Nat), y) = false := by
    have hnt : ¬(g ((x2 : Nat), y) = true) := by
      rw [inv.hgen ((x2 : Nat), y)]
      rintro (⟨-, hyy⟩ | ⟨-, -, hx⟩)
      · omega
      · exact hx (List.mem_cons_of_mem _ (List.mem_cons_self _ _))
    rcases hb : g ((x2 : Nat), y)
    · rfl
    · exact absurd hb hnt
  have hx2_zero : o ((x2 : Nat), y) = 0 := by
    rcases inv.hfresh _ hx2_fresh with h0 | ⟨-, he⟩
    · exact h0
    · simp only [List.headD_cons] at he
      rw [Prod.ext_iff] at he
      exact absurd he.1.symm hx_ne_x2
  have hcell_and1 : o ((x : Nat), y) &&& 1 = 0 := by
    rcases inv.hfresh (x, y) hcell_fresh with h0 | ⟨hne, -⟩
    · rw [h0]
      decide
    · have := inv.hdangle5 hne
      simp only [List.headD_cons] at this
      exact and1_of_and5 _ this
  have key : Sym4 W H (carvePassage o (x, y) (x2, y)) ∧
      popSum W H (carvePassage o (x, y) (x2, y)) = popSum W H o + 2 ∧
      (∀ p m, o p &&& m ≠ 0 → carvePassage o (x, y) (x2, y) p &&& m ≠ 0) ∧
      openBetween (carvePassage o (x, y) (x2, y)) (x, y) (x2, y) = true ∧
      (∀ p : Cell, p ≠ ((x : Nat), y) → p ≠ ((x2 : Nat), y) →
        carvePassage o (x, y) (x2, y) p = o p) ∧
      carvePassage o (x, y) (x2, y) ((x : Nat), y) &&& 1 = 0 ∧
      carvePassage o (x, y) (x2, y) ((x2 : Nat), y) &&& 5 = 0 := by
    rcases hadj with he | hw
    · subst he
      have hfwd : o ((x : Nat), y) &&& 2 = 0 := by
        by_contra hb
        have h2 := (inv.hsym.symE (x, y) hb).2
        rw [hx2_zero] at h2
        exact h2 (by decide)
      obtain ⟨A, B, C, D, E, F, G⟩ := inv.hsym.openE ((x : Nat), y)
        (by dsimp only; omega) hyH hfwd
      refine ⟨A, B, C, D, E, ?_, ?_⟩
      · rw [F, and_or_distrib_bits, hcell_and1]
        decide
      · rw [G]
        dsimp only
        rw [hx2_zero]
        decide
    · subst hw
      have hfwd : o ((x2 + 1 : Nat), y) &&& 8 = 0 := by
        by_contra hb
        obtain ⟨d, hd, hm⟩ := inv.hsym.symW ((x2 + 1 : Nat), y) hb
        have hdx : d = ((x2 : Nat), y) := by
          rw [Prod.ext_iff] at hd ⊢
          dsimp only at hd ⊢
          omega
        rw [hdx, hx2_zero] at hm
        exact hm (by decide)
      obtain ⟨A, B, C, D, E, F, G⟩ := inv.hsym.openW ((x2 : Nat), y)
        (by dsimp only; omega) hyH hfwd
      refine ⟨A, B, C, D, E, ?_, ?_⟩
      · rw [F, and_or_distrib_bits, hcell_and1]
        decide
      · rw [G, hx2_zero]
        decide
  obtain ⟨hsym1, hpop1, hmono1, hob1, hframe1, hc1, hn5⟩ := key
  set o1 := carvePassage o (x, y) (x2, y) with ho1
  set g1 := updG g (x, y) true with hg1
  have hrun_gen : ∀ c ∈ run, g c = true := by
    intro c hc
    rw [inv.hgen c]
    right
    refine ⟨(inv.hrun c hc).1, (inv.hrun c hc).2, ?_⟩
    have hdisj := List.disjoint_of_nodup_append inv.hnd
    exact fun hmem => hdisj (List.mem_map_of_mem Prod.fst hc) hmem
  have hrun_ne_cell : ∀ c ∈ run, c ≠ ((x : Nat), y) := by
    intro c hc he
    have h2 := hrun_gen c hc
    rw [he, hcell_fresh] at h2
    exact absurd h2 (by decide)
  have hrun_ne_x2 : ∀ c ∈ run, c ≠ ((x2 : Nat), y) := by
    intro c hc he
    have hdisj := List.disjoint_of_nodup_append inv.hnd
    have : c.1 ∈ List.map Prod.fst run := List.mem_map_of_mem Prod.fst hc
    apply hdisj this
    rw [he]
    exact List.mem_cons_of_mem _ (List.mem_cons_self _ _)
  have hlist_eq : List.map Prod.fst (run ++ [((x : Nat), y)]) ++ (x2 :: rest2) =
      List.map Prod.fst run ++ (x :: x2 :: rest2) := by
    rw [List.map_append, List.append_assoc]
    rfl
  have hrr1 : ∀ c ∈ run ++ [((x : Nat), y)], ∀ d ∈ run ++ [((x : Nat), y)], Reach o c d := by
    intro c hc d hd
    by_cases hne : run = []
    · subst hne
      simp only [List.nil_append, List.mem_singleton] at hc hd
      rw [hc, hd]
      exact Relation.ReflTransGen.refl
    · have hedge : openBetween o (run.getLastD (0, 0)) (x, y) = true := by
        have := inv.hdangle hne
        simpa using this
      have hlast_mem := getLastD_mem run (0, 0) hne
      have hcell_reach : ∀ e ∈ run, Reach o e ((x : Nat), y) := by
        intro e he
        exact Relation.ReflTransGen.tail (inv.hrun_reach e he _ hlast_mem) hedge
      rcases List.mem_append.mp hc with hc' | hc' <;>
        rcases List.mem_append.mp hd with hd' | hd'
      · exact inv.hrun_reach c hc' d hd'
      · rw [List.mem_singleton.mp hd']
        exact hcell_reach c hc'
      · rw [List.mem_singleton.mp hc']
        exact Reach_symm o _ _ (hcell_reach d hd')
      · rw [List.mem_singleton.mp hc', List.mem_singleton.mp hd']
        exact Relation.ReflTransGen.refl
  have hcgrid : ((x : Nat), y) ∈ gridFinset W H := by
    rw [mem_gridFinset]
    exact ⟨hx_lt, hyH⟩
  have hgcnew : genCount W H g1 = genCount W H g + 1 :=
    genCount_updG_true W H g (x, y) hcgrid hcell_fresh
  constructor
  · exact fun x' hx' => inv.hxsb x' (List.mem_cons_of_mem _ hx')
  · rw [hlist_eq]
    exact inv.hchain
  · rw [hlist_eq]
    exact inv.hnd
  · intro c hc
    rcases List.mem_append.mp hc with h | h
    · exact inv.hrun c h
    · rw [List.mem_singleton.mp h]
      exact ⟨rfl, hx_lt⟩
  · intro c
    by_cases hcc : c = ((x : Nat), y)
    · subst hcc
      rw [hg1, updG_self]
      exact iff_of_true rfl (Or.inr ⟨rfl, hx_lt, hx_notrest⟩)
    · rw [hg1, updG_other _ _ _ _ hcc, inv.hgen c]
      constructor
      · rintro (h | ⟨h1, h2, h3⟩)
        · exact Or.inl h
        · exact Or.inr ⟨h1, h2, fun hmem => h3 (List.mem_cons_of_mem _ hmem)⟩
      · rintro (h | ⟨h1, h2, h3⟩)
        · exact Or.inl h
        · right
          refine ⟨h1, h2, ?_⟩
          intro hmem
          rcases List.mem_cons.mp hmem with he | hm
          · exact hcc (by rw [Prod.ext_iff]; exact ⟨he, h1⟩)
          · exact h3 hm
  · exact hsym1
  · rw [hpop1, hgcnew]
    have := inv.hcount
    omega
  · intro c hc hcr1
    have hcc : c ≠ ((x : Nat), y) := by
      intro he
      exact hcr1 (he ▸ List.mem_append.mpr (Or.inr (List.mem_singleton.mpr rfl)))
    have hcr : c ∉ run := fun h => hcr1 (List.mem_append.mpr (Or.inl h))
    rw [hg1, updG_other _ _ _ _ hcc] at hc
    exact Reach_mono o o1 hmono1 _ _ (inv.hreach c hc hcr)
  · intro c hc d hd
    exact Reach_mono o o1 hmono1 _ _ (hrr1 c hc d hd)
  · intro _
    rw [getLastD_append_singleton]
    simpa using hob1
  · intro c hc
    by_cases hcc : c = ((x : Nat), y)
    · rw [hg1, hcc, updG_self] at hc
      exact absurd hc (by simp)
    · by_cases hc2 : c = ((x2 : Nat), y)
      · right
        exact ⟨by simp, by simpa using hc2⟩
      · left
        rw [hg1, updG_other _ _ _ _ hcc] at hc
        have h0 : o c = 0 := by
          rcases inv.hfresh c hc with h0 | ⟨-, he⟩
          · exact h0
          · simp only [List.headD_cons] at he
            exact absurd he hcc
        rw [hframe1 c hcc hc2]
        exact h0
  · intro _
    simpa using hn5
  · intro c hc
    rcases List.mem_append.mp hc with h | h
    · rw [hframe1 c (hrun_ne_cell c h) (hrun_ne_x2 c h)]
      exact inv.hrunN c h
    · rw [List.mem_singleton.mp h]
      exact hc1
  · intro he
    exact absurd he (by simp)

theorem swDone {W H y : Nat} {r : Cell} {o : OMap} {g : GMap}
    (inv : SWInv W H y r [] [] o g) : SWPost W H y r o g := by
  constructor
  · intro c
    rw [inv.hgen c]
    constructor
    · rintro (⟨h1, h2⟩ | ⟨h1, h2, -⟩)
      · exact ⟨h1, by omega⟩
      · exact ⟨h2, by omega⟩
    · rintro ⟨h1, h2⟩
      by_cases hcy : c.2 = y
      · exact Or.inr ⟨hcy, h1, List.not_mem_nil _⟩
      · exact Or.inl ⟨h1, by omega⟩
  · exact inv.hsym
  · exact inv.hcount
  · intro c hc
    exact inv.hreach c hc (List.not_mem_nil c)
  · intro c hc
    rcases inv.hfresh c hc with h0 | ⟨hne, -⟩
    · exact h0
    · exact absurd rfl hne

theorem swRow_ok {W H y : Nat} {r : Cell} (s : RS) (hy1 : 1 ≤ y) (hyH : y < H) :
    ∀ (xs : List Nat) (run : List Cell) (o : OMap) (g : GMap) (k : Nat),
      SWInv W H y r xs run o g →
      ∃ t : OMap × GMap × Nat, swRow s y xs run o g k = t ∧ SWPost W H y r t.1 t.2.1 := by
  intro xs
  induction xs with
  | nil =>
    intro run o g k inv
    have hrn : run = [] := inv.hemp rfl
    subst hrn
    exact ⟨(o, g, k), rfl, swDone inv⟩
  | cons x rest ih =>
    intro run o g k inv
    rcases rest with _ | ⟨x2, rest2⟩
    · have hne : (run ++ [((x : Nat), y)]).length ≠ 0 := by
        simp
      have hmem := getD_mod_mem (run ++ [((x : Nat), y)]) (s k) ((x : Nat), y) hne
      have hinv2 := swCloseStep hy1 hyH inv _ hmem
      exact ⟨_, rfl, swDone hinv2⟩
    · by_cases hcoin : s k % 2 = 0
      · have hne : (run ++ [((x : Nat), y)]).length ≠ 0 := by
          simp
        have hmem := getD_mod_mem (run ++ [((x : Nat), y)]) (s (k + 1)) ((x : Nat), y) hne
        have hinv2 := swCloseStep hy1 hyH inv _ hmem
        obtain ⟨t, ht, hpost⟩ := ih [] _ _ (k + 2) hinv2
        refine ⟨t, ?_, hpost⟩
        have hunf : swRow s y (x :: x2 :: rest2) run o g k =
            swRow s y (x2 :: rest2) []
              (carvePassage o
                ((run ++ [((x : Nat), y)]).getD
                  (s (k + 1) % (run ++ [((x : Nat), y)]).length) ((x : Nat), y))
                (((run ++ [((x : Nat), y)]).getD
                  (s (k + 1) % (run ++ [((x : Nat), y)]).length) ((x : Nat), y)).1, y - 1))
              (updG g (x, y) true) (k + 2) := by
          rw [swRow]
          rw [if_pos hcoin]
        rw [hunf]
        exact ht
      · have hinv2 := swExtendStep hy1 hyH inv
        obtain ⟨t, ht, hpost⟩ := ih (run ++ [((x : Nat), y)]) _ _ (k + 1) hinv2
        refine ⟨t, ?_, hpost⟩
        have hunf : swRow s y (x :: x2 :: rest2) run o g k =
            swRow s y (x2 :: rest2) (run ++ [((x : Nat), y)])
              (carvePassage o (x, y) (x2, y)) (updG g (x, y) true) (k + 1) := by
          rw [swRow]
          rw [if_neg hcoin]
        rw [hunf]
        exact ht

theorem swRow0_ok (W H : Nat) (hW : 1 ≤ W) (hH : 1 ≤ H) :
    ∃ p : OMap × GMap,
      swRow0 W (fun _ => 0) (updG (fun _ => false) (0, 0) true) = p ∧
      TG W H (0, 0) p.1 p.2 ∧
      (∀ c : Cell, p.2 c = true ↔ (c.1 < W ∧ c.2 < 1)) := by
  have aux : ∀ m, m + 1 ≤ W →
      ∃ p : OMap × GMap,
        (List.range m).foldl
          (fun p i => (carvePassage p.1 (i, 0) (i + 1, 0), updG p.2 (i + 1, 0) true))
          ((fun _ => 0), updG (fun _ => false) (0, 0) true) = p ∧
        TG W H (0, 0) p.1 p.2 ∧
        (∀ c : Cell, p.2 c = true ↔ (c.2 = 0 ∧ c.1 < m + 1)) := by
    intro m
    induction m with
    | zero =>
      intro hm
      refine ⟨((fun _ => 0), updG (fun _ => false) (0, 0) true), rfl, TG.start hW hH, ?_⟩
      intro c
      show updG (fun _ => false) (0, 0) true c = true ↔ (c.2 = 0 ∧ c.1 < 0 + 1)
      constructor
      · intro hc
        by_cases h0 : c = ((0 : Nat), (0 : Nat))
        · rw [h0]
          exact ⟨rfl, by omega⟩
        · rw [updG_other _ _ _ _ h0] at hc
          exact absurd hc (by decide)
      · rintro ⟨h1, h2⟩
        have h0 : c = ((0 : Nat), (0 : Nat)) := by
          rw [Prod.ext_iff]
          omega
        rw [h0, updG_self]
    | succ m ih =>
      intro hm
      obtain ⟨p, hp, htg, hgen⟩ := ih (by omega)
      have hcg : p.2 ((m : Nat), 0) = true := by
        rw [hgen]
        exact ⟨rfl, by omega⟩
      have hng : p.2 ((m + 1 : Nat), 0) = false := by
        have hnt : ¬(p.2 ((m + 1 : Nat), 0) = true) := by
          rw [hgen]
          rintro ⟨-, h2⟩
          dsimp only at h2
          omega
        rcases hb : p.2 ((m + 1 : Nat), 0)
        · rfl
        · exact absurd hb hnt
      have htg2 := htg.carveE ((m : Nat), 0) hcg hng (by dsimp only; omega)
      refine ⟨(carvePassage p.1 ((m : Nat), 0) ((m + 1 : Nat), 0),
        updG p.2 ((m + 1 : Nat), 0) true), ?_, ?_, ?_⟩
      · rw [List.range_succ, List.foldl_append, hp]
        rfl
      · exact htg2
      · intro c
        show updG p.2 ((m + 1 : Nat), 0) true c = true ↔ (c.2 = 0 ∧ c.1 < m + 1 + 1)
        constructor
        · intro hc
          by_cases h0 : c = ((m + 1 : Nat), (0 : Nat))
          · rw [h0]
            exact ⟨rfl, by omega⟩
          · rw [updG_other _ _ _ _ h0] at hc
            have := (hgen c).mp hc
            exact ⟨this.1, by omega⟩
        · rintro ⟨h1, h2⟩
          by_cases h0 : c = ((m + 1 : Nat), (0 : Nat))
          · rw [h0, updG_self]
          · rw [updG_other _ _ _ _ h0]
            rw [hgen]
            refine ⟨h1, ?_⟩
            rcases Nat.lt_succ_iff_lt_or_eq.mp h2 with h | h
            · exact h
            · exact absurd (by rw [Prod.ext_iff]; exact ⟨h, h1⟩) h0
      
  obtain ⟨p, hp, htg, hgen⟩ := aux (W - 1) (by omega)
  refine ⟨p, ?_, htg, ?_⟩
  · rw [swRow0]
    exact hp
  · intro c
    rw [hgen c]
    constructor
    · rintro ⟨h1, h2⟩
      exact ⟨by omega, by omega⟩
    · rintro ⟨h1, h2⟩
      exact ⟨by omega, by omega⟩

theorem swRowInit {W H y : Nat} {r : Cell} {o : OMap} {g : GMap} (xs : List Nat)
    (hy1 : 1 ≤ y) (hpost : SWPost W H (y - 1) r o g)
    (hxb : ∀ x ∈ xs, x < W) (hall : ∀ x, x < W → x ∈ xs)
    (hch : List.Chain' (fun a b => b = a + 1 ∨ a = b + 1) xs) (hnd : xs.Nodup) :
    SWInv W H y r xs [] o g := by
  have hgen : ∀ c : Cell, g c = true ↔ (c.1 < W ∧ c.2 < y) := by
    intro c
    rw [hpost.hgen c]
    constructor
    · rintro ⟨h1, h2⟩
      exact ⟨h1, by omega⟩
    · rintro ⟨h1, h2⟩
      exact ⟨h1, by omega⟩
  constructor
  · exact hxb
  · simpa using hch
  · simpa using hnd
  · intro c hc
    exact absurd hc (List.not_mem_nil c)
  · intro c
    rw [hgen c]
    constructor
    · exact fun h => Or.inl h
    · rintro (h | ⟨h1, h2, h3⟩)
      · exact h
      · exact absurd (hall c.1 h2) h3
  · exact hpost.hsym
  · exact hpost.hcount
  · intro c hc _
    exact hpost.hreach c hc
  · intro c hc
    exact absurd hc (List.not_mem_nil c)
  · intro hne
    exact absurd rfl hne
  · intro c hc
    exact Or.inl (hpost.hfresh c hc)
  · intro hne
    exact absurd rfl hne
  · intro c hc
    exact absurd hc (List.not_mem_nil c)
  · intro _
    rfl

theorem swRows_ok {W H : Nat} {r : Cell} (s : RS) (hW : 1 ≤ W) :
    ∀ (m y : Nat) (o : OMap) (g : GMap) (k : Nat),
      1 ≤ y → y + m ≤ H →
      SWPost W H (y - 1) r o g →
      ∃ t : OMap × GMap × Nat, swRows W s (List.range' y m) o g k = t ∧
        SWPost W H (y + m - 1) r t.1 t.2.1 := by
  intro m
  induction m with
  | zero =>
    intro y o g k hy1 hym hpost
    refine ⟨(o, g, k), rfl, ?_⟩
    have he : y + 0 - 1 = y - 1 := by omega
    rw [he]
    exact hpost
  | succ m ih =>
    intro y o g k hy1 hym hpost
    have hyH : y < H := by omega
    have hinv : SWInv W H y r (if y % 2 = 0 then List.range W else (List.range W).reverse)
        [] o g := by
      by_cases hpar : y % 2 = 0
      · rw [if_pos hpar]
        exact swRowInit (List.range W) hy1 hpost
          (fun x hx => List.mem_range.mp hx)
          (fun x hx => List.mem_range.mpr hx)
          (chain'_adj_range W) (List.nodup_range W)
      · rw [if_neg hpar]
        exact swRowInit ((List.range W).reverse) hy1 hpost
          (fun x hx => List.mem_range.mp (List.mem_reverse.mp hx))
          (fun x hx => List.mem_reverse.mpr (List.mem_range.mpr hx))
          (chain'_adj_range_reverse W) ((List.nodup_reverse).mpr (List.nodup_range W))
    obtain ⟨t1, ht1, hpost1⟩ := swRow_ok s hy1 hyH _ [] o g k hinv
    obtain ⟨o1, g1, k1⟩ := t1
    have hpost1' : SWPost W H ((y + 1) - 1) r o1 g1 := by
      have he : (y + 1) - 1 = y := by omega
      rw [he]
      exact hpost1
    obtain ⟨t2, ht2, hpost2⟩ := ih (y + 1) o1 g1 k1 (by omega) (by omega) hpost1'
    refine ⟨t2, ?_, ?_⟩
    · rw [List.range'_succ, swRows, ht1]
      exact ht2
    · have he : y + 1 + m - 1 = y + (m + 1) - 1 := by omega
      rw [he] at hpost2
      exact hpost2

theorem sidewinderBidirectional_spanning (W H : Nat) (s : RS) (hW : 1 ≤ W) (hH : 1 ≤ H) :
    IsSpanningTree W H (sidewinderBidirectional W H s).1 := by
  obtain ⟨p0, hp0, htg0, hgen0⟩ := swRow0_ok W H hW hH
  obtain ⟨o0, g0⟩ := p0
  have hpost0 : SWPost W H 0 (0, 0) o0 g0 := by
    constructor
    · intro c
      rw [hgen0 c]
    · exact htg0.toSym4
    · exact htg0.count
    · exact htg0.reach
    · exact htg0.freshO
  have hpost0' : SWPost W H (1 - 1) (0, 0) o0 g0 := by
    have he : (1 : Nat) - 1 = 0 := rfl
    rw [he]
    exact hpost0
  obtain ⟨t2, ht2, hpost2⟩ := swRows_ok s hW (H - 1) 1 o0 g0 0 (by omega) (by omega) hpost0'
  obtain ⟨o2, g2, k2⟩ := t2
  have hres : sidewinderBidirectional W H s = (o2, g2) := by
    rw [sidewinderBidirectional, hp0]
    dsimp only
    rw [ht2]
  have hgen2 : ∀ c : Cell, g2 c = true ↔ (c.1 < W ∧ c.2 < H) := by
    intro c
    rw [hpost2.hgen c]
    constructor
    · rintro ⟨h1, h2⟩
      exact ⟨h1, by omega⟩
    · rintro ⟨h1, h2⟩
      exact ⟨h1, by omega⟩
  have htg2 : TG W H (0, 0) o2 g2 := by
    constructor
    · exact ⟨hW, hH⟩
    · rw [hgen2]
      exact ⟨hW, hH⟩
    · intro c hc
      exact (hgen2 c).mp hc
    · exact hpost2.hfresh
    · exact hpost2.hsym.lt16
    · exact hpost2.hsym.symE
    · exact hpost2.hsym.symW
    · exact hpost2.hsym.symS
    · exact hpost2.hsym.symN
    · exact hpost2.hreach
    · exact hpost2.hcount
  have hall : ∀ c : Cell, c.1 < W → c.2 < H → g2 c = true := by
    intro c h1 h2
    exact (hgen2 c).mpr ⟨h1, h2⟩
  rw [hres]
  exact spanningTree_of_TG hW hH htg2 hall

/-- **C2 (amended).** Of the five generation algorithms, the four that the
counterexample does not touch do satisfy the claim: for every grid with
`W ≥ 1`, `H ≥ 1` and every sequence of random choices,
`recursiveBacktracker`, `growingTreeRightWall` and `huntAndKill` terminate
within their fuel bounds and `sidewinderBidirectional` (structurally
terminating) completes, in each case with the carved passage graph a
spanning tree of the `W × H` grid: connected, acyclic, and with exactly
`W*H - 1` carved passages. -/
theorem generation_algorithms_amended_spanning (W H : Nat) (s : RS)
    (hW : 1 ≤ W) (hH : 1 ≤ H) :
    (∃ st, recursiveBacktracker W H s (rbFuel W H) = some st ∧
      IsSpanningTree W H st.walls) ∧
    (∃ og : OMap × GMap, growingTreeRightWall W H s (gtFuel W H) = some og ∧
      IsSpanningTree W H og.1) ∧
    (∃ og : OMap × GMap, huntAndKill W H s (hkFuel W H) = some og ∧
      IsSpanningTree W H og.1) ∧
    IsSpanningTree W H (sidewinderBidirectional W H s).1 :=
  ⟨recursiveBacktracker_spanning W H s hW hH,
   growingTreeRightWall_spanning W H s hW hH,
   huntAndKill_spanning W H s hW hH,
   sidewinderBidirectional_spanning W H s hW hH⟩

theorem generation_algorithms_amended_spanning_witness :
    (1 ≤ 2 ∧ 1 ≤ 2) ∧
    ((∃ st, recursiveBacktracker 2 2 (fun _ => 0) (rbFuel 2 2) = some st ∧
      IsSpanningTree 2 2 st.walls) ∧
    (∃ og : OMap × GMap, growingTreeRightWall 2 2 (fun _ => 0) (gtFuel 2 2) = some og ∧
      IsSpanningTree 2 2 og.1) ∧
    (∃ og : OMap × GMap, huntAndKill 2 2 (fun _ => 0) (hkFuel 2 2) = some og ∧
      IsSpanningTree 2 2 og.1) ∧
    IsSpanningTree 2 2 (sidewinderBidirectional 2 2 (fun _ => 0)).1) :=
  ⟨⟨by decide, by decide⟩,
   generation_algorithms_amended_spanning 2 2 (fun _ => 0) (by decide) (by decide)⟩

/-- On the 2×2 grid with the stream `advStream`, `wilsons` returns `none`
for every fuel bound: the loop-erased walk oscillates forever. -/
theorem wilsons_none_all_fuel :
    ∀ fuel, wilsons 2 2 advStream fuel = none := by
  intro fuel
  show wilsonsLoop 2 2 advStream fuel 2 (fun _ => 0) genRoot00 [(1, 0), (0, 1), (1, 1)] = none
  match fuel with
  | 0 => rfl
  | fuel + 1 =>
    rw [wilsonsLoop]
    have hw := (wilsonWalk_osc fuel 3 (by omega)).1
    simp only [List.getD, advStream]
    norm_num
    rw [hw]

/-- **C2 (counterexample).** The claim asserts that all five generation
algorithms terminate for every sequence of random choices.  `wilsons` does
not: on the 2×2 grid with the explicit stream `advStream` (root `(0,0)`,
walk started at `(0,1)`, every later choice index 1) the loop-erased random
walk steps `(0,1) → (1,1) → (0,1) → …` forever — each revisit of `(0,1)`
splices the path back to `[(0,1)]`, restoring the previous walk state — so
the fuelled embedding of `wilsons`, as a function of the fuel bound, is the
constant function `none`: the algorithm never terminates on this input. -/
theorem wilsons_nontermination_counterexample :
    (fun fuel => wilsons 2 2 advStream fuel) = (fun _ => none) := by
  funext fuel
  exact wilsons_none_all_fuel fuel

end MazeProof
